import Mathlib

/-!
Shallow embedding of `src/balancer.py` (the Balancer Network Synthesis
Engine) and proofs of the specification's claims about it.

Conventions of the embedding:
* Python `int` flows are `Nat` (all flows in this module are non-negative
  and no subtraction below zero occurs in the source).
* `graphviz.Digraph` is a record of the node list and edge list, in the
  order the `dot.node` / `dot.edge` calls append them.  Graphviz node ids
  (`"I0"`, `"O3"`, `"S5"`, `"M7"`, `"_leaf_2"`) are modelled by the
  inductive type `NId`; `nidStr` renders the exact Python string.  The
  source's test `child_id.startswith("_leaf_")` is exactly the test for the
  `NId.leaf` constructor, because every other id rendered by the source
  starts with `"I"`, `"O"`, `"S"` or `"M"`.
* Edge labels are `label=str(flow)` in the source; the embedding stores the
  `Nat` flow itself (the decimal rendering is injective, so nothing is
  lost).
* Python `dict`s are association lists in insertion order; `dictSet`
  implements `d[k] = v` (overwrite in place, else append), `dictUpdate`
  implements `d.update(e)`, `dlookup` implements `d[k]`.
* `ValueError` is modelled by `Except.error` carrying the formatted
  message; the error branch returns before any node or edge exists.
-/

namespace Balancer

/-- Graphviz node identifiers used by `design_balancer`:
`"I{i}"`, `"O{j}"`, `"S{c}"`, `"M{c}"` and the placeholder `"_leaf_{d}"`. -/
inductive NId where
  | input : Nat → NId
  | output : Nat → NId
  | splitter : Nat → NId
  | merger : Nat → NId
  | leaf : Nat → NId
deriving DecidableEq

/-- The Python string id of a node (`f"I{idx}"`, ..., `f"_leaf_{dest_id}"`). -/
def nidStr : NId → String
  | NId.input i => "I" ++ toString i
  | NId.output j => "O" ++ toString j
  | NId.splitter c => "S" ++ toString c
  | NId.merger c => "M" ++ toString c
  | NId.leaf d => "_leaf_" ++ toString d

/-- One `dot.node(id, label, shape=…, style='filled', fillcolor=…)` call. -/
structure GNode where
  id : NId
  label : String
  shape : String
  fillcolor : String
deriving DecidableEq

/-- One `dot.edge(src, dst, label=str(flow))` call. -/
structure GEdge where
  src : NId
  dst : NId
  label : Nat
deriving DecidableEq

/-- The `graphviz.Digraph` value: nodes and edges in call order. -/
structure Digraph where
  nodes : List GNode
  edges : List GEdge
deriving DecidableEq

/-- Python `d[k] = v` on an insertion-ordered dict: overwrite in place if the
key exists, otherwise append. -/
def dictSet {κ α : Type} [DecidableEq κ] (d : List (κ × α)) (k : κ) (v : α) :
    List (κ × α) :=
  if d.any (fun p => p.1 = k) then
    d.map (fun p => if p.1 = k then (k, v) else p)
  else d ++ [(k, v)]

/-- Python `d.update(e)` on insertion-ordered dicts. -/
def dictUpdate {κ α : Type} [DecidableEq κ] (d e : List (κ × α)) :
    List (κ × α) :=
  e.foldl (fun acc p => dictSet acc p.1 p.2) d

/-- Python `d[k]` (with a default in place of `KeyError`; every lookup the
source performs is of a present key). -/
def dlookup {κ α : Type} [DecidableEq κ] (d : List (κ × α)) (k : κ)
    (dflt : α) : α :=
  match d.find? (fun p => p.1 = k) with
  | some p => p.2
  | none => dflt

/-- The key order of a Python dict whose assignments happened in the order
of the given list: first-occurrence order. -/
def dedupFirst : List Nat → List Nat → List Nat
  | [], _ => []
  | x :: xs, seen =>
    if x ∈ seen then dedupFirst xs seen else x :: dedupFirst xs (x :: seen)

/-! ## Phase 1: flow assignment (`balancer.py` lines 21–38)

The working queue `available_inputs` holds `(input_index, remaining_flow)`
pairs; `flow_matrix[i][j] = a` assignments are recorded as `(i, j, a)`
triples in assignment order.  Each `(i, j)` pair is assigned at most once
(within one output's loop every popped index is distinct, and the output
index changes between loops), so the triple list is a faithful rendering of
the nested dict. -/

/-- The inner `while remaining > 0 and available_inputs:` loop for one
output.  Returns the recorded `(input_index, out_idx, amount)` triples and
the queue left for the next output. -/
def processOutput (outIdx : Nat) (queue : List (Nat × Nat)) (remaining : Nat) :
    List (Nat × Nat × Nat) × List (Nat × Nat) :=
  if remaining = 0 then ([], queue)
  else
    match queue with
    | [] => ([], [])
    | (inIdx, inFlow) :: rest =>
      if inFlow ≤ remaining then
        let res := processOutput outIdx rest (remaining - inFlow)
        ((inIdx, outIdx, inFlow) :: res.1, res.2)
      else
        ([(inIdx, outIdx, remaining)], (inIdx, inFlow - remaining) :: rest)

/-- The outer `for out_idx, required_flow in enumerate(outputs):` loop,
threading the queue. -/
def assignFlows : List Nat → List (Nat × Nat) → Nat → List (Nat × Nat × Nat)
  | [], _, _ => []
  | o :: outs, queue, outIdx =>
    let res := processOutput outIdx queue o
    res.1 ++ assignFlows outs res.2 (outIdx + 1)

/-- The complete `flow_matrix` of `design_balancer(inputs, outputs)`, as the
list of recorded `(input_index, output_index, amount)` triples. -/
def flowMatrix (inputs outputs : List Nat) : List (Nat × Nat × Nat) :=
  assignFlows outputs inputs.enum 0

/-- The inner dict `flow_matrix[i]` as `(output_index, amount)` pairs in
insertion order. -/
def matrixRow (m : List (Nat × Nat × Nat)) (i : Nat) : List (Nat × Nat) :=
  (m.filter (fun e => e.1 = i)).map (fun e => e.2)

/-! ## Phase 2: graph construction (`balancer.py` lines 40–227) -/

/-- The mutable construction state: `device_counter[0]` plus the `dot`
object's accumulated nodes and edges. -/
structure BState where
  counter : Nat
  nodes : List GNode
  edges : List GEdge
deriving DecidableEq

/-- `dot.node(id, label, shape=…, style='filled', fillcolor=…)`. -/
def addNode (st : BState) (id : NId) (label shape fillcolor : String) :
    BState :=
  { st with nodes := st.nodes ++ [⟨id, label, shape, fillcolor⟩] }

/-- `dot.edge(src, dst, label=str(flow))`. -/
def addEdge (st : BState) (src dst : NId) (flow : Nat) : BState :=
  { st with edges := st.edges ++ [⟨src, dst, flow⟩] }

/-- `sum(child_dests.values())` / `sum(root_dests.values())`. -/
def childFlow (dests : List (Nat × Nat)) : Nat :=
  (dests.map (fun p => p.2)).sum

/-- `child_id.startswith("_leaf_")`. -/
def isLeaf : NId → Bool
  | NId.leaf _ => true
  | _ => false

/-- Descending insertion sort.  Every call below sorts a list whose sort
keys are pairwise distinct (dict keys are unique and enter the key), so
this computes the same list as Python's `sorted(..., reverse=True)`. -/
def insertDesc {α : Type} (ge : α → α → Bool) (a : α) : List α → List α
  | [] => [a]
  | h :: t => if ge h a then h :: insertDesc ge a t else a :: h :: t

/-- See `insertDesc`. -/
def sortDesc {α : Type} (ge : α → α → Bool) : List α → List α
  | [] => []
  | h :: t => insertDesc ge h (sortDesc ge t)

/-- `key=lambda x: (x[1], x[0])` on `(dest_id, flow)` items, compared
descending: `(a.flow, a.dest) ≥ (b.flow, b.dest)` lexicographically. -/
def destKeyGE (a b : Nat × Nat) : Bool :=
  b.2 < a.2 || (a.2 = b.2 && b.1 ≤ a.1)

/-- Python string `<` (code-point lexicographic) on char lists. -/
def charListLT : List Char → List Char → Bool
  | [], [] => false
  | [], _ :: _ => true
  | _ :: _, [] => false
  | a :: as, b :: bs => a < b || (a = b && charListLT as bs)

/-- Python string comparison of two node ids. -/
def strLT (a b : String) : Bool := charListLT a.data b.data

/-- `key=lambda x: (x[1], x[0])` on `(source_id, flow)` items of the merge
builder, compared descending; the tie-break compares the id strings the way
Python compares `str`. -/
def srcKeyGE (a b : NId × Nat) : Bool :=
  b.2 < a.2 ||
    (a.2 = b.2 && (strLT (nidStr b.1) (nidStr a.1) || nidStr a.1 = nidStr b.1))

/-- The body shared by both branches of the split loop, one grouped root at
a time (the `for child_id, child_dests in group:` loop, with `merged` the
accumulating `merged_dests`): a leaf root records its destination in
`dest_sources` (keyed by destination, valued `(splitter_id, flow)`); a
device root gets an edge `splitter → child`; either way `merged_dests`
grows by the child's destinations. -/
def processGroup (sid : NId) :
    BState → List (Nat × NId × Nat) → List (NId × List (Nat × Nat)) →
    List (Nat × Nat) → BState × List (Nat × NId × Nat) × List (Nat × Nat)
  | st, ds, [], merged => (st, ds, merged)
  | st, ds, child :: grp, merged =>
    if isLeaf child.1 then
      processGroup sid st
        (child.2.foldl (fun d p => dictSet d p.1 (sid, p.2)) ds) grp
        (dictUpdate merged child.2)
    else
      processGroup sid (addEdge st sid child.1 (childFlow child.2)) ds grp
        (dictUpdate merged child.2)

/-- The `while len(roots) > 1:` loop of `build_split_tree`, with an
explicit fuel so that the recursion is structural: group the first three
roots (or the final two) under a fresh splitter and append the merged root
at the end.  One unit of fuel pays for one iteration; each iteration
shortens the root list, so `roots.length` fuel always suffices, and the
zero-fuel fallback returns the state unchanged exactly like the loop's exit
(it is never reached with at least two roots when started with enough
fuel). -/
def splitLoopF : Nat → BState → List (Nat × NId × Nat) →
    List (NId × List (Nat × Nat)) →
    BState × List (Nat × NId × Nat) × List (NId × List (Nat × Nat))
  | 0, st, ds, roots => (st, ds, roots)
  | fuel + 1, st, ds, roots =>
    match roots with
    | r1 :: r2 :: r3 :: rest =>
      let sid := NId.splitter st.counter
      let st1 := addNode { st with counter := st.counter + 1 } sid ""
        "diamond" "lightyellow"
      let res := processGroup sid st1 ds [r1, r2, r3] []
      splitLoopF fuel res.1 res.2.1 (rest ++ [(sid, res.2.2)])
    | [r1, r2] =>
      let sid := NId.splitter st.counter
      let st1 := addNode { st with counter := st.counter + 1 } sid ""
        "diamond" "lightyellow"
      let res := processGroup sid st1 ds [r1, r2] []
      splitLoopF fuel res.1 res.2.1 [(sid, res.2.2)]
    | _ => (st, ds, roots)

/-- The `while len(roots) > 1:` loop itself. -/
def splitLoop (st : BState) (ds : List (Nat × NId × Nat))
    (roots : List (NId × List (Nat × Nat))) :
    BState × List (Nat × NId × Nat) × List (NId × List (Nat × Nat)) :=
  splitLoopF roots.length st ds roots

/-- `build_split_tree(source_id, flows_dict)`: returns the updated state and
the mapping `{dest_id: (node_id, flow)}` as an association list in
`flows_dict` key order. -/
def buildSplitTree (st : BState) (sourceId : NId)
    (flowsDict : List (Nat × Nat)) : BState × List (Nat × NId × Nat) :=
  match flowsDict with
  | [(destId, flow)] => (st, [(destId, sourceId, flow)])
  | _ =>
    let destinations := sortDesc destKeyGE flowsDict
    let roots := destinations.map (fun p => (NId.leaf p.1, [p]))
    let res := splitLoop st [] roots
    let root := res.2.2.headD (NId.input 0, [])
    let st2 := addEdge res.1 sourceId root.1 (childFlow root.2)
    (st2, flowsDict.map (fun p =>
      match res.2.1.find? (fun q => q.1 = p.1) with
      | some q => (p.1, q.2)
      | none => (p.1, (root.1, p.2))))

/-- The `while len(streams) > 1:` loop of `build_merge_tree`, with fuel for
structural recursion exactly as in `splitLoopF`: merge the first three
streams (or the final two) into a fresh merger and append the merged stream
at the end. -/
def mergeLoopF : Nat → BState → List (NId × Nat) →
    BState × List (NId × Nat)
  | 0, st, streams => (st, streams)
  | fuel + 1, st, streams =>
    match streams with
    | s1 :: s2 :: s3 :: rest =>
      let mid := NId.merger st.counter
      let flow := s1.2 + s2.2 + s3.2
      let st1 := addNode { st with counter := st.counter + 1 } mid ""
        "diamond" "lightcoral"
      let st2 := addEdge (addEdge (addEdge st1 s1.1 mid s1.2) s2.1 mid s2.2)
        s3.1 mid s3.2
      mergeLoopF fuel st2 (rest ++ [(mid, flow)])
    | [s1, s2] =>
      let mid := NId.merger st.counter
      let flow := s1.2 + s2.2
      let st1 := addNode { st with counter := st.counter + 1 } mid ""
        "diamond" "lightcoral"
      let st2 := addEdge (addEdge st1 s1.1 mid s1.2) s2.1 mid s2.2
      mergeLoopF fuel st2 [(mid, flow)]
    | _ => (st, streams)

/-- The `while len(streams) > 1:` loop itself. -/
def mergeLoop (st : BState) (streams : List (NId × Nat)) :
    BState × List (NId × Nat) :=
  mergeLoopF streams.length st streams

/-- `build_merge_tree(flows_dict, _dest_id)`: returns the updated state and
the node id of the merged stream. -/
def buildMergeTree (st : BState) (flowsDict : List (NId × Nat)) :
    BState × NId :=
  match flowsDict with
  | [(srcId, _)] => (st, srcId)
  | _ =>
    let sources := sortDesc srcKeyGE flowsDict
    let res := mergeLoop st sources
    (res.1, (res.2.headD (NId.input 0, 0)).1)

/-- The `sources` dict collected for one output: iterate the rows of
`flow_matrix` in key order; when the row assigns to this output, look up
`input_outputs[in_idx][out_idx]` and set `sources[source_node] = flow`. -/
def collectSources (m : List (Nat × Nat × Nat))
    (io : List (Nat × List (Nat × NId × Nat))) (keys : List Nat)
    (outIdx : Nat) : List (NId × Nat) :=
  keys.foldl
    (fun acc i =>
      if (matrixRow m i).any (fun p => p.1 = outIdx) then
        let sf := dlookup (dlookup io i []) outIdx (NId.input 0, 0)
        dictSet acc sf.1 sf.2
      else acc)
    []

/-- The per-output wiring: a single source connects directly to the output
node; several sources go through `build_merge_tree`; no source, no edge. -/
def wireOutput (st : BState) (sources : List (NId × Nat)) (outIdx : Nat) :
    BState :=
  match sources with
  | [] => st
  | [(srcNode, flow)] => addEdge st srcNode (NId.output outIdx) flow
  | _ =>
    let res := buildMergeTree st sources
    addEdge res.1 res.2 (NId.output outIdx) (sources.map (fun p => p.2)).sum

/-- The `for idx in range(len(inputs)):` loop adding the input nodes. -/
def addInputNodes : List Nat → BState → BState
  | [], st => st
  | i :: is, st =>
    addInputNodes is
      (addNode st (NId.input i) ("Input " ++ toString i) "box" "lightgreen")

/-- The `for idx in range(len(outputs)):` loop adding the output nodes. -/
def addOutputNodes : List Nat → BState → BState
  | [], st => st
  | j :: js, st =>
    addOutputNodes js
      (addNode st (NId.output j) ("Output " ++ toString j) "box" "lightblue")

/-- The `for in_idx, out_flows in flow_matrix.items():` loop building one
split tree per recorded input, in dict key order, collecting
`input_outputs`. -/
def splitPhase (m : List (Nat × Nat × Nat)) :
    List Nat → BState → BState × List (Nat × List (Nat × NId × Nat))
  | [], st => (st, [])
  | i :: keys, st =>
    let res := buildSplitTree st (NId.input i) (matrixRow m i)
    let rest := splitPhase m keys res.1
    (rest.1, (i, res.2) :: rest.2)

/-- The `for out_idx in range(len(outputs)):` loop wiring every output. -/
def outputPhase (m : List (Nat × Nat × Nat))
    (io : List (Nat × List (Nat × NId × Nat))) (keys : List Nat) :
    List Nat → BState → BState
  | [], st => st
  | j :: js, st =>
    outputPhase m io keys js (wireOutput st (collectSources m io keys j) j)

/-- The `ValueError` message: it names both totals. -/
def infeasibleMsg (inputs outputs : List Nat) : String :=
  "Total input flow " ++ toString inputs.sum ++
    " must equal total output flow " ++ toString outputs.sum

/-- `design_balancer(inputs, outputs)`.  The feasibility check happens
before anything else; the error value therefore carries no graph at all.
(The cosmetic `dot.attr(rankdir='LR')` call has no node/edge content and is
not modelled.)  The iteration `for in_idx, out_flows in flow_matrix.items()`
follows dict insertion order, which is the first-occurrence order of input
indices in the recorded triples. -/
def designBalancer (inputs outputs : List Nat) : Except String Digraph :=
  if inputs.sum ≠ outputs.sum then
    Except.error (infeasibleMsg inputs outputs)
  else
    let m := flowMatrix inputs outputs
    let st0 : BState := ⟨0, [], []⟩
    let st1 := addInputNodes (List.range inputs.length) st0
    let st2 := addOutputNodes (List.range outputs.length) st1
    let keys := dedupFirst (m.map (fun e => e.1)) []
    let step := splitPhase m keys st2
    let st4 := outputPhase m step.2 keys (List.range outputs.length) step.1
    Except.ok ⟨st4.nodes, st4.edges⟩

/-! ## Observations on the produced graph -/

/-- Is this node a splitter device (`"S{c}"`)? -/
def isSplitterNode (n : GNode) : Bool :=
  match n.id with
  | NId.splitter _ => true
  | _ => false

/-- Is this node a merger device (`"M{c}"`)? -/
def isMergerNode (n : GNode) : Bool :=
  match n.id with
  | NId.merger _ => true
  | _ => false

/-- Number of splitter device nodes in the graph. -/
def splitterCount (g : Digraph) : Nat := (g.nodes.filter isSplitterNode).length

/-- Number of merger device nodes in the graph. -/
def mergerCount (g : Digraph) : Nat := (g.nodes.filter isMergerNode).length

/-- Sum of the labels of the edges entering `v`. -/
def inFlowSum (g : Digraph) (v : NId) : Nat :=
  ((g.edges.filter (fun e => e.dst = v)).map (fun e => e.label)).sum

/-- Sum of the labels of the edges leaving `v`. -/
def outFlowSum (g : Digraph) (v : NId) : Nat :=
  ((g.edges.filter (fun e => e.src = v)).map (fun e => e.label)).sum

/-- The graph of a successful call (the empty graph on the error branch,
where the source raised before creating anything). -/
def graphOf : Except String Digraph → Digraph
  | Except.ok g => g
  | Except.error _ => ⟨[], []⟩

/-- Total flow waiting in the assignment queue. -/
def queueTotal (q : List (Nat × Nat)) : Nat := (q.map (fun p => p.2)).sum

/-- Flow waiting in the assignment queue for input index `i`. -/
def queueFlowAt (q : List (Nat × Nat)) (i : Nat) : Nat :=
  ((q.filter (fun p => p.1 = i)).map (fun p => p.2)).sum

/-- Total amount the matrix records from input `i` (its row sum). -/
def rowAmt (m : List (Nat × Nat × Nat)) (i : Nat) : Nat :=
  ((m.filter (fun e => e.1 = i)).map (fun e => e.2.2)).sum

/-- Total amount the matrix records into output `j` (its column sum). -/
def colAmt (m : List (Nat × Nat × Nat)) (j : Nat) : Nat :=
  ((m.filter (fun e => e.2.1 = j)).map (fun e => e.2.2)).sum

/-- The queue left over after the whole assignment phase (ghost companion
of `assignFlows`). -/
def assignQueue : List Nat → List (Nat × Nat) → Nat → List (Nat × Nat)
  | [], q, _ => q
  | o :: outs, q, j => assignQueue outs (processOutput j q o).2 (j + 1)

/-- Does the matrix record an assignment from input `i` to output `j`? -/
def assigned (m : List (Nat × Nat × Nat)) (i j : Nat) : Bool :=
  m.any (fun e => e.1 = i && e.2.1 = j)

/-- The numeric id of a device node (`None` for inputs, outputs and the
never-materialised leaf placeholders). -/
def nodeDevId (n : GNode) : Option Nat :=
  match n.id with
  | NId.splitter c => some c
  | NId.merger c => some c
  | _ => none

/-- The numeric device ids (splitters and mergers alike) in node order. -/
def deviceIds (g : Digraph) : List Nat := g.nodes.filterMap nodeDevId

/-- Number of edges entering `v`. -/
def inDeg (g : Digraph) (v : NId) : Nat :=
  (g.edges.filter (fun e => e.dst = v)).length

/-- Number of edges leaving `v`. -/
def outDeg (g : Digraph) (v : NId) : Nat :=
  (g.edges.filter (fun e => e.src = v)).length

/-- Number of edges in a list whose source is `v`. -/
def srcCount (es : List GEdge) (v : NId) : Nat :=
  (es.filter (fun e => e.src = v)).length

/-- Number of edges in a list whose target is `v`. -/
def dstCount (es : List GEdge) (v : NId) : Nat :=
  (es.filter (fun e => e.dst = v)).length

/-- Sum of the labels of the edges in a list whose source is `v`. -/
def srcFlowSum (es : List GEdge) (v : NId) : Nat :=
  ((es.filter (fun e => e.src = v)).map (fun e => e.label)).sum

/-- Sum of the labels of the edges in a list whose target is `v`. -/
def dstFlowSum (es : List GEdge) (v : NId) : Nat :=
  ((es.filter (fun e => e.dst = v)).map (fun e => e.label)).sum

/-- Number of `dest_sources` entries whose feeding node is `v`. -/
def dsValCount (ds : List (Nat × NId × Nat)) (v : NId) : Nat :=
  (ds.filter (fun p => p.2.1 = v)).length

/-- Total flow of the `dest_sources` entries whose feeding node is `v`. -/
def dsValFlow (ds : List (Nat × NId × Nat)) (v : NId) : Nat :=
  ((ds.filter (fun p => p.2.1 = v)).map (fun p => p.2.2)).sum

/-- Number of entries of a `sources` dict whose node is `v`. -/
def idCount (l : List (NId × Nat)) (v : NId) : Nat :=
  (l.filter (fun p => p.1 = v)).length

/-- Total flow of the entries of a `sources` dict whose node is `v`. -/
def idFlow (l : List (NId × Nat)) (v : NId) : Nat :=
  ((l.filter (fun p => p.1 = v)).map (fun p => p.2)).sum

/-- Total amount the matrix records from input `i` into output `j`. -/
def rowColAmt (m : List (Nat × Nat × Nat)) (i j : Nat) : Nat :=
  ((m.filter (fun e => e.1 = i ∧ e.2.1 = j)).map (fun e => e.2.2)).sum

end Balancer

namespace Balancer

/-! ## Claim theorems: concrete scenarios and direct consequences -/

/-- C1: for every `n` in `[2, 11]`, `design_balancer([30*n], [30]*n)`
returns a graph with exactly `⌈(n-1)/2⌉` splitter nodes (written
`(n - 1 + 1) / 2` in natural-number division) and zero merger nodes. -/
theorem c1_minimal_fanout_devices (n : Nat) (h1 : 2 ≤ n) (h2 : n ≤ 11) :
    splitterCount (graphOf (designBalancer [30 * n] (List.replicate n 30)))
      = (n - 1 + 1) / 2 ∧
    mergerCount (graphOf (designBalancer [30 * n] (List.replicate n 30)))
      = 0 := by
  interval_cases n <;> exact ⟨by decide, by decide⟩

/-- Witness for C1 at `n = 7`: three splitters, no merger. -/
theorem c1_minimal_fanout_devices_witness :
    splitterCount (graphOf (designBalancer [30 * 7] (List.replicate 7 30)))
      = (7 - 1 + 1) / 2 ∧
    mergerCount (graphOf (designBalancer [30 * 7] (List.replicate 7 30)))
      = 0 :=
  c1_minimal_fanout_devices 7 (by decide) (by decide)

/-- C2: `design_balancer([480, 480, 480], [45]*32)` yields exactly 16
splitter nodes, exactly 2 merger nodes, and each of the 32 output nodes
receives incoming edges whose labels sum to exactly 45. -/
theorem c2_mixed_routing :
    splitterCount (graphOf (designBalancer [480, 480, 480]
      (List.replicate 32 45))) = 16 ∧
    mergerCount (graphOf (designBalancer [480, 480, 480]
      (List.replicate 32 45))) = 2 ∧
    (List.range 32).map (fun j =>
      inFlowSum (graphOf (designBalancer [480, 480, 480]
        (List.replicate 32 45))) (NId.output j))
      = List.replicate 32 45 :=
  ⟨by decide, by decide, by decide⟩

/-- C5: `design_balancer` fails exactly when the totals differ; the error
names both totals (see `infeasibleMsg`); and because the check precedes all
graph construction, a failing call produces an `Except.error` carrying no
graph, while a feasible call always returns a graph. -/
theorem c5_fail_fast (inputs outputs : List Nat) :
    ((∃ e, designBalancer inputs outputs = Except.error e) ↔
      inputs.sum ≠ outputs.sum) ∧
    (inputs.sum ≠ outputs.sum →
      designBalancer inputs outputs = Except.error (infeasibleMsg inputs outputs)) ∧
    (inputs.sum = outputs.sum →
      ∃ g, designBalancer inputs outputs = Except.ok g) := by
  by_cases h : inputs.sum = outputs.sum <;>
    simp [designBalancer, h]

/-- Witness for C5 at `inputs = [1]`, `outputs = [2]`. -/
theorem c5_fail_fast_witness :
    designBalancer [1] [2] = Except.error (infeasibleMsg [1] [2]) :=
  (c5_fail_fast [1] [2]).2.1 (by decide)

/-- C9: `design_balancer` is deterministic — two calls with identical input
and output sequences return identical results (hence identical node ids,
edge sets and labels).  The embedding is a pure function of its arguments;
the source achieves the same by sorting with a total key and relying only
on insertion-ordered dict iteration. -/
theorem c9_deterministic (i1 o1 i2 o2 : List Nat) (hi : i1 = i2)
    (ho : o1 = o2) : designBalancer i1 o1 = designBalancer i2 o2 := by
  rw [hi, ho]

/-- Witness for C9 on two identical calls. -/
theorem c9_deterministic_witness :
    designBalancer [2] [1, 1] = designBalancer [2] [1, 1] :=
  c9_deterministic [2] [1, 1] [2] [1, 1] rfl rfl

/-- Counterexample to C6 as stated: with `inputs = [0, 5]` and
`outputs = [5]` (equal sums), the assignment phase pops the zero-magnitude
input 0 and records `flow_matrix[0][0] = 0` — a recorded amount that is not
strictly positive. -/
theorem c6_counterexample :
    List.sum [0, 5] = List.sum [5] ∧
    ¬ (∀ e ∈ flowMatrix [0, 5] [5], 0 < e.2.2) := by
  decide

end Balancer

namespace Balancer

/-! ## Lemmas on the flow-assignment phase -/

/-- `rowAmt` on the empty matrix. -/
theorem rowAmt_nil (i : Nat) : rowAmt [] i = 0 := rfl

/-- `rowAmt` absorbs one leading record. -/
theorem rowAmt_cons (a b c i : Nat) (m : List (Nat × Nat × Nat)) :
    rowAmt ((a, b, c) :: m) i = (if a = i then c else 0) + rowAmt m i := by
  by_cases h : a = i <;> simp [rowAmt, List.filter_cons, h]

/-- `rowAmt` distributes over append. -/
theorem rowAmt_append (m1 m2 : List (Nat × Nat × Nat)) (i : Nat) :
    rowAmt (m1 ++ m2) i = rowAmt m1 i + rowAmt m2 i := by
  simp [rowAmt, List.filter_append]

/-- `colAmt` absorbs one leading record. -/
theorem colAmt_cons (a b c j : Nat) (m : List (Nat × Nat × Nat)) :
    colAmt ((a, b, c) :: m) j = (if b = j then c else 0) + colAmt m j := by
  by_cases h : b = j <;> simp [colAmt, List.filter_cons, h]

/-- `colAmt` distributes over append. -/
theorem colAmt_append (m1 m2 : List (Nat × Nat × Nat)) (j : Nat) :
    colAmt (m1 ++ m2) j = colAmt m1 j + colAmt m2 j := by
  simp [colAmt, List.filter_append]

/-- `queueFlowAt` absorbs one leading queue entry. -/
theorem queueFlowAt_cons (a b i : Nat) (q : List (Nat × Nat)) :
    queueFlowAt ((a, b) :: q) i = (if a = i then b else 0) + queueFlowAt q i := by
  by_cases h : a = i <;> simp [queueFlowAt, List.filter_cons, h]

/-- A column vanishes when no record names it. -/
theorem colAmt_eq_zero (m : List (Nat × Nat × Nat)) (j : Nat)
    (h : ∀ e ∈ m, e.2.1 ≠ j) : colAmt m j = 0 := by
  induction m with
  | nil => rfl
  | cons e m ih =>
    obtain ⟨a, b, c⟩ := e
    rw [colAmt_cons]
    have hb : b ≠ j := h (a, b, c) (List.mem_cons_self _ _)
    simp [hb]
    exact ih (fun e he => h e (List.mem_cons_of_mem _ he))

/-- A column where every record names it sums all amounts. -/
theorem colAmt_eq_sum (m : List (Nat × Nat × Nat)) (j : Nat)
    (h : ∀ e ∈ m, e.2.1 = j) :
    colAmt m j = (m.map (fun e => e.2.2)).sum := by
  induction m with
  | nil => rfl
  | cons e m ih =>
    obtain ⟨a, b, c⟩ := e
    rw [colAmt_cons]
    have hb : b = j := h (a, b, c) (List.mem_cons_self _ _)
    simp only [hb, if_true, List.map_cons, List.sum_cons, if_pos rfl]
    rw [ih (fun e he => h e (List.mem_cons_of_mem _ he))]

/-- With nothing left to route the inner loop exits at once. -/
theorem processOutput_zero_r (j : Nat) (q : List (Nat × Nat)) :
    processOutput j q 0 = ([], q) := by
  unfold processOutput; simp

/-- With an empty queue the inner loop exits at once. -/
theorem processOutput_nil (j r : Nat) : processOutput j [] r = ([], []) := by
  unfold processOutput; split <;> rfl

/-- One unfolding of the inner loop on a non-empty queue with flow left. -/
theorem processOutput_cons (j i f r : Nat) (rest : List (Nat × Nat))
    (hr : r ≠ 0) :
    processOutput j ((i, f) :: rest) r =
      if f ≤ r then
        ((i, j, f) :: (processOutput j rest (r - f)).1,
          (processOutput j rest (r - f)).2)
      else ([(i, j, r)], (i, f - r) :: rest) := by
  conv_lhs => unfold processOutput
  simp [hr]

/-- Every triple recorded while processing output `j` names output `j`. -/
theorem processOutput_out_eq (j : Nat) :
    ∀ (q : List (Nat × Nat)) (r : Nat),
      ∀ e ∈ (processOutput j q r).1, e.2.1 = j := by
  intro q
  induction q with
  | nil => intro r e he; simp [processOutput_nil] at he
  | cons p rest ih =>
    intro r e he
    obtain ⟨i, f⟩ := p
    by_cases hr : r = 0
    · subst hr; simp [processOutput_zero_r] at he
    · rw [processOutput_cons j i f r rest hr] at he
      by_cases hf : f ≤ r
      · simp [hf] at he
        rcases he with rfl | h2
        · rfl
        · exact ih (r - f) e h2
      · simp [hf] at he
        subst he; rfl

/-- The amounts recorded for one output sum to what the output asked for,
capped by what the queue still holds. -/
theorem processOutput_recs_sum (j : Nat) :
    ∀ (q : List (Nat × Nat)) (r : Nat),
      ((processOutput j q r).1.map (fun e => e.2.2)).sum
        = min r (queueTotal q) := by
  intro q
  induction q with
  | nil => intro r; simp [processOutput_nil, queueTotal]
  | cons p rest ih =>
    intro r
    obtain ⟨i, f⟩ := p
    by_cases hr : r = 0
    · subst hr; simp [processOutput_zero_r]
    · rw [processOutput_cons j i f r rest hr]
      by_cases hf : f ≤ r
      · have h1 := ih (r - f)
        simp only [queueTotal] at h1
        simp only [hf, if_true, List.map_cons, List.sum_cons, queueTotal]
        omega
      · simp only [hf, if_false, List.map_cons, List.map_nil, List.sum_cons,
          List.sum_nil, queueTotal]
        omega

/-- Processing one output drains exactly the routed amount from the queue
(truncated subtraction covers the exhausted-queue case). -/
theorem processOutput_queueTotal (j : Nat) :
    ∀ (q : List (Nat × Nat)) (r : Nat),
      queueTotal (processOutput j q r).2 = queueTotal q - r := by
  intro q
  induction q with
  | nil => intro r; simp [processOutput_nil, queueTotal]
  | cons p rest ih =>
    intro r
    obtain ⟨i, f⟩ := p
    by_cases hr : r = 0
    · subst hr; simp [processOutput_zero_r]
    · rw [processOutput_cons j i f r rest hr]
      by_cases hf : f ≤ r
      · have h1 := ih (r - f)
        simp only [queueTotal] at h1
        simp only [hf, if_true, queueTotal, List.map_cons, List.sum_cons]
        omega
      · simp only [hf, if_false, queueTotal, List.map_cons, List.sum_cons]
        omega

/-- Per input index, the amount recorded for this output plus the amount
still queued equals the amount that was queued before. -/
theorem processOutput_flowAt (j i : Nat) :
    ∀ (q : List (Nat × Nat)) (r : Nat),
      rowAmt (processOutput j q r).1 i +
        queueFlowAt (processOutput j q r).2 i = queueFlowAt q i := by
  intro q
  induction q with
  | nil => intro r; simp [processOutput_nil, rowAmt, queueFlowAt]
  | cons p rest ih =>
    intro r
    obtain ⟨i0, f⟩ := p
    by_cases hr : r = 0
    · subst hr; simp [processOutput_zero_r, rowAmt]
    · rw [processOutput_cons j i0 f r rest hr]
      by_cases hf : f ≤ r
      · have h1 := ih (r - f)
        simp only [hf, if_true, rowAmt_cons, queueFlowAt_cons]
        by_cases hi : i0 = i <;> simp [hi] <;> omega
      · simp only [hf, if_false, rowAmt_cons, rowAmt_nil, queueFlowAt_cons]
        by_cases hi : i0 = i <;> simp [hi] <;> omega

/-- With a strictly positive queue, every recorded amount is strictly
positive and the queue stays strictly positive. -/
theorem processOutput_pos (j : Nat) :
    ∀ (q : List (Nat × Nat)) (r : Nat), (∀ p ∈ q, 0 < p.2) →
      (∀ e ∈ (processOutput j q r).1, 0 < e.2.2) ∧
      (∀ p ∈ (processOutput j q r).2, 0 < p.2) := by
  intro q
  induction q with
  | nil => intro r _; simp [processOutput_nil]
  | cons p rest ih =>
    intro r hq
    obtain ⟨i, f⟩ := p
    have hf0 : 0 < f := hq (i, f) (List.mem_cons_self _ _)
    have hrest : ∀ p ∈ rest, 0 < p.2 :=
      fun p hp => hq p (List.mem_cons_of_mem _ hp)
    by_cases hr : r = 0
    · subst hr; simp only [processOutput_zero_r]
      exact ⟨by simp, hq⟩
    · rw [processOutput_cons j i f r rest hr]
      by_cases hf : f ≤ r
      · have := ih (r - f) hrest
        simp only [hf, if_true]
        constructor
        · intro e he
          rcases List.mem_cons.mp he with rfl | h2
          · exact hf0
          · exact this.1 e h2
        · exact this.2
      · simp only [hf, if_false]
        constructor
        · intro e he
          rcases List.mem_cons.mp he with rfl | h2
          · show 0 < r
            omega
          · simp at h2
        · intro p hp
          rcases List.mem_cons.mp hp with rfl | h2
          · show 0 < f - r
            omega
          · exact hrest p h2

/-- If there is flow to route and the queue is non-empty, the queue's head
index is recorded for this output. -/
theorem processOutput_head (j k f r : Nat) (rest : List (Nat × Nat))
    (hr : r ≠ 0) :
    ∃ a, (k, j, a) ∈ (processOutput j ((k, f) :: rest) r).1 := by
  rw [processOutput_cons j k f r rest hr]
  by_cases hf : f ≤ r
  · exact ⟨f, by simp [hf]⟩
  · exact ⟨r, by simp [hf]⟩

/-- Shape of one output's records when the queue is a tail of the input
enumeration: the recorded input indices are exactly the interval
`[k, k + c)`, and the remaining queue is again an enumeration starting at
`k + c` or `k + c - 1` (the head possibly partially consumed). -/
theorem processOutput_shape (j : Nat) :
    ∀ (flows : List Nat) (k r : Nat),
      ∃ c k2 flows2,
        (∀ e ∈ (processOutput j (List.enumFrom k flows) r).1,
          k ≤ e.1 ∧ e.1 < k + c) ∧
        (∀ t, k ≤ t → t < k + c →
          ∃ a, (t, j, a) ∈ (processOutput j (List.enumFrom k flows) r).1) ∧
        (processOutput j (List.enumFrom k flows) r).2
          = List.enumFrom k2 flows2 ∧
        k ≤ k2 ∧ k2 ≤ k + c ∧ k + c ≤ k2 + 1 := by
  intro flows
  induction flows with
  | nil =>
    intro k r
    refine ⟨0, k, [], ?_, ?_, ?_, le_refl k, by omega, by omega⟩
    · simp [List.enumFrom, processOutput_nil]
    · intro t h1 h2; omega
    · simp [List.enumFrom, processOutput_nil]
  | cons f ft ih =>
    intro k r
    by_cases hr : r = 0
    · subst hr
      refine ⟨0, k, f :: ft, ?_, ?_, ?_, le_refl k, by omega, by omega⟩
      · simp [processOutput_zero_r]
      · intro t h1 h2; omega
      · simp [processOutput_zero_r]
    · simp only [List.enumFrom]
      rw [processOutput_cons j k f r (List.enumFrom (k + 1) ft) hr]
      by_cases hf : f ≤ r
      · obtain ⟨c1, k2, flows2, hseg, hfull, hq, hk1, hk2, hk3⟩ :=
          ih (k + 1) (r - f)
        refine ⟨c1 + 1, k2, flows2, ?_, ?_, ?_, by omega, by omega, by omega⟩
        · intro e he
          simp only [hf, if_true, List.mem_cons] at he
          rcases he with rfl | h2
          · simp
          · have := hseg e h2; omega
        · intro t h1 h2
          by_cases ht : t = k
          · subst ht; exact ⟨f, by simp [hf]⟩
          · obtain ⟨a, ha⟩ := hfull t (by omega) (by omega)
            exact ⟨a, by simp only [hf, if_true, List.mem_cons]; right; exact ha⟩
        · simp only [hf, if_true]; exact hq
      · refine ⟨1, k, (f - r) :: ft, ?_, ?_, ?_, le_refl k, by omega, by omega⟩
        · intro e he
          simp only [hf, if_false, List.mem_singleton] at he
          subst he; simp
        · intro t h1 h2
          have ht : t = k := by omega
          subst ht
          exact ⟨r, by simp [hf]⟩
        · simp [hf, List.enumFrom]

end Balancer

namespace Balancer

/-- Every record of the whole assignment names an output at or after the
starting index. -/
theorem af_out_ge :
    ∀ (outs : List Nat) (q : List (Nat × Nat)) (j0 : Nat),
      ∀ e ∈ assignFlows outs q j0, j0 ≤ e.2.1 := by
  intro outs
  induction outs with
  | nil => intro q j0 e he; simp [assignFlows] at he
  | cons o outs ih =>
    intro q j0 e he
    simp only [assignFlows, List.mem_append] at he
    rcases he with h | h
    · rw [processOutput_out_eq j0 q o e h]
    · have := ih (processOutput j0 q o).2 (j0 + 1) e h
      omega

/-- Every record of the whole assignment names an output before
`j0 + outs.length`. -/
theorem af_out_lt :
    ∀ (outs : List Nat) (q : List (Nat × Nat)) (j0 : Nat),
      ∀ e ∈ assignFlows outs q j0, e.2.1 < j0 + outs.length := by
  intro outs
  induction outs with
  | nil => intro q j0 e he; simp [assignFlows] at he
  | cons o outs ih =>
    intro q j0 e he
    simp only [assignFlows, List.mem_append] at he
    rcases he with h | h
    · rw [processOutput_out_eq j0 q o e h]
      simp
    · have := ih (processOutput j0 q o).2 (j0 + 1) e h
      simp only [List.length_cons]
      omega

/-- Column sums of the assignment: output `t` (counting from the starting
index) receives exactly its requested amount, provided the queue holds
enough flow for all outputs. -/
theorem af_colAmt :
    ∀ (outs : List Nat) (q : List (Nat × Nat)) (j0 t : Nat),
      outs.sum ≤ queueTotal q →
      colAmt (assignFlows outs q j0) (j0 + t) = outs.getD t 0 := by
  intro outs
  induction outs with
  | nil => intro q j0 t h; simp [assignFlows, colAmt, List.getD]
  | cons o outs ih =>
    intro q j0 t h
    simp only [assignFlows]
    rw [colAmt_append]
    have hsum : o + outs.sum ≤ queueTotal q := by
      simpa using h
    cases t with
    | zero =>
      have hseg : colAmt (processOutput j0 q o).1 j0
          = ((processOutput j0 q o).1.map (fun e => e.2.2)).sum :=
        colAmt_eq_sum _ _ (processOutput_out_eq j0 q o)
      have hmt : colAmt (assignFlows outs (processOutput j0 q o).2 (j0 + 1)) j0 = 0 := by
        apply colAmt_eq_zero
        intro e he
        have := af_out_ge outs (processOutput j0 q o).2 (j0 + 1) e he
        omega
      rw [Nat.add_zero, hseg, hmt, processOutput_recs_sum]
      have : min o (queueTotal q) = o := by omega
      rw [this]
      rfl
    | succ t =>
      have hseg : colAmt (processOutput j0 q o).1 (j0 + (t + 1)) = 0 := by
        apply colAmt_eq_zero
        intro e he
        have := processOutput_out_eq j0 q o e he
        omega
      have hq : outs.sum ≤ queueTotal (processOutput j0 q o).2 := by
        rw [processOutput_queueTotal]
        omega
      have hmt := ih (processOutput j0 q o).2 (j0 + 1) t hq
      have harith : j0 + (t + 1) = (j0 + 1) + t := by omega
      rw [hseg, harith, hmt]
      simp [List.getD_cons_succ]

/-- Row decomposition of the assignment: what input `i` contributed plus
what it still holds in the final queue equals what it held initially. -/
theorem af_rowAmt (i : Nat) :
    ∀ (outs : List Nat) (q : List (Nat × Nat)) (j0 : Nat),
      rowAmt (assignFlows outs q j0) i +
        queueFlowAt (assignQueue outs q j0) i = queueFlowAt q i := by
  intro outs
  induction outs with
  | nil => intro q j0; simp [assignFlows, assignQueue, rowAmt]
  | cons o outs ih =>
    intro q j0
    simp only [assignFlows, assignQueue]
    rw [rowAmt_append]
    have h1 := ih (processOutput j0 q o).2 (j0 + 1)
    have h2 := processOutput_flowAt j0 i q o
    omega

/-- The assignment drains the queue by the total requested amount. -/
theorem af_queueTotal :
    ∀ (outs : List Nat) (q : List (Nat × Nat)) (j0 : Nat),
      queueTotal (assignQueue outs q j0) = queueTotal q - outs.sum := by
  intro outs
  induction outs with
  | nil => intro q j0; simp [assignQueue]
  | cons o outs ih =>
    intro q j0
    simp only [assignQueue, List.sum_cons]
    rw [ih, processOutput_queueTotal]
    omega

/-- One index never holds more than the whole queue. -/
theorem queueFlowAt_le_total (q : List (Nat × Nat)) (i : Nat) :
    queueFlowAt q i ≤ queueTotal q := by
  induction q with
  | nil => simp [queueFlowAt, queueTotal]
  | cons p rest ih =>
    obtain ⟨a, b⟩ := p
    rw [queueFlowAt_cons]
    simp only [queueTotal, List.map_cons, List.sum_cons]
    simp only [queueTotal] at ih
    by_cases h : a = i <;> simp [h] <;> omega

/-- The enumerated queue holds the list's total. -/
theorem queueTotal_enumFrom (l : List Nat) :
    ∀ k, queueTotal (List.enumFrom k l) = l.sum := by
  induction l with
  | nil => intro k; rfl
  | cons f ft ih =>
    intro k
    simp only [List.enumFrom, queueTotal, List.map_cons, List.sum_cons,
      List.sum_cons]
    have := ih (k + 1)
    simp only [queueTotal] at this
    omega

/-- The enumerated queue holds, at index `i`, the list's entry `i - k`
(zero before the start or past the end). -/
theorem queueFlowAt_enumFrom (l : List Nat) :
    ∀ k i, queueFlowAt (List.enumFrom k l) i
      = if k ≤ i then l.getD (i - k) 0 else 0 := by
  induction l with
  | nil => intro k i; simp [List.enumFrom, queueFlowAt]
  | cons f ft ih =>
    intro k i
    simp only [List.enumFrom]
    rw [queueFlowAt_cons, ih (k + 1) i]
    by_cases h : k = i
    · subst h
      simp
    · by_cases h2 : k ≤ i
      · have h3 : k + 1 ≤ i := by omega
        have h4 : i - k = (i - (k + 1)) + 1 := by omega
        simp only [h, if_false, h2, if_true, h3, if_true, h4,
          List.getD_cons_succ, Nat.zero_add]
      · have h3 : ¬ k + 1 ≤ i := by omega
        simp [h, h2, h3]

/-- Values of the enumeration are values of the list. -/
theorem snd_mem_of_mem_enumFrom (l : List Nat) :
    ∀ (k : Nat) (p : Nat × Nat), p ∈ List.enumFrom k l → p.2 ∈ l := by
  induction l with
  | nil => intro k p hp; simp [List.enumFrom] at hp
  | cons f ft ih =>
    intro k p hp
    simp only [List.enumFrom, List.mem_cons] at hp
    rcases hp with rfl | hp
    · simp
    · exact List.mem_cons_of_mem _ (ih (k + 1) p hp)

/-- An exhausted queue records nothing more. -/
theorem af_nil_queue : ∀ (outs : List Nat) (j0 : Nat),
    assignFlows outs [] j0 = [] := by
  intro outs
  induction outs with
  | nil => intro j0; rfl
  | cons o outs ih =>
    intro j0
    simp only [assignFlows, processOutput_nil]
    exact ih (j0 + 1)

/-- With a strictly positive queue, every recorded amount of the whole
assignment is strictly positive. -/
theorem af_pos :
    ∀ (outs : List Nat) (q : List (Nat × Nat)) (j0 : Nat),
      (∀ p ∈ q, 0 < p.2) → ∀ e ∈ assignFlows outs q j0, 0 < e.2.2 := by
  intro outs
  induction outs with
  | nil => intro q j0 _ e he; simp [assignFlows] at he
  | cons o outs ih =>
    intro q j0 hq e he
    simp only [assignFlows, List.mem_append] at he
    have hpo := processOutput_pos j0 q o hq
    rcases he with h | h
    · exact hpo.1 e h
    · exact ih (processOutput j0 q o).2 (j0 + 1) hpo.2 e h

/-- Starting from a tail enumeration at `k`, every recorded input index is
at least `k`. -/
theorem af_idx_ge :
    ∀ (outs flows : List Nat) (k j0 : Nat),
      ∀ e ∈ assignFlows outs (List.enumFrom k flows) j0, k ≤ e.1 := by
  intro outs
  induction outs with
  | nil => intro flows k j0 e he; simp [assignFlows] at he
  | cons o outs ih =>
    intro flows k j0 e he
    obtain ⟨c, k2, flows2, hseg, hfull, hq, hk1, hk2, hk3⟩ :=
      processOutput_shape j0 flows k o
    simp only [assignFlows, List.mem_append] at he
    rcases he with h | h
    · exact (hseg e h).1
    · rw [hq] at h
      have := ih flows2 k2 (j0 + 1) e h
      omega

end Balancer

namespace Balancer

/-- `assigned` is exactly membership of some record for the pair. -/
theorem assigned_iff (m : List (Nat × Nat × Nat)) (i j : Nat) :
    assigned m i j = true ↔ ∃ a, (i, j, a) ∈ m := by
  simp only [assigned, List.any_eq_true, Bool.and_eq_true, decide_eq_true_eq]
  constructor
  · rintro ⟨e, he, h1, h2⟩
    obtain ⟨a, b, c⟩ := e
    simp only at h1 h2
    subst h1; subst h2
    exact ⟨c, he⟩
  · rintro ⟨a, ha⟩
    exact ⟨(i, j, a), ha, rfl, rfl⟩

/-- The input indices contributing to one output form a contiguous
interval: starting from a tail enumeration, if inputs `i1 ≤ i ≤ i2` have
`i1` and `i2` assigned to output `j`, then so is `i`. -/
theorem af_col_contig :
    ∀ (outs flows : List Nat) (k j0 : Nat) (j i1 i i2 : Nat),
      i1 ≤ i → i ≤ i2 →
      (∃ a, (i1, j, a) ∈ assignFlows outs (List.enumFrom k flows) j0) →
      (∃ a, (i2, j, a) ∈ assignFlows outs (List.enumFrom k flows) j0) →
      ∃ a, (i, j, a) ∈ assignFlows outs (List.enumFrom k flows) j0 := by
  intro outs
  induction outs with
  | nil => intro flows k j0 j i1 i i2 _ _ h1 _; simpa [assignFlows] using h1
  | cons o outs ih =>
    intro flows k j0 j i1 i i2 hle1 hle2 h1 h2
    obtain ⟨c, k2, flows2, hseg, hfull, hq, hk1, hk2, hk3⟩ :=
      processOutput_shape j0 flows k o
    obtain ⟨a1, ha1⟩ := h1
    obtain ⟨a2, ha2⟩ := h2
    simp only [assignFlows, List.mem_append] at ha1 ha2 ⊢
    rcases ha1 with ha1 | ha1 <;> rcases ha2 with ha2 | ha2
    · -- both endpoints recorded for output j0 itself
      have hj : j = j0 := processOutput_out_eq j0 _ o _ ha1
      have hb1 := hseg _ ha1
      have hb2 := hseg _ ha2
      simp only at hb1 hb2
      obtain ⟨a, ha⟩ := hfull i (by omega) (by omega)
      exact ⟨a, Or.inl (hj ▸ ha)⟩
    · -- j = j0 from the first, j ≥ j0+1 from the second: impossible
      have hj : j = j0 := processOutput_out_eq j0 _ o _ ha1
      rw [hq] at ha2
      have := af_out_ge outs _ (j0 + 1) _ ha2
      simp only at this
      omega
    · have hj : j = j0 := processOutput_out_eq j0 _ o _ ha2
      rw [hq] at ha1
      have := af_out_ge outs _ (j0 + 1) _ ha1
      simp only at this
      omega
    · -- both in the tail: induction hypothesis
      rw [hq] at ha1 ha2
      obtain ⟨a, ha⟩ := ih flows2 k2 (j0 + 1) j i1 i i2 hle1 hle2
        ⟨a1, ha1⟩ ⟨a2, ha2⟩
      rw [hq]
      exact ⟨a, Or.inr ha⟩

/-- The output indices served by one input form a contiguous interval,
provided every output magnitude is strictly positive: starting from a tail
enumeration, if outputs `j1 ≤ j ≤ j2` have input `i` assigned to `j1` and
to `j2`, then also to `j`. -/
theorem af_row_contig :
    ∀ (outs flows : List Nat) (k j0 : Nat),
      (∀ o ∈ outs, 0 < o) →
      ∀ i j1 j j2, j1 ≤ j → j ≤ j2 →
      (∃ a, (i, j1, a) ∈ assignFlows outs (List.enumFrom k flows) j0) →
      (∃ a, (i, j2, a) ∈ assignFlows outs (List.enumFrom k flows) j0) →
      ∃ a, (i, j, a) ∈ assignFlows outs (List.enumFrom k flows) j0 := by
  intro outs
  induction outs with
  | nil => intro flows k j0 _ i j1 j j2 _ _ h1 _; simpa [assignFlows] using h1
  | cons o outs ih =>
    intro flows k j0 houts i j1 j j2 hle1 hle2 h1 h2
    obtain ⟨c, k2, flows2, hseg, hfull, hq, hk1, hk2, hk3⟩ :=
      processOutput_shape j0 flows k o
    obtain ⟨a1, ha1⟩ := h1
    obtain ⟨a2, ha2⟩ := h2
    have houts2 : ∀ x ∈ outs, 0 < x :=
      fun x hx => houts x (List.mem_cons_of_mem _ hx)
    simp only [assignFlows, List.mem_append] at ha1 ha2 ⊢
    rcases ha1 with ha1 | ha1 <;> rcases ha2 with ha2 | ha2
    · -- both for output j0: j1 = j2 = j0 forces j = j0
      have hj1 : j1 = j0 := processOutput_out_eq j0 _ o _ ha1
      have hj2 : j2 = j0 := processOutput_out_eq j0 _ o _ ha2
      have hj : j = j1 := by omega
      exact ⟨a1, Or.inl (hj ▸ ha1)⟩
    · -- first for j0, second in the tail
      have hj1 : j1 = j0 := processOutput_out_eq j0 _ o _ ha1
      rw [hq] at ha2
      have hj2 : j0 + 1 ≤ j2 := by
        have := af_out_ge outs _ (j0 + 1) _ ha2
        simpa using this
      by_cases hjj : j = j0
      · exact ⟨a1, Or.inl (by rw [hjj]; exact hj1 ▸ ha1)⟩
      · -- j ≥ j0 + 1: the input must be the head of the leftover queue
        have hj3 : j0 + 1 ≤ j := by omega
        have hic : i < k + c := (hseg _ ha1).2
        have hik2 : k2 ≤ i := af_idx_ge outs flows2 k2 (j0 + 1) _ ha2
        have hieq : i = k2 := by omega
        -- the leftover queue cannot be empty, since the tail records i
        cases flows2 with
        | nil =>
          simp only [List.enumFrom] at ha2
          rw [af_nil_queue] at ha2
          simp at ha2
        | cons f2 ft2 =>
          cases outs with
          | nil => simp [assignFlows] at ha2
          | cons o1 outs1 =>
            have ho1 : o1 ≠ 0 := by
              have := houts o1 (by simp)
              omega
            obtain ⟨ah, hah⟩ := processOutput_head (j0 + 1) k2 f2 o1
              (List.enumFrom (k2 + 1) ft2) ho1
            have hhead : ∃ a, (i, j0 + 1, a) ∈
                assignFlows (o1 :: outs1) (List.enumFrom k2 (f2 :: ft2)) (j0 + 1) := by
              refine ⟨ah, ?_⟩
              simp only [assignFlows, List.mem_append, List.enumFrom]
              left
              rw [hieq]
              exact hah
            obtain ⟨a, ha⟩ := ih (f2 :: ft2) k2 (j0 + 1) houts2 i (j0 + 1) j j2
              (by omega) hle2 hhead ⟨a2, ha2⟩
            rw [hq]
            exact ⟨a, Or.inr ha⟩
    · -- first in the tail at j1 ≥ j0+1, second at j0 with j1 ≤ j2: impossible
      have hj2 : j2 = j0 := processOutput_out_eq j0 _ o _ ha2
      rw [hq] at ha1
      have := af_out_ge outs _ (j0 + 1) _ ha1
      simp only at this
      omega
    · -- both in the tail
      rw [hq] at ha1 ha2
      obtain ⟨a, ha⟩ := ih flows2 k2 (j0 + 1) houts2 i j1 j j2 hle1 hle2
        ⟨a1, ha1⟩ ⟨a2, ha2⟩
      rw [hq]
      exact ⟨a, Or.inr ha⟩

end Balancer

namespace Balancer

/-- C3: for every pair of sequences with equal sums, the assignment matrix
conserves flow: each input's recorded amounts sum to its magnitude, and
each output's recorded amounts sum to its magnitude (`getD` returns the
magnitude for in-range indices and `0`, matching the empty row/column,
beyond the ends). -/
theorem c3_assignment_conservation (inputs outputs : List Nat)
    (h : inputs.sum = outputs.sum) :
    (∀ i, rowAmt (flowMatrix inputs outputs) i = inputs.getD i 0) ∧
    (∀ j, colAmt (flowMatrix inputs outputs) j = outputs.getD j 0) := by
  have henum : inputs.enum = List.enumFrom 0 inputs := rfl
  constructor
  · intro i
    have h1 := af_rowAmt i outputs inputs.enum 0
    have h2 := af_queueTotal outputs inputs.enum 0
    rw [henum, queueTotal_enumFrom, h, Nat.sub_self] at h2
    have h3 : queueFlowAt (assignQueue outputs inputs.enum 0) i = 0 := by
      have h4 := queueFlowAt_le_total (assignQueue outputs inputs.enum 0) i
      rw [henum] at h4 ⊢
      omega
    rw [h3, Nat.add_zero, henum, queueFlowAt_enumFrom] at h1
    simp only [Nat.zero_le, if_true, Nat.sub_zero] at h1
    exact h1
  · intro j
    have hle : outputs.sum ≤ queueTotal inputs.enum := by
      rw [henum, queueTotal_enumFrom, h]
    have h1 := af_colAmt outputs inputs.enum 0 j hle
    rw [Nat.zero_add] at h1
    exact h1

/-- Witness for C3 on `inputs = [2, 3]`, `outputs = [4, 1]`. -/
theorem c3_assignment_conservation_witness :
    rowAmt (flowMatrix [2, 3] [4, 1]) 1 = 3 ∧
    colAmt (flowMatrix [2, 3] [4, 1]) 0 = 4 :=
  ⟨(c3_assignment_conservation [2, 3] [4, 1] rfl).1 1,
   (c3_assignment_conservation [2, 3] [4, 1] rfl).2 0⟩

/-- C6 as amended: when additionally every input magnitude is strictly
positive (which rules out the `flow_matrix[i][j] = 0` records that
`c6_counterexample` exhibits for zero-magnitude inputs), every amount
recorded in the assignment matrix is strictly positive. -/
theorem c6_amended_positive_amounts (inputs outputs : List Nat)
    (hpos : ∀ x ∈ inputs, 0 < x) (hsum : inputs.sum = outputs.sum) :
    ∀ e ∈ flowMatrix inputs outputs, 0 < e.2.2 := by
  intro e he
  have hq : ∀ p ∈ inputs.enum, 0 < p.2 := by
    intro p hp
    exact hpos p.2 (snd_mem_of_mem_enumFrom inputs 0 p hp)
  exact af_pos outputs inputs.enum 0 hq e he

/-- Witness for C6 (amended) on `inputs = [2, 3]`, `outputs = [4, 1]` at
the record `(1, 1, 1)`. -/
theorem c6_amended_positive_amounts_witness :
    0 < ((1, 1, 1) : Nat × Nat × Nat).2.2 :=
  c6_amended_positive_amounts [2, 3] [4, 1] (by decide) rfl (1, 1, 1)
    (by decide)

/-- C10: with all input and output magnitudes strictly positive and equal
sums, the set of outputs each input feeds is a contiguous interval of
indices, and the set of inputs feeding each output is a contiguous interval
of indices. -/
theorem c10_contiguous_assignment (inputs outputs : List Nat)
    (hin : ∀ x ∈ inputs, 0 < x) (hout : ∀ x ∈ outputs, 0 < x)
    (hsum : inputs.sum = outputs.sum) :
    (∀ i j1 j j2, j1 ≤ j → j ≤ j2 →
      assigned (flowMatrix inputs outputs) i j1 = true →
      assigned (flowMatrix inputs outputs) i j2 = true →
      assigned (flowMatrix inputs outputs) i j = true) ∧
    (∀ j i1 i i2, i1 ≤ i → i ≤ i2 →
      assigned (flowMatrix inputs outputs) i1 j = true →
      assigned (flowMatrix inputs outputs) i2 j = true →
      assigned (flowMatrix inputs outputs) i j = true) := by
  constructor
  · intro i j1 j j2 hle1 hle2 h1 h2
    rw [assigned_iff] at h1 h2 ⊢
    exact af_row_contig outputs inputs 0 0 hout i j1 j j2 hle1 hle2 h1 h2
  · intro j i1 i i2 hle1 hle2 h1 h2
    rw [assigned_iff] at h1 h2 ⊢
    exact af_col_contig outputs inputs 0 0 j i1 i i2 hle1 hle2 h1 h2

/-- Witness for C10 on `inputs = [2, 2, 2]`, `outputs = [3, 3]`: input 1
feeds both outputs, so the interval property yields output 1. -/
theorem c10_contiguous_assignment_witness :
    assigned (flowMatrix [2, 2, 2] [3, 3]) 1 1 = true :=
  (c10_contiguous_assignment [2, 2, 2] [3, 3] (by decide) (by decide)
    rfl).1 1 0 1 1 (by decide) (by decide) (by decide) (by decide)

end Balancer

namespace Balancer

/-! ## State-delta lemmas for the graph construction -/

/-- Splitting an interval of counter values. -/
theorem range1_append (s m n : Nat) :
    List.range' s m ++ List.range' (s + m) n = List.range' s (m + n) := by
  rw [Nat.add_comm m n]
  have h := List.range'_append s m n 1
  simpa using h

/-- `processGroup` never touches the counter or the node list, and only
appends edges. -/
theorem processGroup_state (sid : NId) :
    ∀ (grp : List (NId × List (Nat × Nat))) (st : BState)
      (ds : List (Nat × NId × Nat)) (merged : List (Nat × Nat)),
      (processGroup sid st ds grp merged).1.counter = st.counter ∧
      (processGroup sid st ds grp merged).1.nodes = st.nodes ∧
      ∃ extra, (processGroup sid st ds grp merged).1.edges
        = st.edges ++ extra := by
  intro grp
  induction grp with
  | nil =>
    intro st ds merged
    exact ⟨rfl, rfl, [], by simp [processGroup]⟩
  | cons child grp ih =>
    intro st ds merged
    simp only [processGroup]
    by_cases h : isLeaf child.1 = true
    · simp only [h, if_true]
      exact ih st _ _
    · simp only [h, Bool.false_eq_true, if_false]
      obtain ⟨h1, h2, extra, h3⟩ :=
        ih (addEdge st sid child.1 (childFlow child.2)) ds
          (dictUpdate merged child.2)
      refine ⟨h1, h2, ⟨sid, child.1, childFlow child.2⟩ :: extra, ?_⟩
      rw [h3]
      simp [addEdge]

/-- The split loop appends splitter nodes carrying the consecutive counter
values it consumed, and only appends edges. -/
theorem splitLoopF_state :
    ∀ (fuel : Nat) (st : BState) (ds : List (Nat × NId × Nat))
      (roots : List (NId × List (Nat × Nat))),
      ∃ k ns es,
        (splitLoopF fuel st ds roots).1.counter = st.counter + k ∧
        (splitLoopF fuel st ds roots).1.nodes = st.nodes ++ ns ∧
        (splitLoopF fuel st ds roots).1.edges = st.edges ++ es ∧
        ns.filterMap nodeDevId = List.range' st.counter k := by
  intro fuel
  induction fuel with
  | zero =>
    intro st ds roots
    exact ⟨0, [], [], rfl, by simp [splitLoopF], by simp [splitLoopF],
      by simp⟩
  | succ fuel ih =>
    intro st ds roots
    match roots with
    | [] => exact ⟨0, [], [], rfl, by simp [splitLoopF], by simp [splitLoopF],
        by simp⟩
    | [r1] => exact ⟨0, [], [], rfl, by simp [splitLoopF],
        by simp [splitLoopF], by simp⟩
    | [r1, r2] =>
      simp only [splitLoopF]
      obtain ⟨hc, hn, extra, he⟩ := processGroup_state (NId.splitter st.counter)
        [r1, r2]
        (addNode { st with counter := st.counter + 1 }
          (NId.splitter st.counter) "" "diamond" "lightyellow") ds []
      obtain ⟨k1, ns1, es1, ih1, ih2, ih3, ih4⟩ :=
        ih (processGroup (NId.splitter st.counter)
            (addNode { st with counter := st.counter + 1 }
              (NId.splitter st.counter) "" "diamond" "lightyellow") ds
            [r1, r2] []).1
          (processGroup (NId.splitter st.counter)
            (addNode { st with counter := st.counter + 1 }
              (NId.splitter st.counter) "" "diamond" "lightyellow") ds
            [r1, r2] []).2.1
          [(NId.splitter st.counter,
            (processGroup (NId.splitter st.counter)
              (addNode { st with counter := st.counter + 1 }
                (NId.splitter st.counter) "" "diamond" "lightyellow") ds
              [r1, r2] []).2.2)]
      refine ⟨k1 + 1,
        ⟨NId.splitter st.counter, "", "diamond", "lightyellow"⟩ :: ns1,
        extra ++ es1, ?_, ?_, ?_, ?_⟩
      · rw [ih1, hc]; simp [addNode]; omega
      · rw [ih2, hn]; simp [addNode]
      · rw [ih3, he]; simp [addNode, addEdge]
      · simp only [List.filterMap_cons]
        have : nodeDevId ⟨NId.splitter st.counter, "", "diamond",
          "lightyellow"⟩ = some st.counter := rfl
        rw [this, ih4, hc]
        simp only [addNode]
        rw [List.range'_succ]
    | r1 :: r2 :: r3 :: rest =>
      simp only [splitLoopF]
      obtain ⟨hc, hn, extra, he⟩ := processGroup_state (NId.splitter st.counter)
        [r1, r2, r3]
        (addNode { st with counter := st.counter + 1 }
          (NId.splitter st.counter) "" "diamond" "lightyellow") ds []
      obtain ⟨k1, ns1, es1, ih1, ih2, ih3, ih4⟩ :=
        ih (processGroup (NId.splitter st.counter)
            (addNode { st with counter := st.counter + 1 }
              (NId.splitter st.counter) "" "diamond" "lightyellow") ds
            [r1, r2, r3] []).1
          (processGroup (NId.splitter st.counter)
            (addNode { st with counter := st.counter + 1 }
              (NId.splitter st.counter) "" "diamond" "lightyellow") ds
            [r1, r2, r3] []).2.1
          (rest ++ [(NId.splitter st.counter,
            (processGroup (NId.splitter st.counter)
              (addNode { st with counter := st.counter + 1 }
                (NId.splitter st.counter) "" "diamond" "lightyellow") ds
              [r1, r2, r3] []).2.2)])
      refine ⟨k1 + 1,
        ⟨NId.splitter st.counter, "", "diamond", "lightyellow"⟩ :: ns1,
        extra ++ es1, ?_, ?_, ?_, ?_⟩
      · rw [ih1, hc]; simp [addNode]; omega
      · rw [ih2, hn]; simp [addNode]
      · rw [ih3, he]; simp [addNode, addEdge]
      · simp only [List.filterMap_cons]
        have : nodeDevId ⟨NId.splitter st.counter, "", "diamond",
          "lightyellow"⟩ = some st.counter := rfl
        rw [this, ih4, hc]
        simp only [addNode]
        rw [List.range'_succ]

end Balancer

namespace Balancer

/-- The merge loop appends merger nodes carrying the consecutive counter
values it consumed, and only appends edges. -/
theorem mergeLoopF_state :
    ∀ (fuel : Nat) (st : BState) (streams : List (NId × Nat)),
      ∃ k ns es,
        (mergeLoopF fuel st streams).1.counter = st.counter + k ∧
        (mergeLoopF fuel st streams).1.nodes = st.nodes ++ ns ∧
        (mergeLoopF fuel st streams).1.edges = st.edges ++ es ∧
        ns.filterMap nodeDevId = List.range' st.counter k := by
  intro fuel
  induction fuel with
  | zero =>
    intro st streams
    exact ⟨0, [], [], rfl, by simp [mergeLoopF], by simp [mergeLoopF],
      by simp⟩
  | succ fuel ih =>
    intro st streams
    match streams with
    | [] => exact ⟨0, [], [], rfl, by simp [mergeLoopF],
        by simp [mergeLoopF], by simp⟩
    | [s1] => exact ⟨0, [], [], rfl, by simp [mergeLoopF],
        by simp [mergeLoopF], by simp⟩
    | [s1, s2] =>
      simp only [mergeLoopF]
      obtain ⟨k1, ns1, es1, ih1, ih2, ih3, ih4⟩ :=
        ih (addEdge (addEdge (addNode { st with counter := st.counter + 1 }
              (NId.merger st.counter) "" "diamond" "lightcoral")
            s1.1 (NId.merger st.counter) s1.2)
          s2.1 (NId.merger st.counter) s2.2)
          [(NId.merger st.counter, s1.2 + s2.2)]
      refine ⟨k1 + 1,
        ⟨NId.merger st.counter, "", "diamond", "lightcoral"⟩ :: ns1,
        ⟨s1.1, NId.merger st.counter, s1.2⟩ ::
          ⟨s2.1, NId.merger st.counter, s2.2⟩ :: es1, ?_, ?_, ?_, ?_⟩
      · rw [ih1]; simp [addEdge, addNode]; omega
      · rw [ih2]; simp [addEdge, addNode]
      · rw [ih3]; simp [addEdge, addNode]
      · simp only [List.filterMap_cons]
        have hdev : nodeDevId ⟨NId.merger st.counter, "", "diamond",
          "lightcoral"⟩ = some st.counter := rfl
        rw [hdev, ih4]
        simp only [addEdge, addNode]
        rw [List.range'_succ]
    | s1 :: s2 :: s3 :: rest =>
      simp only [mergeLoopF]
      obtain ⟨k1, ns1, es1, ih1, ih2, ih3, ih4⟩ :=
        ih (addEdge (addEdge (addEdge
              (addNode { st with counter := st.counter + 1 }
                (NId.merger st.counter) "" "diamond" "lightcoral")
              s1.1 (NId.merger st.counter) s1.2)
            s2.1 (NId.merger st.counter) s2.2)
          s3.1 (NId.merger st.counter) s3.2)
          (rest ++ [(NId.merger st.counter, s1.2 + s2.2 + s3.2)])
      refine ⟨k1 + 1,
        ⟨NId.merger st.counter, "", "diamond", "lightcoral"⟩ :: ns1,
        ⟨s1.1, NId.merger st.counter, s1.2⟩ ::
          ⟨s2.1, NId.merger st.counter, s2.2⟩ ::
          ⟨s3.1, NId.merger st.counter, s3.2⟩ :: es1, ?_, ?_, ?_, ?_⟩
      · rw [ih1]; simp [addEdge, addNode]; omega
      · rw [ih2]; simp [addEdge, addNode]
      · rw [ih3]; simp [addEdge, addNode]
      · simp only [List.filterMap_cons]
        have hdev : nodeDevId ⟨NId.merger st.counter, "", "diamond",
          "lightcoral"⟩ = some st.counter := rfl
        rw [hdev, ih4]
        simp only [addEdge, addNode]
        rw [List.range'_succ]

/-- `build_split_tree` appends splitter nodes carrying consecutive counter
values, and only appends edges. -/
theorem buildSplitTree_state (st : BState) (sourceId : NId)
    (flowsDict : List (Nat × Nat)) :
    ∃ k ns es,
      (buildSplitTree st sourceId flowsDict).1.counter = st.counter + k ∧
      (buildSplitTree st sourceId flowsDict).1.nodes = st.nodes ++ ns ∧
      (buildSplitTree st sourceId flowsDict).1.edges = st.edges ++ es ∧
      ns.filterMap nodeDevId = List.range' st.counter k := by
  match flowsDict with
  | [(d, f)] =>
    exact ⟨0, [], [], rfl, by simp [buildSplitTree], by simp [buildSplitTree],
      by simp⟩
  | [] =>
    simp only [buildSplitTree, splitLoop]
    set roots := List.map (fun p => (NId.leaf p.1, [p]))
      (sortDesc destKeyGE ([] : List (Nat × Nat))) with hroots
    set res := splitLoopF roots.length st [] roots with hres
    obtain ⟨k, ns, es, h1, h2, h3, h4⟩ := splitLoopF_state roots.length st [] roots
    rw [← hres] at h1 h2 h3
    exact ⟨k, ns,
      es ++ [⟨sourceId, (res.2.2.headD (NId.input 0, [])).1,
        childFlow (res.2.2.headD (NId.input 0, [])).2⟩],
      by simp [addEdge, h1], by simp [addEdge, h2],
      by simp [addEdge, h3], h4⟩
  | p1 :: p2 :: tl =>
    simp only [buildSplitTree, splitLoop]
    set roots := List.map (fun p => (NId.leaf p.1, [p]))
      (sortDesc destKeyGE (p1 :: p2 :: tl)) with hroots
    set res := splitLoopF roots.length st [] roots with hres
    obtain ⟨k, ns, es, h1, h2, h3, h4⟩ := splitLoopF_state roots.length st [] roots
    rw [← hres] at h1 h2 h3
    exact ⟨k, ns,
      es ++ [⟨sourceId, (res.2.2.headD (NId.input 0, [])).1,
        childFlow (res.2.2.headD (NId.input 0, [])).2⟩],
      by simp [addEdge, h1], by simp [addEdge, h2],
      by simp [addEdge, h3], h4⟩

/-- `build_merge_tree` appends merger nodes carrying consecutive counter
values, and only appends edges. -/
theorem buildMergeTree_state (st : BState) (flowsDict : List (NId × Nat)) :
    ∃ k ns es,
      (buildMergeTree st flowsDict).1.counter = st.counter + k ∧
      (buildMergeTree st flowsDict).1.nodes = st.nodes ++ ns ∧
      (buildMergeTree st flowsDict).1.edges = st.edges ++ es ∧
      ns.filterMap nodeDevId = List.range' st.counter k := by
  match flowsDict with
  | [(s, f)] =>
    exact ⟨0, [], [], rfl, by simp [buildMergeTree], by simp [buildMergeTree],
      by simp⟩
  | [] =>
    obtain ⟨k, ns, es, h1, h2, h3, h4⟩ :=
      mergeLoopF_state (sortDesc srcKeyGE []).length st (sortDesc srcKeyGE [])
    exact ⟨k, ns, es, by simpa [buildMergeTree, mergeLoop] using h1,
      by simpa [buildMergeTree, mergeLoop] using h2,
      by simpa [buildMergeTree, mergeLoop] using h3, h4⟩
  | p1 :: p2 :: tl =>
    obtain ⟨k, ns, es, h1, h2, h3, h4⟩ :=
      mergeLoopF_state (sortDesc srcKeyGE (p1 :: p2 :: tl)).length st
        (sortDesc srcKeyGE (p1 :: p2 :: tl))
    exact ⟨k, ns, es, by simpa [buildMergeTree, mergeLoop] using h1,
      by simpa [buildMergeTree, mergeLoop] using h2,
      by simpa [buildMergeTree, mergeLoop] using h3, h4⟩

/-- Wiring one output appends merger nodes carrying consecutive counter
values, and only appends edges. -/
theorem wireOutput_state (st : BState) (sources : List (NId × Nat))
    (j : Nat) :
    ∃ k ns es,
      (wireOutput st sources j).counter = st.counter + k ∧
      (wireOutput st sources j).nodes = st.nodes ++ ns ∧
      (wireOutput st sources j).edges = st.edges ++ es ∧
      ns.filterMap nodeDevId = List.range' st.counter k := by
  match sources with
  | [] => exact ⟨0, [], [], rfl, by simp [wireOutput], by simp [wireOutput],
      by simp⟩
  | [(s, f)] =>
    refine ⟨0, [], [⟨s, NId.output j, f⟩], rfl, ?_, ?_, by simp⟩
    · simp [wireOutput, addEdge]
    · simp [wireOutput, addEdge]
  | p1 :: p2 :: tl =>
    simp only [wireOutput]
    set res := buildMergeTree st (p1 :: p2 :: tl) with hres
    obtain ⟨k, ns, es, h1, h2, h3, h4⟩ :=
      buildMergeTree_state st (p1 :: p2 :: tl)
    rw [← hres] at h1 h2 h3
    exact ⟨k, ns,
      es ++ [⟨res.2, NId.output j,
        (List.map (fun p => p.2) (p1 :: p2 :: tl)).sum⟩],
      by simp [addEdge, h1], by simp [addEdge, h2],
      by simp [addEdge, h3], h4⟩

/-- The split phase appends splitter nodes carrying consecutive counter
values, and only appends edges. -/
theorem splitPhase_state (m : List (Nat × Nat × Nat)) :
    ∀ (keys : List Nat) (st : BState),
      ∃ k ns es,
        (splitPhase m keys st).1.counter = st.counter + k ∧
        (splitPhase m keys st).1.nodes = st.nodes ++ ns ∧
        (splitPhase m keys st).1.edges = st.edges ++ es ∧
        ns.filterMap nodeDevId = List.range' st.counter k := by
  intro keys
  induction keys with
  | nil =>
    intro st
    exact ⟨0, [], [], rfl, by simp [splitPhase], by simp [splitPhase],
      by simp⟩
  | cons i keys ih =>
    intro st
    obtain ⟨k1, ns1, es1, h1, h2, h3, h4⟩ :=
      buildSplitTree_state st (NId.input i) (matrixRow m i)
    obtain ⟨k2, ns2, es2, g1, g2, g3, g4⟩ :=
      ih (buildSplitTree st (NId.input i) (matrixRow m i)).1
    refine ⟨k1 + k2, ns1 ++ ns2, es1 ++ es2, ?_, ?_, ?_, ?_⟩
    · simp only [splitPhase]; rw [g1, h1]; omega
    · simp only [splitPhase]; rw [g2, h2]; simp
    · simp only [splitPhase]; rw [g3, h3]; simp
    · rw [List.filterMap_append, h4, g4, h1]
      exact range1_append st.counter k1 k2

/-- The output phase appends merger nodes carrying consecutive counter
values, and only appends edges. -/
theorem outputPhase_state (m : List (Nat × Nat × Nat))
    (io : List (Nat × List (Nat × NId × Nat))) (keys : List Nat) :
    ∀ (js : List Nat) (st : BState),
      ∃ k ns es,
        (outputPhase m io keys js st).counter = st.counter + k ∧
        (outputPhase m io keys js st).nodes = st.nodes ++ ns ∧
        (outputPhase m io keys js st).edges = st.edges ++ es ∧
        ns.filterMap nodeDevId = List.range' st.counter k := by
  intro js
  induction js with
  | nil =>
    intro st
    exact ⟨0, [], [], rfl, by simp [outputPhase], by simp [outputPhase],
      by simp⟩
  | cons j js ih =>
    intro st
    obtain ⟨k1, ns1, es1, h1, h2, h3, h4⟩ :=
      wireOutput_state st (collectSources m io keys j) j
    obtain ⟨k2, ns2, es2, g1, g2, g3, g4⟩ :=
      ih (wireOutput st (collectSources m io keys j) j)
    refine ⟨k1 + k2, ns1 ++ ns2, es1 ++ es2, ?_, ?_, ?_, ?_⟩
    · simp only [outputPhase]; rw [g1, h1]; omega
    · simp only [outputPhase]; rw [g2, h2]; simp
    · simp only [outputPhase]; rw [g3, h3]; simp
    · rw [List.filterMap_append, h4, g4, h1]
      exact range1_append st.counter k1 k2

/-- Adding the input nodes leaves the counter and edges alone and
contributes no device node. -/
theorem addInputNodes_state :
    ∀ (l : List Nat) (st : BState),
      ∃ ns,
        (addInputNodes l st).counter = st.counter ∧
        (addInputNodes l st).nodes = st.nodes ++ ns ∧
        (addInputNodes l st).edges = st.edges ∧
        ns.filterMap nodeDevId = [] := by
  intro l
  induction l with
  | nil => intro st; exact ⟨[], rfl, by simp [addInputNodes],
      by simp [addInputNodes], by simp⟩
  | cons i l ih =>
    intro st
    obtain ⟨ns, h1, h2, h3, h4⟩ :=
      ih (addNode st (NId.input i) ("Input " ++ toString i) "box"
        "lightgreen")
    refine ⟨⟨NId.input i, "Input " ++ toString i, "box", "lightgreen"⟩ :: ns,
      ?_, ?_, ?_, ?_⟩
    · simpa [addInputNodes, addNode] using h1
    · simp only [addInputNodes]; rw [h2]; simp [addNode]
    · simpa [addInputNodes, addNode] using h3
    · simp only [List.filterMap_cons]
      have : nodeDevId ⟨NId.input i, "Input " ++ toString i, "box",
        "lightgreen"⟩ = none := rfl
      rw [this, h4]

/-- Adding the output nodes leaves the counter and edges alone and
contributes no device node. -/
theorem addOutputNodes_state :
    ∀ (l : List Nat) (st : BState),
      ∃ ns,
        (addOutputNodes l st).counter = st.counter ∧
        (addOutputNodes l st).nodes = st.nodes ++ ns ∧
        (addOutputNodes l st).edges = st.edges ∧
        ns.filterMap nodeDevId = [] := by
  intro l
  induction l with
  | nil => intro st; exact ⟨[], rfl, by simp [addOutputNodes],
      by simp [addOutputNodes], by simp⟩
  | cons j l ih =>
    intro st
    obtain ⟨ns, h1, h2, h3, h4⟩ :=
      ih (addNode st (NId.output j) ("Output " ++ toString j) "box"
        "lightblue")
    refine ⟨⟨NId.output j, "Output " ++ toString j, "box", "lightblue"⟩ :: ns,
      ?_, ?_, ?_, ?_⟩
    · simpa [addOutputNodes, addNode] using h1
    · simp only [addOutputNodes]; rw [h2]; simp [addNode]
    · simpa [addOutputNodes, addNode] using h3
    · simp only [List.filterMap_cons]
      have : nodeDevId ⟨NId.output j, "Output " ++ toString j, "box",
        "lightblue"⟩ = none := rfl
      rw [this, h4]

end Balancer

namespace Balancer

/-- On a feasible call the device ids of the produced graph are exactly the
consecutive counter values `0, 1, 2, …` in node-creation order. -/
theorem designBalancer_deviceIds (inputs outputs : List Nat)
    (hsum : inputs.sum = outputs.sum) :
    ∃ K, deviceIds (graphOf (designBalancer inputs outputs))
      = List.range' 0 K := by
  simp only [designBalancer, hsum, ne_eq, not_true_eq_false, if_false,
    graphOf]
  obtain ⟨nsI, a1, a2, a3, a4⟩ :=
    addInputNodes_state (List.range inputs.length) ⟨0, [], []⟩
  obtain ⟨nsO, b1, b2, b3, b4⟩ :=
    addOutputNodes_state (List.range outputs.length)
      (addInputNodes (List.range inputs.length) ⟨0, [], []⟩)
  obtain ⟨kS, nsS, esS, c1, c2, c3, c4⟩ :=
    splitPhase_state (flowMatrix inputs outputs)
      (dedupFirst (List.map (fun e => e.1) (flowMatrix inputs outputs)) [])
      (addOutputNodes (List.range outputs.length)
        (addInputNodes (List.range inputs.length) ⟨0, [], []⟩))
  obtain ⟨kM, nsM, esM, d1, d2, d3, d4⟩ :=
    outputPhase_state (flowMatrix inputs outputs)
      (splitPhase (flowMatrix inputs outputs)
        (dedupFirst (List.map (fun e => e.1) (flowMatrix inputs outputs)) [])
        (addOutputNodes (List.range outputs.length)
          (addInputNodes (List.range inputs.length) ⟨0, [], []⟩))).2
      (dedupFirst (List.map (fun e => e.1) (flowMatrix inputs outputs)) [])
      (List.range outputs.length)
      (splitPhase (flowMatrix inputs outputs)
        (dedupFirst (List.map (fun e => e.1) (flowMatrix inputs outputs)) [])
        (addOutputNodes (List.range outputs.length)
          (addInputNodes (List.range inputs.length) ⟨0, [], []⟩))).1
  refine ⟨kS + kM, ?_⟩
  simp only [deviceIds]
  rw [d2, c2, b2, a2]
  have hst1 : (addInputNodes (List.range inputs.length)
      (⟨0, [], []⟩ : BState)).counter = 0 := a1
  have hst2 : (addOutputNodes (List.range outputs.length)
      (addInputNodes (List.range inputs.length) ⟨0, [], []⟩)).counter = 0 := by
    rw [b1, hst1]
  rw [hst2] at c4
  rw [c1, hst2] at d4
  simp only [List.filterMap_append, List.filterMap_nil, a4, b4, c4, d4,
    List.nil_append]
  exact range1_append 0 kS kM

/-- C8: splitter and merger ids come from one shared, strictly increasing
counter: in every graph a successful call returns, the numeric device ids
(splitters and mergers together, in node order) are strictly increasing,
hence pairwise distinct. -/
theorem c8_unique_device_ids (inputs outputs : List Nat) (g : Digraph)
    (h : designBalancer inputs outputs = Except.ok g) :
    List.Pairwise (· < ·) (deviceIds g) ∧ (deviceIds g).Nodup := by
  have hsum : inputs.sum = outputs.sum := by
    by_contra hne
    simp [designBalancer, hne] at h
  have hg : graphOf (designBalancer inputs outputs) = g := by
    rw [h]; rfl
  obtain ⟨K, hK⟩ := designBalancer_deviceIds inputs outputs hsum
  rw [hg] at hK
  rw [hK]
  constructor
  · exact List.pairwise_lt_range' 0 K
  · exact (List.pairwise_lt_range' 0 K).imp (fun hlt => Nat.ne_of_lt hlt)

/-- Witness for C8 on the call `design_balancer([2], [1, 1])`. -/
theorem c8_unique_device_ids_witness :
    List.Pairwise (· < ·)
      (deviceIds (graphOf (designBalancer [2] [1, 1]))) ∧
    (deviceIds (graphOf (designBalancer [2] [1, 1]))).Nodup :=
  c8_unique_device_ids [2] [1, 1] (graphOf (designBalancer [2] [1, 1]))
    (by rfl)

end Balancer

namespace Balancer

/-- Counting sources distributes over append. -/
theorem srcCount_append (a b : List GEdge) (v : NId) :
    srcCount (a ++ b) v = srcCount a v + srcCount b v := by
  simp [srcCount, List.filter_append]

/-- Counting targets distributes over append. -/
theorem dstCount_append (a b : List GEdge) (v : NId) :
    dstCount (a ++ b) v = dstCount a v + dstCount b v := by
  simp [dstCount, List.filter_append]

/-- No edge of the list leaves `v`. -/
theorem filter_src_eq_nil (es : List GEdge) (v : NId)
    (h : ∀ e ∈ es, e.src ≠ v) : es.filter (fun e => e.src = v) = [] :=
  List.filter_eq_nil_iff.mpr (fun e he => by simpa using h e he)

/-- No edge of the list enters `v`. -/
theorem filter_dst_eq_nil (es : List GEdge) (v : NId)
    (h : ∀ e ∈ es, e.dst ≠ v) : es.filter (fun e => e.dst = v) = [] :=
  List.filter_eq_nil_iff.mpr (fun e he => by simpa using h e he)

/-- `srcCount` vanishes when no edge leaves `v`. -/
theorem srcCount_eq_zero (es : List GEdge) (v : NId)
    (h : ∀ e ∈ es, e.src ≠ v) : srcCount es v = 0 := by
  simp only [srcCount, filter_src_eq_nil es v h]
  rfl

/-- `dstCount` vanishes when no edge enters `v`. -/
theorem dstCount_eq_zero (es : List GEdge) (v : NId)
    (h : ∀ e ∈ es, e.dst ≠ v) : dstCount es v = 0 := by
  simp only [dstCount, filter_dst_eq_nil es v h]
  rfl

/-- A one-stream list makes the merge loop exit immediately. -/
theorem mergeLoopF_single (fuel : Nat) (st : BState) (x : NId × Nat) :
    mergeLoopF fuel st [x] = (st, [x]) := by
  cases fuel with
  | zero => rfl
  | succ fuel => rfl

end Balancer

namespace Balancer

/-- Summing labels of outgoing edges distributes over append. -/
theorem srcFlowSum_append (a b : List GEdge) (v : NId) :
    srcFlowSum (a ++ b) v = srcFlowSum a v + srcFlowSum b v := by
  simp [srcFlowSum, List.filter_append]

/-- Summing labels of incoming edges distributes over append. -/
theorem dstFlowSum_append (a b : List GEdge) (v : NId) :
    dstFlowSum (a ++ b) v = dstFlowSum a v + dstFlowSum b v := by
  simp [dstFlowSum, List.filter_append]

/-- `srcFlowSum` vanishes when no edge leaves `v`. -/
theorem srcFlowSum_eq_zero (es : List GEdge) (v : NId)
    (h : ∀ e ∈ es, e.src ≠ v) : srcFlowSum es v = 0 := by
  simp only [srcFlowSum, filter_src_eq_nil es v h]
  rfl

/-- `dstFlowSum` vanishes when no edge enters `v`. -/
theorem dstFlowSum_eq_zero (es : List GEdge) (v : NId)
    (h : ∀ e ∈ es, e.dst ≠ v) : dstFlowSum es v = 0 := by
  simp only [dstFlowSum, filter_dst_eq_nil es v h]
  rfl

/-- Full behaviour of the merge loop on at least two streams whose ids are
distinct and whose merger ids (if any) predate the current counter: it
reduces the stream list to the single freshly numbered final merger; every
new edge enters a new merger; no merger receives more than three edges;
every initial stream contributes exactly one outgoing edge labelled with
its flow; every new edge leaves an initial stream or a non-final new
merger; every non-final new merger gets exactly one outgoing edge and the
final merger none. -/
theorem mergeLoopF_spec :
    ∀ (fuel : Nat) (st : BState) (streams : List (NId × Nat)),
      streams.length ≤ fuel → 2 ≤ streams.length →
      (∀ p ∈ streams, ∀ c, p.1 = NId.merger c → c < st.counter) →
      (streams.map (fun p => p.1)).Nodup →
      ∃ es,
        (mergeLoopF fuel st streams).1.edges = st.edges ++ es ∧
        st.counter < (mergeLoopF fuel st streams).1.counter ∧
        (∃ ff, (mergeLoopF fuel st streams).2
            = [(NId.merger ((mergeLoopF fuel st streams).1.counter - 1), ff)]) ∧
        (∀ e ∈ es, ∃ c, e.dst = NId.merger c ∧ st.counter ≤ c ∧
          c < (mergeLoopF fuel st streams).1.counter) ∧
        (∀ c, dstCount es (NId.merger c) ≤ 3) ∧
        (∀ p ∈ streams, srcCount es p.1 = 1 ∧ srcFlowSum es p.1 = p.2) ∧
        (∀ e ∈ es, (∃ p ∈ streams, e.src = p.1) ∨
          ∃ c, e.src = NId.merger c ∧ st.counter ≤ c ∧
            c + 1 < (mergeLoopF fuel st streams).1.counter) ∧
        (∀ c, st.counter ≤ c →
          c + 1 < (mergeLoopF fuel st streams).1.counter →
          srcCount es (NId.merger c) = 1) ∧
        srcCount es
          (NId.merger ((mergeLoopF fuel st streams).1.counter - 1)) = 0 := by
  intro fuel
  induction fuel with
  | zero =>
    intro st streams hfuel hlen _ _
    omega
  | succ fuel ih =>
    intro st streams hfuel hlen hold hnodup
    match streams with
    | [] => simp at hlen
    | [s1] => simp at hlen
    | [(v1, f1), (v2, f2)] =>
      have hne12 : v1 ≠ v2 := by
        simp [List.nodup_cons] at hnodup
        exact hnodup
      have hv1m : ∀ c, v1 = NId.merger c → c < st.counter :=
        fun c hc => hold (v1, f1) (by simp) c hc
      have hv2m : ∀ c, v2 = NId.merger c → c < st.counter :=
        fun c hc => hold (v2, f2) (by simp) c hc
      simp only [mergeLoopF, mergeLoopF_single]
      refine ⟨[⟨v1, NId.merger st.counter, f1⟩,
        ⟨v2, NId.merger st.counter, f2⟩], ?_, ?_, ?_, ?_, ?_, ?_, ?_, ?_, ?_⟩
      · simp [addEdge, addNode]
      · simp [addEdge, addNode]
      · refine ⟨f1 + f2, ?_⟩
        simp [addEdge, addNode]
      · intro e he
        simp [addEdge, addNode] at he ⊢
        rcases he with rfl | rfl <;> exact ⟨st.counter, rfl, by omega, by
          simp [addEdge, addNode]⟩
      · intro c
        have : dstCount [(⟨v1, NId.merger st.counter, f1⟩ : GEdge),
            ⟨v2, NId.merger st.counter, f2⟩] (NId.merger c) ≤ 2 := by
          simp only [dstCount]
          exact le_trans (List.length_filter_le _ _) (by simp)
        omega
      · intro p hp
        simp only [List.mem_cons, List.not_mem_nil, or_false] at hp
        rcases hp with rfl | rfl
        · constructor
          · simp [srcCount, List.filter_cons, hne12.symm]
          · simp [srcFlowSum, List.filter_cons, hne12.symm]
        · constructor
          · simp [srcCount, List.filter_cons, hne12]
          · simp [srcFlowSum, List.filter_cons, hne12]
      · intro e he
        simp only [List.mem_cons, List.not_mem_nil, or_false] at he
        rcases he with rfl | rfl
        · exact Or.inl ⟨(v1, f1), by simp⟩
        · exact Or.inl ⟨(v2, f2), by simp⟩
      · intro c hc1 hc2
        simp [addEdge, addNode] at hc2
        omega
      · apply srcCount_eq_zero
        intro e he
        simp only [List.mem_cons, List.not_mem_nil, or_false] at he
        have hcc : (addEdge (addEdge (addNode
            { st with counter := st.counter + 1 } (NId.merger st.counter) ""
            "diamond" "lightcoral") v1 (NId.merger st.counter) f1) v2
            (NId.merger st.counter) f2).counter = st.counter + 1 := by
          simp [addEdge, addNode]
        rcases he with rfl | rfl
        · intro hv
          simp only at hv
          have := hv1m _ hv
          omega
        · intro hv
          simp only at hv
          have := hv2m _ hv
          omega
    | (v1, f1) :: (v2, f2) :: (v3, f3) :: rest =>
      have hids : (((v1, f1) :: (v2, f2) :: (v3, f3) :: rest).map
          (fun p => p.1)) = v1 :: v2 :: v3 :: rest.map (fun p => p.1) := by
        simp
      rw [hids] at hnodup
      rw [List.nodup_cons] at hnodup
      obtain ⟨hn1, hnodup⟩ := hnodup
      rw [List.nodup_cons] at hnodup
      obtain ⟨hn2, hnodup⟩ := hnodup
      rw [List.nodup_cons] at hnodup
      obtain ⟨hn3, hrestnodup⟩ := hnodup
      have h12 : v1 ≠ v2 := fun h => hn1 (by simp [h])
      have h13 : v1 ≠ v3 := fun h => hn1 (by simp [h])
      have h23 : v2 ≠ v3 := fun h => hn2 (by simp [h])
      have hv1r : v1 ∉ rest.map (fun p => p.1) := fun h => hn1 (by simp [h])
      have hv2r : v2 ∉ rest.map (fun p => p.1) := fun h => hn2 (by simp [h])
      have hv3r : v3 ∉ rest.map (fun p => p.1) := hn3
      have hv1m : ∀ c, v1 = NId.merger c → c < st.counter :=
        fun c hc => hold (v1, f1) (by simp) c hc
      have hv2m : ∀ c, v2 = NId.merger c → c < st.counter :=
        fun c hc => hold (v2, f2) (by simp) c hc
      have hv3m : ∀ c, v3 = NId.merger c → c < st.counter :=
        fun c hc => hold (v3, f3) (by simp) c hc
      have hrestm : ∀ p ∈ rest, ∀ c, p.1 = NId.merger c → c < st.counter :=
        fun p hp c hc => hold p (by simp [hp]) c hc
      by_cases hrest : rest = []
      · subst hrest
        simp only [mergeLoopF, List.nil_append, mergeLoopF_single]
        refine ⟨[⟨v1, NId.merger st.counter, f1⟩,
          ⟨v2, NId.merger st.counter, f2⟩,
          ⟨v3, NId.merger st.counter, f3⟩], ?_, ?_, ?_, ?_, ?_, ?_, ?_, ?_, ?_⟩
        · simp [addEdge, addNode]
        · simp [addEdge, addNode]
        · refine ⟨f1 + f2 + f3, ?_⟩
          simp [addEdge, addNode]
        · intro e he
          simp only [List.mem_cons, List.not_mem_nil, or_false] at he
          rcases he with rfl | rfl | rfl <;>
            exact ⟨st.counter, rfl, by omega, by simp [addEdge, addNode]⟩
        · intro c
          have h3 : dstCount [(⟨v1, NId.merger st.counter, f1⟩ : GEdge),
              ⟨v2, NId.merger st.counter, f2⟩,
              ⟨v3, NId.merger st.counter, f3⟩] (NId.merger c) ≤ 3 := by
            simp only [dstCount]
            exact le_trans (List.length_filter_le _ _) (by simp)
          omega
        · intro p hp
          simp only [List.mem_cons, List.not_mem_nil, or_false] at hp
          rcases hp with rfl | rfl | rfl
          · constructor
            · simp [srcCount, List.filter_cons, h12.symm, h13.symm]
            · simp [srcFlowSum, List.filter_cons, h12.symm, h13.symm]
          · constructor
            · simp [srcCount, List.filter_cons, h12, h23.symm]
            · simp [srcFlowSum, List.filter_cons, h12, h23.symm]
          · constructor
            · simp [srcCount, List.filter_cons, h13, h23]
            · simp [srcFlowSum, List.filter_cons, h13, h23]
        · intro e he
          simp only [List.mem_cons, List.not_mem_nil, or_false] at he
          rcases he with rfl | rfl | rfl
          · exact Or.inl ⟨(v1, f1), by simp⟩
          · exact Or.inl ⟨(v2, f2), by simp⟩
          · exact Or.inl ⟨(v3, f3), by simp⟩
        · intro c hc1 hc2
          simp [addEdge, addNode] at hc2
          omega
        · apply srcCount_eq_zero
          intro e he
          simp only [List.mem_cons, List.not_mem_nil, or_false] at he
          have hcc3 : (addEdge (addEdge (addEdge (addNode
              { st with counter := st.counter + 1 } (NId.merger st.counter)
              "" "diamond" "lightcoral") v1 (NId.merger st.counter) f1) v2
              (NId.merger st.counter) f2) v3
              (NId.merger st.counter) f3).counter = st.counter + 1 := by
            simp [addEdge, addNode]
          rcases he with rfl | rfl | rfl
          · intro hv
            have := hv1m _ hv
            omega
          · intro hv
            have := hv2m _ hv
            omega
          · intro hv
            have := hv3m _ hv
            omega
      · have hlen2 : 2 ≤ (rest
            ++ [(NId.merger st.counter, f1 + f2 + f3)]).length := by
          cases rest with
          | nil => exact absurd rfl hrest
          | cons a b => simp
        have hfuel2 : (rest ++ [(NId.merger st.counter, f1 + f2 + f3)]).length
            ≤ fuel := by
          simp only [List.length_cons] at hfuel
          simp only [List.length_append, List.length_cons, List.length_nil]
          omega
        have hold2 : ∀ p ∈ rest ++ [(NId.merger st.counter, f1 + f2 + f3)],
            ∀ c, p.1 = NId.merger c →
            c < (addEdge (addEdge (addEdge (addNode
              { st with counter := st.counter + 1 } (NId.merger st.counter)
              "" "diamond" "lightcoral") v1 (NId.merger st.counter) f1) v2
              (NId.merger st.counter) f2) v3
              (NId.merger st.counter) f3).counter := by
          intro p hp c hc
          have hcc : (addEdge (addEdge (addEdge (addNode
              { st with counter := st.counter + 1 } (NId.merger st.counter)
              "" "diamond" "lightcoral") v1 (NId.merger st.counter) f1) v2
              (NId.merger st.counter) f2) v3
              (NId.merger st.counter) f3).counter = st.counter + 1 := by
            simp [addEdge, addNode]
          rw [hcc]
          rcases List.mem_append.mp hp with h | h
          · have := hrestm p h c hc
            omega
          · simp only [List.mem_singleton] at h
            subst h
            simp only [NId.merger.injEq] at hc
            omega
        have hnodup2 : ((rest
            ++ [(NId.merger st.counter, f1 + f2 + f3)]).map
            (fun p => p.1)).Nodup := by
          rw [List.map_append]
          simp only [List.map_cons, List.map_nil]
          rw [List.nodup_append]
          refine ⟨hrestnodup, by simp, ?_⟩
          intro a ha
          simp only [List.mem_singleton]
          intro heq
          subst heq
          obtain ⟨p, hp, hp2⟩ := List.mem_map.mp ha
          have := hrestm p hp st.counter hp2
          omega
        obtain ⟨es2, g1, g2, g3, g4, g5, g6, g7, g8, g9⟩ :=
          ih (addEdge (addEdge (addEdge (addNode
            { st with counter := st.counter + 1 } (NId.merger st.counter)
            "" "diamond" "lightcoral") v1 (NId.merger st.counter) f1) v2
            (NId.merger st.counter) f2) v3 (NId.merger st.counter) f3)
            (rest ++ [(NId.merger st.counter, f1 + f2 + f3)])
            hfuel2 hlen2 hold2 hnodup2
        have hcc : (addEdge (addEdge (addEdge (addNode
            { st with counter := st.counter + 1 } (NId.merger st.counter)
            "" "diamond" "lightcoral") v1 (NId.merger st.counter) f1) v2
            (NId.merger st.counter) f2) v3
            (NId.merger st.counter) f3).counter = st.counter + 1 := by
          simp [addEdge, addNode]
        have hce : (addEdge (addEdge (addEdge (addNode
            { st with counter := st.counter + 1 } (NId.merger st.counter)
            "" "diamond" "lightcoral") v1 (NId.merger st.counter) f1) v2
            (NId.merger st.counter) f2) v3
            (NId.merger st.counter) f3).edges = st.edges ++
            [⟨v1, NId.merger st.counter, f1⟩, ⟨v2, NId.merger st.counter, f2⟩,
             ⟨v3, NId.merger st.counter, f3⟩] := by
          simp [addEdge, addNode]
        rw [hcc] at g2
        rw [hce] at g1
        have hsrc2 : ∀ e ∈ es2, e.src ≠ v1 ∧ e.src ≠ v2 ∧ e.src ≠ v3 := by
          intro e he
          rcases g7 e he with ⟨q, hq, hq2⟩ | ⟨c, hc, hc1, hc2⟩
          · rcases List.mem_append.mp hq with h | h
            · have hmem : q.1 ∈ rest.map (fun r => r.1) :=
                List.mem_map.mpr ⟨q, h, rfl⟩
              refine ⟨?_, ?_, ?_⟩ <;> intro hv
              · exact hv1r ((hq2.symm.trans hv) ▸ hmem)
              · exact hv2r ((hq2.symm.trans hv) ▸ hmem)
              · exact hv3r ((hq2.symm.trans hv) ▸ hmem)
            · simp only [List.mem_singleton] at h
              subst h
              simp only at hq2
              refine ⟨?_, ?_, ?_⟩ <;> intro hv
              · have := hv1m st.counter (hv.symm.trans hq2)
                omega
              · have := hv2m st.counter (hv.symm.trans hq2)
                omega
              · have := hv3m st.counter (hv.symm.trans hq2)
                omega
          · refine ⟨?_, ?_, ?_⟩ <;> intro hv
            · have := hv1m c (hv.symm.trans hc)
              omega
            · have := hv2m c (hv.symm.trans hc)
              omega
            · have := hv3m c (hv.symm.trans hc)
              omega
        simp only [mergeLoopF]
        refine ⟨[⟨v1, NId.merger st.counter, f1⟩,
          ⟨v2, NId.merger st.counter, f2⟩,
          ⟨v3, NId.merger st.counter, f3⟩] ++ es2,
          ?_, ?_, ?_, ?_, ?_, ?_, ?_, ?_, ?_⟩
        · rw [g1]
          simp
        · omega
        · exact g3
        · intro e he
          rcases List.mem_append.mp he with h | h
          · simp only [List.mem_cons, List.not_mem_nil, or_false] at h
            rcases h with rfl | rfl | rfl <;>
              exact ⟨st.counter, rfl, le_refl _, by omega⟩
          · obtain ⟨c, hc, hc1, hc2⟩ := g4 e h
            rw [hcc] at hc1
            exact ⟨c, hc, by omega, hc2⟩
        · intro c
          rw [dstCount_append]
          by_cases hc : c = st.counter
          · subst hc
            have hE : dstCount [(⟨v1, NId.merger st.counter, f1⟩ : GEdge),
                ⟨v2, NId.merger st.counter, f2⟩,
                ⟨v3, NId.merger st.counter, f3⟩] (NId.merger st.counter)
                = 3 := by
              simp [dstCount, List.filter_cons]
            have hes2 : dstCount es2 (NId.merger st.counter) = 0 := by
              apply dstCount_eq_zero
              intro e he hv
              obtain ⟨c2, hc2, hc3, hc4⟩ := g4 e he
              rw [hcc] at hc3
              rw [hv] at hc2
              injection hc2 with h2
              omega
            omega
          · have hE : dstCount [(⟨v1, NId.merger st.counter, f1⟩ : GEdge),
                ⟨v2, NId.merger st.counter, f2⟩,
                ⟨v3, NId.merger st.counter, f3⟩] (NId.merger c) = 0 := by
              apply dstCount_eq_zero
              intro e he hv
              simp only [List.mem_cons, List.not_mem_nil, or_false] at he
              rcases he with rfl | rfl | rfl <;> simp only at hv <;>
                exact hc (by injection hv with h2; omega)
            have := g5 c
            omega
        · intro p hp
          rw [srcCount_append, srcFlowSum_append]
          simp only [List.mem_cons] at hp
          rcases hp with rfl | rfl | rfl | hp
          · have hz : srcCount es2 v1 = 0 :=
              srcCount_eq_zero _ _ (fun e he => (hsrc2 e he).1)
            have hz2 : srcFlowSum es2 v1 = 0 :=
              srcFlowSum_eq_zero _ _ (fun e he => (hsrc2 e he).1)
            constructor
            · rw [hz]
              simp [srcCount, List.filter_cons, h12.symm, h13.symm]
            · rw [hz2]
              simp [srcFlowSum, List.filter_cons, h12.symm, h13.symm]
          · have hz : srcCount es2 v2 = 0 :=
              srcCount_eq_zero _ _ (fun e he => (hsrc2 e he).2.1)
            have hz2 : srcFlowSum es2 v2 = 0 :=
              srcFlowSum_eq_zero _ _ (fun e he => (hsrc2 e he).2.1)
            constructor
            · rw [hz]
              simp [srcCount, List.filter_cons, h12, h23.symm]
            · rw [hz2]
              simp [srcFlowSum, List.filter_cons, h12, h23.symm]
          · have hz : srcCount es2 v3 = 0 :=
              srcCount_eq_zero _ _ (fun e he => (hsrc2 e he).2.2)
            have hz2 : srcFlowSum es2 v3 = 0 :=
              srcFlowSum_eq_zero _ _ (fun e he => (hsrc2 e he).2.2)
            constructor
            · rw [hz]
              simp [srcCount, List.filter_cons, h13, h23]
            · rw [hz2]
              simp [srcFlowSum, List.filter_cons, h13, h23]
          · have hmem : p.1 ∈ rest.map (fun q => q.1) :=
              List.mem_map.mpr ⟨p, hp, rfl⟩
            have hne1 : v1 ≠ p.1 := fun h => hv1r (h ▸ hmem)
            have hne2 : v2 ≠ p.1 := fun h => hv2r (h ▸ hmem)
            have hne3 : v3 ≠ p.1 := fun h => hv3r (h ▸ hmem)
            have hE : srcCount [(⟨v1, NId.merger st.counter, f1⟩ : GEdge),
                ⟨v2, NId.merger st.counter, f2⟩,
                ⟨v3, NId.merger st.counter, f3⟩] p.1 = 0 := by
              apply srcCount_eq_zero
              intro e he
              simp only [List.mem_cons, List.not_mem_nil, or_false] at he
              rcases he with rfl | rfl | rfl <;> simp only <;> assumption
            have hE2 : srcFlowSum [(⟨v1, NId.merger st.counter, f1⟩ : GEdge),
                ⟨v2, NId.merger st.counter, f2⟩,
                ⟨v3, NId.merger st.counter, f3⟩] p.1 = 0 := by
              apply srcFlowSum_eq_zero
              intro e he
              simp only [List.mem_cons, List.not_mem_nil, or_false] at he
              rcases he with rfl | rfl | rfl <;> simp only <;> assumption
            have := g6 p (List.mem_append.mpr (Or.inl hp))
            constructor
            · rw [hE, this.1]
            · rw [hE2, this.2]
              omega
        · intro e he
          rcases List.mem_append.mp he with h | h
          · simp only [List.mem_cons, List.not_mem_nil, or_false] at h
            rcases h with rfl | rfl | rfl
            · exact Or.inl ⟨(v1, f1), by simp⟩
            · exact Or.inl ⟨(v2, f2), by simp⟩
            · exact Or.inl ⟨(v3, f3), by simp⟩
          · rcases g7 e h with ⟨q, hq, hq2⟩ | ⟨c, hc, hc1, hc2⟩
            · rcases List.mem_append.mp hq with h2 | h2
              · exact Or.inl ⟨q, by simp [h2], hq2⟩
              · simp only [List.mem_singleton] at h2
                subst h2
                refine Or.inr ⟨st.counter, by simpa using hq2, le_refl _, ?_⟩
                omega
            · rw [hcc] at hc1
              exact Or.inr ⟨c, hc, by omega, hc2⟩
        · intro c hc1 hc2
          rw [srcCount_append]
          have hE : srcCount [(⟨v1, NId.merger st.counter, f1⟩ : GEdge),
              ⟨v2, NId.merger st.counter, f2⟩,
              ⟨v3, NId.merger st.counter, f3⟩] (NId.merger c) = 0 := by
            apply srcCount_eq_zero
            intro e he
            simp only [List.mem_cons, List.not_mem_nil, or_false] at he
            rcases he with rfl | rfl | rfl <;> simp only <;> intro hv
            · have := hv1m c hv; omega
            · have := hv2m c hv; omega
            · have := hv3m c hv; omega
          by_cases hc : c = st.counter
          · subst hc
            have h1 := (g6 (NId.merger st.counter, f1 + f2 + f3)
              (List.mem_append.mpr (Or.inr (by simp)))).1
            simp only at h1
            omega
          · have := g8 c (by omega) hc2
            omega
        · rw [srcCount_append]
          have hge : st.counter + 1
              < (mergeLoopF fuel (addEdge (addEdge (addEdge (addNode
                { st with counter := st.counter + 1 } (NId.merger st.counter)
                "" "diamond" "lightcoral") v1 (NId.merger st.counter) f1) v2
                (NId.merger st.counter) f2) v3 (NId.merger st.counter) f3)
                (rest ++ [(NId.merger st.counter, f1 + f2 + f3)])).1.counter
              := g2
          have hE : srcCount [(⟨v1, NId.merger st.counter, f1⟩ : GEdge),
              ⟨v2, NId.merger st.counter, f2⟩,
              ⟨v3, NId.merger st.counter, f3⟩]
              (NId.merger ((mergeLoopF fuel (addEdge (addEdge (addEdge
                (addNode { st with counter := st.counter + 1 }
                (NId.merger st.counter) "" "diamond" "lightcoral") v1
                (NId.merger st.counter) f1) v2 (NId.merger st.counter) f2) v3
                (NId.merger st.counter) f3)
                (rest ++ [(NId.merger st.counter, f1 + f2 + f3)])).1.counter
                - 1)) = 0 := by
            apply srcCount_eq_zero
            intro e he
            simp only [List.mem_cons, List.not_mem_nil, or_false] at he
            rcases he with rfl | rfl | rfl <;> simp only <;> intro hv
            · have := hv1m _ hv; omega
            · have := hv2m _ hv; omega
            · have := hv3m _ hv; omega
          omega

end Balancer

namespace Balancer

/-- Inserting keeps the same elements up to permutation. -/
theorem insertDesc_perm {α : Type} (ge : α → α → Bool) (a : α) :
    ∀ l : List α, List.Perm (insertDesc ge a l) (a :: l) := by
  intro l
  induction l with
  | nil => simp [insertDesc]
  | cons h t ih =>
    simp only [insertDesc]
    by_cases hge : ge h a = true
    · simp only [hge, if_true]
      exact (ih.cons h).trans (List.Perm.swap a h t)
    · simp only [hge, Bool.false_eq_true, if_false]
      exact List.Perm.refl _

/-- The descending insertion sort permutes its input. -/
theorem sortDesc_perm {α : Type} (ge : α → α → Bool) :
    ∀ l : List α, List.Perm (sortDesc ge l) l := by
  intro l
  induction l with
  | nil => simp [sortDesc]
  | cons h t ih =>
    simp only [sortDesc]
    exact (insertDesc_perm ge h (sortDesc ge t)).trans (ih.cons h)

/-- `find?` looks in the left part first. -/
theorem find_append_left {α : Type} (p : α → Bool) (a b : List α) (x : α)
    (h : a.find? p = some x) : (a ++ b).find? p = some x := by
  induction a with
  | nil => simp [List.find?] at h
  | cons y t ih =>
    simp only [List.cons_append, List.find?] at h ⊢
    by_cases hy : p y = true
    · simp only [hy] at h ⊢
      exact h
    · simp only [Bool.not_eq_true] at hy
      simp only [hy] at h ⊢
      exact ih h

/-- In a keyed list with distinct keys, a member is what `find?` returns. -/
theorem find_of_mem_nodupkeys {α : Type} (l : List (Nat × α))
    (hn : (l.map (fun p => p.1)).Nodup) (x : Nat × α) (hx : x ∈ l) :
    l.find? (fun p => p.1 = x.1) = some x := by
  induction l with
  | nil => simp at hx
  | cons y t ih =>
    rw [List.map_cons, List.nodup_cons] at hn
    rcases List.mem_cons.mp hx with rfl | hx2
    · rw [List.find?_cons_of_pos _ (by simp)]
    · have hne : ¬ (y.1 = x.1) := by
        intro h
        exact hn.1 (h ▸ List.mem_map.mpr ⟨x, hx2, rfl⟩)
      rw [List.find?_cons_of_neg _ (by simpa using hne)]
      exact ih hn.2 hx2

/-- `dictSet` with a fresh key appends. -/
theorem dictSet_fresh {κ α : Type} [DecidableEq κ] (d : List (κ × α))
    (k : κ) (v : α) (h : ∀ p ∈ d, p.1 ≠ k) :
    dictSet d k v = d ++ [(k, v)] := by
  simp only [dictSet]
  rw [if_neg]
  simp only [List.any_eq_true, decide_eq_true_eq, not_exists]
  intro p hp
  exact h p hp.1 hp.2

end Balancer

namespace Balancer

/-- `d.update(e)` on fresh, internally distinct keys appends. -/
theorem dictUpdate_fresh {κ α : Type} [DecidableEq κ] :
    ∀ (e d : List (κ × α)), (∀ q ∈ e, ∀ p ∈ d, p.1 ≠ q.1) →
      (e.map (fun q => q.1)).Nodup → dictUpdate d e = d ++ e := by
  intro e
  induction e with
  | nil => intro d _ _; simp [dictUpdate]
  | cons q e ih =>
    intro d hfresh hnodup
    rw [List.map_cons, List.nodup_cons] at hnodup
    have h1 : dictSet d q.1 q.2 = d ++ [q] := by
      have := dictSet_fresh d q.1 q.2 (fun p hp => hfresh q (by simp) p hp)
      simpa using this
    have h2 : dictUpdate d (q :: e) = dictUpdate (dictSet d q.1 q.2) e := by
      simp [dictUpdate]
    rw [h2, h1, ih (d ++ [q]) ?_ hnodup.2]
    · simp
    · intro q2 hq2 p hp
      rcases List.mem_append.mp hp with h | h
      · exact hfresh q2 (List.mem_cons_of_mem _ hq2) p h
      · simp only [List.mem_singleton] at h
        subst h
        intro hk
        exact hnodup.1 (hk ▸ List.mem_map.mpr ⟨q2, hq2, rfl⟩)

/-- Full behaviour of the `for child_id, child_dests in group:` loop:
exactly one edge from the fresh splitter to each device child; one
`dest_sources` entry per leaf child recording the fresh splitter and the
leaf's flow; `merged_dests` accumulates all children's destinations. -/
theorem processGroup_spec (sid : NId) :
    ∀ (grp : List (NId × List (Nat × Nat))) (st : BState)
      (ds : List (Nat × NId × Nat)) (merged : List (Nat × Nat)),
      (∀ r ∈ grp, (∃ d f, r = (NId.leaf d, [(d, f)])) ∨
        ∃ c ds2, r = (NId.splitter c, ds2)) →
      (∀ r ∈ grp, isLeaf r.1 = true → ∀ q ∈ r.2, ∀ p ∈ ds, p.1 ≠ q.1) →
      ((grp.map (fun r => r.2.map (fun q => q.1))).flatten).Nodup →
      (∀ q ∈ merged, ∀ r ∈ grp, ∀ q2 ∈ r.2, q.1 ≠ q2.1) →
      ((grp.map (fun r => r.1)).Nodup) →
      ∃ E dnew,
        (processGroup sid st ds grp merged).1.edges = st.edges ++ E ∧
        (processGroup sid st ds grp merged).2.1 = ds ++ dnew ∧
        childFlow (processGroup sid st ds grp merged).2.2
          = childFlow merged + (grp.map (fun r => childFlow r.2)).sum ∧
        (processGroup sid st ds grp merged).2.2.map (fun q => q.1)
          = merged.map (fun q => q.1)
            ++ (grp.map (fun r => r.2.map (fun q => q.1))).flatten ∧
        (∀ e ∈ E, e.src = sid ∧ ∃ r ∈ grp, isLeaf r.1 = false ∧
          e.dst = r.1) ∧
        (∀ r ∈ grp, isLeaf r.1 = false → dstCount E r.1 = 1) ∧
        E.length + dnew.length = grp.length ∧
        (∀ p ∈ dnew, p.2.1 = sid) ∧
        (∀ r ∈ grp, isLeaf r.1 = true → ∀ q ∈ r.2,
          (q.1, (sid, q.2)) ∈ dnew) ∧
        (∀ k, (∃ p ∈ dnew, p.1 = k) → ∃ r ∈ grp, isLeaf r.1 = true ∧
          k ∈ r.2.map (fun q => q.1)) ∧
        (dnew.map (fun p => p.1)).Nodup := by
  intro grp
  induction grp with
  | nil =>
    intro st ds merged _ _ _ _ _
    exact ⟨[], [], by simp [processGroup], by simp [processGroup],
      by simp [processGroup], by simp [processGroup], by simp, by simp,
      by simp, by simp, by simp, by simp, by simp⟩
  | cons child grp ih =>
    intro st ds merged hgrp hfresh hflat hm hids
    have hflat2 : ((grp.map (fun r => r.2.map (fun q => q.1))).flatten).Nodup
        := by
      rw [List.map_cons, List.flatten_cons, List.nodup_append] at hflat
      exact hflat.2.1
    have hdisj : ∀ k ∈ child.2.map (fun q => q.1),
        k ∉ (grp.map (fun r => r.2.map (fun q => q.1))).flatten := by
      rw [List.map_cons, List.flatten_cons, List.nodup_append] at hflat
      intro k hk
      exact fun hmem => hflat.2.2 hk hmem
    have hchildnodup : (child.2.map (fun q => q.1)).Nodup := by
      rw [List.map_cons, List.flatten_cons, List.nodup_append] at hflat
      exact hflat.1
    have hids2 : (grp.map (fun r => r.1)).Nodup := by
      rw [List.map_cons, List.nodup_cons] at hids
      exact hids.2
    have hchildid : child.1 ∉ grp.map (fun r => r.1) := by
      rw [List.map_cons, List.nodup_cons] at hids
      exact hids.1
    rcases hgrp child (by simp) with ⟨d, f, hc⟩ | ⟨c, ds2, hc⟩
    · -- leaf child
      have hleaf : isLeaf child.1 = true := by rw [hc]; rfl
      simp only [processGroup, hleaf, if_true]
      have hset : child.2.foldl (fun dd p => dictSet dd p.1 (sid, p.2)) ds
          = ds ++ [(d, (sid, f))] := by
        rw [hc]
        simp only [List.foldl_cons, List.foldl_nil]
        exact dictSet_fresh ds d (sid, f)
          (fun p hp hk => hfresh child (by simp) hleaf (d, f)
            (by rw [hc]; simp) p hp hk)
      have hupd : dictUpdate merged child.2 = merged ++ child.2 := by
        apply dictUpdate_fresh child.2 merged ?_ hchildnodup
        intro q hq p hp hk
        exact hm p hp child (by simp) q hq hk
      have hfresh2 : ∀ r ∈ grp, isLeaf r.1 = true → ∀ q ∈ r.2,
          ∀ p ∈ ds ++ [(d, (sid, f))], p.1 ≠ q.1 := by
        intro r hr hrl q hq p hp
        rcases List.mem_append.mp hp with h | h
        · exact hfresh r (List.mem_cons_of_mem _ hr) hrl q hq p h
        · simp only [List.mem_singleton] at h
          subst h
          simp only
          intro hk
          have hqk : q.1 ∈ (grp.map (fun r => r.2.map (fun q => q.1))).flatten :=
            List.mem_flatten.mpr ⟨r.2.map (fun q2 => q2.1),
              List.mem_map.mpr ⟨r, hr, rfl⟩, List.mem_map.mpr ⟨q, hq, rfl⟩⟩
          have hdc : d ∈ child.2.map (fun q => q.1) := by rw [hc]; simp
          exact hdisj d hdc (hk ▸ hqk)
      have hm2 : ∀ q ∈ dictUpdate merged child.2, ∀ r ∈ grp, ∀ q2 ∈ r.2,
          q.1 ≠ q2.1 := by
        intro q hq r hr q2 hq2
        rcases List.mem_append.mp (hupd ▸ hq) with h | h
        · exact hm q h r (List.mem_cons_of_mem _ hr) q2 hq2
        · intro hk
          have hqk : q.1 ∈ child.2.map (fun q3 => q3.1) :=
            List.mem_map.mpr ⟨q, h, rfl⟩
          exact hdisj q.1 hqk (hk ▸ List.mem_flatten.mpr
            ⟨r.2.map (fun q3 => q3.1), List.mem_map.mpr ⟨r, hr, rfl⟩,
              List.mem_map.mpr ⟨q2, hq2, rfl⟩⟩)
      obtain ⟨E, dnew1, g1, g2, g3, g4, g5, g6, g7, g8, g9, g10, g11⟩ :=
        ih st (ds ++ [(d, (sid, f))]) (dictUpdate merged child.2)
          (fun r hr => hgrp r (List.mem_cons_of_mem _ hr))
          hfresh2 hflat2 hm2 hids2
      rw [hset]
      refine ⟨E, (d, (sid, f)) :: dnew1, g1, ?_, ?_, ?_, ?_, ?_, ?_, ?_,
        ?_, ?_, ?_⟩
      · rw [g2]
        simp
      · rw [g3, hupd, hc]
        simp [childFlow]
        omega
      · rw [g4, hupd]
        simp [hc]
      · intro e he
        obtain ⟨h1, r, hr, h2, h3⟩ := g5 e he
        exact ⟨h1, r, List.mem_cons_of_mem _ hr, h2, h3⟩
      · intro r hr hrl
        rcases List.mem_cons.mp hr with rfl | hr2
        · rw [hleaf] at hrl
          simp at hrl
        · exact g6 r hr2 hrl
      · simp only [List.length_cons, List.length_cons]
        omega
      · intro p hp
        rcases List.mem_cons.mp hp with rfl | hp2
        · rfl
        · exact g8 p hp2
      · intro r hr hrl q hq
        rcases List.mem_cons.mp hr with rfl | hr2
        · rw [hc] at hq
          simp only [List.mem_singleton] at hq
          subst hq
          simp
        · exact List.mem_cons_of_mem _ (g9 r hr2 hrl q hq)
      · intro k hk
        obtain ⟨p, hp, hp2⟩ := hk
        rcases List.mem_cons.mp hp with rfl | hp2m
        · exact ⟨child, by simp, hleaf, by rw [hc, ← hp2]; simp⟩
        · obtain ⟨r, hr, h1, h2⟩ := g10 k ⟨p, hp2m, hp2⟩
          exact ⟨r, List.mem_cons_of_mem _ hr, h1, h2⟩
      · rw [List.map_cons, List.nodup_cons]
        refine ⟨?_, g11⟩
        intro hd
        obtain ⟨r, hr, h1, h2⟩ := g10 d ⟨_, List.mem_map.mp hd |>.choose_spec.1, (List.mem_map.mp hd).choose_spec.2⟩
        have hdc : d ∈ child.2.map (fun q => q.1) := by rw [hc]; simp
        exact hdisj d hdc (List.mem_flatten.mpr
          ⟨r.2.map (fun q => q.1), List.mem_map.mpr ⟨r, hr, rfl⟩, h2⟩)
    · -- device child
      have hleaf : isLeaf child.1 = false := by rw [hc]; rfl
      simp only [processGroup, hleaf, Bool.false_eq_true, if_false]
      have hupd : dictUpdate merged child.2 = merged ++ child.2 := by
        apply dictUpdate_fresh child.2 merged ?_ hchildnodup
        intro q hq p hp hk
        exact hm p hp child (by simp) q hq hk
      have hm2 : ∀ q ∈ dictUpdate merged child.2, ∀ r ∈ grp, ∀ q2 ∈ r.2,
          q.1 ≠ q2.1 := by
        intro q hq r hr q2 hq2
        rcases List.mem_append.mp (hupd ▸ hq) with h | h
        · exact hm q h r (List.mem_cons_of_mem _ hr) q2 hq2
        · intro hk
          have hqk : q.1 ∈ child.2.map (fun q3 => q3.1) :=
            List.mem_map.mpr ⟨q, h, rfl⟩
          exact hdisj q.1 hqk (hk ▸ List.mem_flatten.mpr
            ⟨r.2.map (fun q3 => q3.1), List.mem_map.mpr ⟨r, hr, rfl⟩,
              List.mem_map.mpr ⟨q2, hq2, rfl⟩⟩)
      obtain ⟨E, dnew1, g1, g2, g3, g4, g5, g6, g7, g8, g9, g10, g11⟩ :=
        ih (addEdge st sid child.1 (childFlow child.2)) ds
          (dictUpdate merged child.2)
          (fun r hr => hgrp r (List.mem_cons_of_mem _ hr))
          (fun r hr hrl q hq p hp =>
            hfresh r (List.mem_cons_of_mem _ hr) hrl q hq p hp)
          hflat2 hm2 hids2
      refine ⟨⟨sid, child.1, childFlow child.2⟩ :: E, dnew1, ?_, g2, ?_,
        ?_, ?_, ?_, ?_, g8, ?_, ?_, g11⟩
      · rw [g1]
        simp [addEdge]
      · rw [g3, hupd]
        simp [childFlow]
        omega
      · rw [g4, hupd]
        simp
      · intro e he
        rcases List.mem_cons.mp he with rfl | he2
        · exact ⟨rfl, child, by simp, hleaf, rfl⟩
        · obtain ⟨h1, r, hr, h2, h3⟩ := g5 e he2
          exact ⟨h1, r, List.mem_cons_of_mem _ hr, h2, h3⟩
      · intro r hr hrl
        rcases List.mem_cons.mp hr with rfl | hr2
        · have h0 : dstCount E r.1 = 0 := by
            apply dstCount_eq_zero
            intro e he hv
            obtain ⟨_, r2, hr2m, _, h3⟩ := g5 e he
            exact hchildid ((h3.symm.trans hv) ▸
              List.mem_map.mpr ⟨r2, hr2m, rfl⟩)
          have h1 : dstCount [(⟨sid, r.1, childFlow r.2⟩ : GEdge)]
              r.1 = 1 := by
            simp [dstCount]
          have h2 := dstCount_append
            [⟨sid, r.1, childFlow r.2⟩] E r.1
          simp only [List.singleton_append] at h2
          omega
        · have h0 : dstCount [(⟨sid, child.1, childFlow child.2⟩ : GEdge)]
              r.1 = 0 := by
            apply dstCount_eq_zero
            intro e he hv
            simp only [List.mem_singleton] at he
            subst he
            simp only at hv
            exact hchildid (hv.symm ▸ List.mem_map.mpr ⟨r, hr2, rfl⟩)
          have h1 := g6 r hr2 hrl
          have h2 := dstCount_append [⟨sid, child.1, childFlow child.2⟩] E
            r.1
          simp only [List.singleton_append] at h2
          omega
      · simp only [List.length_cons]
        omega
      · intro r hr hrl q hq
        rcases List.mem_cons.mp hr with rfl | hr2
        · rw [hleaf] at hrl
          simp at hrl
        · exact g9 r hr2 hrl q hq
      · intro k hk
        obtain ⟨r, hr, h1, h2⟩ := g10 k hk
        exact ⟨r, List.mem_cons_of_mem _ hr, h1, h2⟩

end Balancer

namespace Balancer

/-- All edges leave `v`: the count is the length. -/
theorem srcCount_eq_length (es : List GEdge) (v : NId)
    (h : ∀ e ∈ es, e.src = v) : srcCount es v = es.length := by
  simp only [srcCount]
  rw [List.filter_eq_self.mpr (fun e he => by simpa using h e he)]

/-- All entries point at `v`: the count is the length. -/
theorem dsValCount_eq_length (ds : List (Nat × NId × Nat)) (v : NId)
    (h : ∀ p ∈ ds, p.2.1 = v) : dsValCount ds v = ds.length := by
  simp only [dsValCount]
  rw [List.filter_eq_self.mpr (fun p hp => by simpa using h p hp)]

/-- No entry points at `v`. -/
theorem dsValCount_eq_zero (ds : List (Nat × NId × Nat)) (v : NId)
    (h : ∀ p ∈ ds, p.2.1 ≠ v) : dsValCount ds v = 0 := by
  simp only [dsValCount]
  rw [List.filter_eq_nil_iff.mpr (fun p hp => by simpa using h p hp)]
  rfl

/-- `dsValCount` distributes over append. -/
theorem dsValCount_append (a b : List (Nat × NId × Nat)) (v : NId) :
    dsValCount (a ++ b) v = dsValCount a v + dsValCount b v := by
  simp [dsValCount, List.filter_append]

/-- A one-root list makes the split loop exit immediately. -/
theorem splitLoopF_single (fuel : Nat) (st : BState)
    (ds : List (Nat × NId × Nat)) (x : NId × List (Nat × Nat)) :
    splitLoopF fuel st ds [x] = (st, ds, [x]) := by
  cases fuel with
  | zero => rfl
  | succ fuel => rfl

end Balancer

namespace Balancer

/-- One grouping step of the split loop, packaged: the fresh splitter
`S(st.counter)` absorbs the group; edges go from it to exactly the device
children; `dest_sources` gains exactly the leaf children, all pointing at
the fresh splitter; together they number the group's size (at most three);
the merged root carries the group's summed flow and exactly its keys. -/
theorem splitStep_spec (st st1 : BState) (ds : List (Nat × NId × Nat))
    (grp : List (NId × List (Nat × Nat)))
    (hst1e : st1.edges = st.edges)
    (hlen3 : grp.length ≤ 3)
    (hgrp : ∀ r ∈ grp, (∃ d f, r = (NId.leaf d, [(d, f)])) ∨
      ∃ c ds2, c < st.counter ∧ r = (NId.splitter c, ds2))
    (hids : (grp.map (fun r => r.1)).Nodup)
    (hfk : ∀ r ∈ grp, isLeaf r.1 = true → ∀ q ∈ r.2, ∀ p ∈ ds, p.1 ≠ q.1)
    (hfl : ((grp.map (fun r => r.2.map (fun q => q.1))).flatten).Nodup) :
    ∃ E dnew,
      (processGroup (NId.splitter st.counter) st1 ds grp []).1.edges
        = st.edges ++ E ∧
      (processGroup (NId.splitter st.counter) st1 ds grp []).2.1
        = ds ++ dnew ∧
      childFlow (processGroup (NId.splitter st.counter) st1 ds grp []).2.2
        = (grp.map (fun r => childFlow r.2)).sum ∧
      (processGroup (NId.splitter st.counter) st1 ds grp []).2.2.map
        (fun q => q.1) = (grp.map (fun r => r.2.map (fun q => q.1))).flatten ∧
      (∀ p ∈ dnew, p.2.1 = NId.splitter st.counter) ∧
      (∀ r ∈ grp, isLeaf r.1 = true → ∀ q ∈ r.2,
        (q.1, (NId.splitter st.counter, q.2)) ∈ dnew) ∧
      (∀ k, (∃ p ∈ dnew, p.1 = k) → ∃ r ∈ grp, isLeaf r.1 = true ∧
        k ∈ r.2.map (fun q => q.1)) ∧
      (dnew.map (fun p => p.1)).Nodup ∧
      (∀ e ∈ E, e.src = NId.splitter st.counter) ∧
      (∀ e ∈ E, e.dst ∈ grp.map (fun r => r.1) ∧ isLeaf e.dst = false) ∧
      (∀ r ∈ grp, isLeaf r.1 = false → dstCount E r.1 = 1) ∧
      (∀ c, st.counter ≤ c → dstCount E (NId.splitter c) = 0) ∧
      srcCount E (NId.splitter st.counter)
        + dsValCount dnew (NId.splitter st.counter) ≤ 3 ∧
      (∀ c, c ≠ st.counter → srcCount E (NId.splitter c) = 0 ∧
        dsValCount dnew (NId.splitter c) = 0) := by
  obtain ⟨E, dnew, g1, g2, g3, g4, g5, g6, g7, g8, g9, g10, g11⟩ :=
    processGroup_spec (NId.splitter st.counter) grp st1 ds []
      (fun r hr => (hgrp r hr).elim
        (fun ⟨d, f, h⟩ => Or.inl ⟨d, f, h⟩)
        (fun ⟨c, ds2, _, h⟩ => Or.inr ⟨c, ds2, h⟩))
      hfk hfl (by simp) hids
  refine ⟨E, dnew, by rw [g1, hst1e], g2, by simpa [childFlow] using g3,
    by simpa using g4, g8, g9, g10, g11, fun e he => (g5 e he).1, ?_, g6,
    ?_, ?_, ?_⟩
  · intro e he
    obtain ⟨_, r, hr, hl, hd⟩ := g5 e he
    exact ⟨hd ▸ List.mem_map.mpr ⟨r, hr, rfl⟩, hd ▸ hl⟩
  · intro c hc
    apply dstCount_eq_zero
    intro e he hv
    obtain ⟨_, r, hr, _, hd⟩ := g5 e he
    rcases hgrp r hr with ⟨d, f, h⟩ | ⟨c2, ds2, hc2, h⟩
    · rw [h] at hd
      simp only at hd
      rw [hd] at hv
      exact absurd hv (by simp)
    · rw [h] at hd
      simp only at hd
      rw [hd] at hv
      injection hv with h2
      omega
  · have h1 : srcCount E (NId.splitter st.counter) = E.length :=
      srcCount_eq_length E _ (fun e he => (g5 e he).1)
    have h2 : dsValCount dnew (NId.splitter st.counter) = dnew.length :=
      dsValCount_eq_length dnew _ g8
    omega
  · intro c hc
    constructor
    · apply srcCount_eq_zero
      intro e he hv
      rw [(g5 e he).1] at hv
      injection hv with h2
      exact hc h2.symm
    · apply dsValCount_eq_zero
      intro p hp hv
      rw [g8 p hp] at hv
      injection hv with h2
      exact hc h2.symm

end Balancer

namespace Balancer

/-- Full behaviour of the split loop on at least two roots: it reduces the
root list to a single fresh splitter root carrying the total flow; every
leaf destination lands in `dest_sources` with its flow, fed by one of the
new splitters; every new edge goes from a new splitter to a grouped root or
an earlier new splitter; every device root and every non-final new splitter
receives exactly one edge, the final splitter none; and each new splitter's
outgoing edges plus its `dest_sources` entries number at most three. -/
theorem splitLoopF_spec :
    ∀ (fuel : Nat) (st : BState) (ds : List (Nat × NId × Nat))
      (roots : List (NId × List (Nat × Nat))),
      roots.length ≤ fuel → 2 ≤ roots.length →
      (∀ r ∈ roots, (∃ d f, r = (NId.leaf d, [(d, f)])) ∨
        ∃ c ds2, c < st.counter ∧ r = (NId.splitter c, ds2)) →
      ((roots.map (fun r => r.1)).Nodup) →
      (∀ p ∈ ds, ∃ c, c < st.counter ∧ p.2.1 = NId.splitter c) →
      (∀ r ∈ roots, isLeaf r.1 = true → ∀ q ∈ r.2, ∀ p ∈ ds, p.1 ≠ q.1) →
      ((roots.map (fun r => r.2.map (fun q => q.1))).flatten).Nodup →
      ∃ es dall,
        (splitLoopF fuel st ds roots).1.edges = st.edges ++ es ∧
        st.counter < (splitLoopF fuel st ds roots).1.counter ∧
        (splitLoopF fuel st ds roots).2.1 = ds ++ dall ∧
        (∃ md, (splitLoopF fuel st ds roots).2.2
            = [(NId.splitter ((splitLoopF fuel st ds roots).1.counter - 1),
                md)] ∧
          childFlow md = (roots.map (fun r => childFlow r.2)).sum) ∧
        (∀ p ∈ dall, ∃ c, st.counter ≤ c ∧
          c < (splitLoopF fuel st ds roots).1.counter ∧
          p.2.1 = NId.splitter c) ∧
        (∀ r ∈ roots, isLeaf r.1 = true → ∀ q ∈ r.2, ∃ c,
          st.counter ≤ c ∧ c < (splitLoopF fuel st ds roots).1.counter ∧
          (q.1, (NId.splitter c, q.2)) ∈ dall) ∧
        (∀ k, (∃ p ∈ dall, p.1 = k) → ∃ r ∈ roots, isLeaf r.1 = true ∧
          k ∈ r.2.map (fun q => q.1)) ∧
        ((dall.map (fun p => p.1)).Nodup) ∧
        (∀ e ∈ es, ∃ c, e.src = NId.splitter c ∧ st.counter ≤ c ∧
          c < (splitLoopF fuel st ds roots).1.counter) ∧
        (∀ e ∈ es, (e.dst ∈ roots.map (fun r => r.1) ∧
            isLeaf e.dst = false) ∨
          ∃ c, e.dst = NId.splitter c ∧ st.counter ≤ c ∧
            c + 1 < (splitLoopF fuel st ds roots).1.counter) ∧
        (∀ r ∈ roots, isLeaf r.1 = false → dstCount es r.1 = 1) ∧
        (∀ c, st.counter ≤ c →
          c + 1 < (splitLoopF fuel st ds roots).1.counter →
          dstCount es (NId.splitter c) = 1) ∧
        dstCount es
          (NId.splitter ((splitLoopF fuel st ds roots).1.counter - 1)) = 0 ∧
        (∀ c, st.counter ≤ c → c < (splitLoopF fuel st ds roots).1.counter →
          srcCount es (NId.splitter c)
            + dsValCount dall (NId.splitter c) ≤ 3) := by
  intro fuel
  induction fuel with
  | zero =>
    intro st ds roots hfuel hlen _ _ _ _ _
    omega
  | succ fuel ih =>
    intro st ds roots hfuel hlen hroots hnodup hdsv hfk hfl
    match roots with
    | [] => simp at hlen
    | [r1] => simp at hlen
    | [r1, r2] =>
      simp only [splitLoopF, splitLoopF_single]
      obtain ⟨hpc, hpn, _⟩ := processGroup_state (NId.splitter st.counter)
        [r1, r2]
        (addNode { st with counter := st.counter + 1 }
          (NId.splitter st.counter) "" "diamond" "lightyellow") ds []
      replace hpc : (processGroup (NId.splitter st.counter)
          (addNode { st with counter := st.counter + 1 }
            (NId.splitter st.counter) "" "diamond" "lightyellow") ds
          [r1, r2] []).1.counter = st.counter + 1 := hpc
      obtain ⟨E, dnew, a1, a2, a3, a4, a5, a6, a7, a8, a9, a10, a11, a12,
        a13, a14⟩ :=
        splitStep_spec st
          (addNode { st with counter := st.counter + 1 }
            (NId.splitter st.counter) "" "diamond" "lightyellow")
          ds [r1, r2] (by simp [addNode]) (by simp)
          hroots hnodup hfk hfl
      refine ⟨E, dnew, a1, ?_, a2, ?_, ?_, ?_, a7, a8, ?_, ?_, a11, ?_, ?_,
        ?_⟩
      · rw [hpc]; omega
      · refine ⟨(processGroup (NId.splitter st.counter)
          (addNode { st with counter := st.counter + 1 }
            (NId.splitter st.counter) "" "diamond" "lightyellow") ds
          [r1, r2] []).2.2, ?_, a3⟩
        rw [hpc]
        simp
      · intro p hp
        exact ⟨st.counter, le_refl _, by rw [hpc]; omega, a5 p hp⟩
      · intro r hr hrl q hq
        exact ⟨st.counter, le_refl _, by rw [hpc]; omega, a6 r hr hrl q hq⟩
      · intro e he
        exact ⟨st.counter, a9 e he, le_refl _, by rw [hpc]; omega⟩
      · intro e he
        exact Or.inl (a10 e he)
      · intro c h1 h2
        rw [hpc] at h2
        omega
      · have h1 : (processGroup (NId.splitter st.counter)
            (addNode { st with counter := st.counter + 1 }
              (NId.splitter st.counter) "" "diamond" "lightyellow") ds
            [r1, r2] []).1.counter - 1 = st.counter := by
          rw [hpc]
          omega
        rw [h1]
        exact a12 st.counter (le_refl _)
      · intro c h1 h2
        rw [hpc] at h2
        have hc : c = st.counter := by omega
        subst hc
        exact a13
    | r1 :: r2 :: r3 :: rest =>
      have hsplitids : ((r1 :: r2 :: r3 :: rest).map (fun r => r.1))
          = ([r1, r2, r3].map (fun r => r.1)) ++ rest.map (fun r => r.1) :=
        by simp
      have hsplitfl : ((r1 :: r2 :: r3 :: rest).map
            (fun r => r.2.map (fun q => q.1))).flatten
          = ([r1, r2, r3].map (fun r => r.2.map (fun q => q.1))).flatten
            ++ (rest.map (fun r => r.2.map (fun q => q.1))).flatten := by
        simp
      rw [hsplitids, List.nodup_append] at hnodup
      obtain ⟨hnodup3, hnodupR, hdisjid⟩ := hnodup
      rw [hsplitfl, List.nodup_append] at hfl
      obtain ⟨hfl3, hflR, hdisjfl⟩ := hfl
      have hgrp3 : ∀ r ∈ [r1, r2, r3], (∃ d f, r = (NId.leaf d, [(d, f)])) ∨
          ∃ c ds2, c < st.counter ∧ r = (NId.splitter c, ds2) := by
        intro r hr
        apply hroots r
        simp only [List.mem_cons, List.not_mem_nil, or_false] at hr ⊢
        tauto
      have hfk3 : ∀ r ∈ [r1, r2, r3], isLeaf r.1 = true → ∀ q ∈ r.2,
          ∀ p ∈ ds, p.1 ≠ q.1 := by
        intro r hr
        apply hfk r
        simp only [List.mem_cons, List.not_mem_nil, or_false] at hr ⊢
        tauto
      simp only [splitLoopF]
      obtain ⟨hpc, hpn, _⟩ := processGroup_state (NId.splitter st.counter)
        [r1, r2, r3]
        (addNode { st with counter := st.counter + 1 }
          (NId.splitter st.counter) "" "diamond" "lightyellow") ds []
      replace hpc : (processGroup (NId.splitter st.counter)
          (addNode { st with counter := st.counter + 1 }
            (NId.splitter st.counter) "" "diamond" "lightyellow") ds
          [r1, r2, r3] []).1.counter = st.counter + 1 := hpc
      obtain ⟨E, dnew, a1, a2, a3, a4, a5, a6, a7, a8, a9, a10, a11, a12,
        a13, a14⟩ :=
        splitStep_spec st
          (addNode { st with counter := st.counter + 1 }
            (NId.splitter st.counter) "" "diamond" "lightyellow")
          ds [r1, r2, r3] (by simp [addNode]) (by simp)
          hgrp3 hnodup3 hfk3 hfl3
      by_cases hrest : rest = []
      · subst hrest
        simp only [List.nil_append, splitLoopF_single]
        refine ⟨E, dnew, a1, ?_, a2, ?_, ?_, ?_, ?_, a8, ?_, ?_, ?_, ?_, ?_,
          ?_⟩
        · rw [hpc]; omega
        · refine ⟨(processGroup (NId.splitter st.counter)
            (addNode { st with counter := st.counter + 1 }
              (NId.splitter st.counter) "" "diamond" "lightyellow") ds
            [r1, r2, r3] []).2.2, ?_, ?_⟩
          · rw [hpc]
            simp
          · rw [a3]
        · intro p hp
          exact ⟨st.counter, le_refl _, by rw [hpc]; omega, a5 p hp⟩
        · intro r hr hrl q hq
          refine ⟨st.counter, le_refl _, by rw [hpc]; omega, ?_⟩
          apply a6 r ?_ hrl q hq
          simpa using hr
        · intro k hk
          obtain ⟨r, hr, h1, h2⟩ := a7 k hk
          exact ⟨r, by simpa using hr, h1, h2⟩
        · intro e he
          exact ⟨st.counter, a9 e he, le_refl _, by rw [hpc]; omega⟩
        · intro e he
          refine Or.inl ⟨?_, (a10 e he).2⟩
          have := (a10 e he).1
          simpa using this
        · intro r hr hrl
          apply a11 r ?_ hrl
          simpa using hr
        · intro c h1 h2
          rw [hpc] at h2
          omega
        · have h1 : (processGroup (NId.splitter st.counter)
              (addNode { st with counter := st.counter + 1 }
                (NId.splitter st.counter) "" "diamond" "lightyellow") ds
              [r1, r2, r3] []).1.counter - 1 = st.counter := by
            rw [hpc]
            omega
          rw [h1]
          exact a12 st.counter (le_refl _)
        · intro c h1 h2
          rw [hpc] at h2
          have hc : c = st.counter := by omega
          subst hc
          exact a13
      · -- recursive case
        have hfuel2 : (rest ++ [(NId.splitter st.counter,
            (processGroup (NId.splitter st.counter)
              (addNode { st with counter := st.counter + 1 }
                (NId.splitter st.counter) "" "diamond" "lightyellow") ds
              [r1, r2, r3] []).2.2)]).length ≤ fuel := by
          simp only [List.length_cons] at hfuel
          simp only [List.length_append, List.length_cons, List.length_nil]
          omega
        have hlen2 : 2 ≤ (rest ++ [(NId.splitter st.counter,
            (processGroup (NId.splitter st.counter)
              (addNode { st with counter := st.counter + 1 }
                (NId.splitter st.counter) "" "diamond" "lightyellow") ds
              [r1, r2, r3] []).2.2)]).length := by
          cases rest with
          | nil => exact absurd rfl hrest
          | cons a b => simp
        set pg := processGroup (NId.splitter st.counter)
          (addNode { st with counter := st.counter + 1 }
            (NId.splitter st.counter) "" "diamond" "lightyellow") ds
          [r1, r2, r3] [] with hpgdef
        have hroots2 : ∀ r ∈ rest ++ [(NId.splitter st.counter, pg.2.2)],
            (∃ d f, r = (NId.leaf d, [(d, f)])) ∨
            ∃ c ds2, c < pg.1.counter ∧ r = (NId.splitter c, ds2) := by
          intro r hr
          rcases List.mem_append.mp hr with hr1 | hr2
          · rcases hroots r (by simp [hr1]) with h | ⟨c, ds2, hc, heq⟩
            · exact Or.inl h
            · exact Or.inr ⟨c, ds2, by rw [hpc]; omega, heq⟩
          · have hx : r = (NId.splitter st.counter, pg.2.2) := by
              simpa using hr2
            exact Or.inr ⟨st.counter, pg.2.2, by rw [hpc]; omega, hx⟩
        have hids2 : ((rest ++ [(NId.splitter st.counter, pg.2.2)]).map
            (fun r => r.1)).Nodup := by
          rw [List.map_append, List.nodup_append]
          refine ⟨hnodupR, by simp, ?_⟩
          intro a ha hax
          simp only [List.map_cons, List.map_nil, List.mem_singleton] at hax
          obtain ⟨r, hr, hra⟩ := List.mem_map.mp ha
          rcases hroots r (by simp [hr]) with ⟨d, f, hre⟩ | ⟨c, ds2, hc, hre⟩
          · subst hre
            rw [hax] at hra
            simp at hra
          · subst hre
            rw [hax] at hra
            simp only at hra
            have : c = st.counter := by
              exact NId.splitter.inj hra
            omega
        have hdsv2 : ∀ p ∈ pg.2.1, ∃ c, c < pg.1.counter ∧
            p.2.1 = NId.splitter c := by
          rw [a2]
          intro p hp
          rcases List.mem_append.mp hp with hp1 | hp2
          · obtain ⟨c, hc, hv⟩ := hdsv p hp1
            exact ⟨c, by rw [hpc]; omega, hv⟩
          · exact ⟨st.counter, by rw [hpc]; omega, a5 p hp2⟩
        have hfk2 : ∀ r ∈ rest ++ [(NId.splitter st.counter, pg.2.2)],
            isLeaf r.1 = true → ∀ q ∈ r.2, ∀ p ∈ pg.2.1, p.1 ≠ q.1 := by
          intro r hr hrl q hq p hp
          rcases List.mem_append.mp hr with hr1 | hr2
          · rw [a2] at hp
            rcases List.mem_append.mp hp with hp1 | hp2
            · exact hfk r (by simp [hr1]) hrl q hq p hp1
            · obtain ⟨r2x, hr2x, hl2x, hk2x⟩ := a7 p.1 ⟨p, hp2, rfl⟩
              intro hpq
              have hpm : p.1 ∈ ([r1, r2, r3].map
                  (fun r => r.2.map (fun q => q.1))).flatten :=
                List.mem_flatten.mpr ⟨r2x.2.map (fun q => q.1),
                  List.mem_map_of_mem _ hr2x, hk2x⟩
              have hqm : p.1 ∈ (rest.map
                  (fun r => r.2.map (fun q => q.1))).flatten := by
                refine List.mem_flatten.mpr ⟨r.2.map (fun q => q.1),
                  List.mem_map_of_mem _ hr1, ?_⟩
                rw [hpq]
                exact List.mem_map_of_mem _ hq
              exact hdisjfl hpm hqm
          · have hx : r = (NId.splitter st.counter, pg.2.2) := by
              simpa using hr2
            rw [hx] at hrl
            simp [isLeaf] at hrl
        have hfl2 : (((rest ++ [(NId.splitter st.counter, pg.2.2)]).map
            (fun r => r.2.map (fun q => q.1))).flatten).Nodup := by
          have hcomb : (([r1, r2, r3].map
              (fun r => r.2.map (fun q => q.1))).flatten
              ++ (rest.map (fun r => r.2.map (fun q => q.1))).flatten).Nodup
              := List.nodup_append.mpr ⟨hfl3, hflR, hdisjfl⟩
          have hx : ((rest ++ [(NId.splitter st.counter, pg.2.2)]).map
              (fun r => r.2.map (fun q => q.1))).flatten
              = (rest.map (fun r => r.2.map (fun q => q.1))).flatten
                ++ pg.2.2.map (fun q => q.1) := by
            simp
          rw [hx, a4]
          exact (List.perm_append_comm.nodup_iff).mp hcomb
        obtain ⟨es2, dall2, k1, k2, k3, k4, k5, k6, k7, k8, k9, k10, k11,
          k12, k13, k14⟩ :=
          ih pg.1 pg.2.1 (rest ++ [(NId.splitter st.counter, pg.2.2)])
            hfuel2 hlen2 hroots2 hids2 hdsv2 hfk2 hfl2
        have hcr : st.counter + 1 < (splitLoopF fuel pg.1 pg.2.1
            (rest ++ [(NId.splitter st.counter, pg.2.2)])).1.counter := by
          rw [← hpc]
          exact k2
        refine ⟨E ++ es2, dnew ++ dall2, ?_, ?_, ?_, ?_, ?_, ?_, ?_, ?_, ?_,
          ?_, ?_, ?_, ?_, ?_⟩
        · rw [k1, a1, List.append_assoc]
        · omega
        · rw [k3, a2, List.append_assoc]
        · obtain ⟨md, hmd1, hmd2⟩ := k4
          refine ⟨md, hmd1, ?_⟩
          rw [hmd2]
          simp only [List.map_append, List.sum_append, List.map_cons,
            List.sum_cons, List.map_nil, List.sum_nil, a3]
          omega
        · intro p hp
          rcases List.mem_append.mp hp with hp1 | hp2
          · exact ⟨st.counter, le_refl _, by omega, a5 p hp1⟩
          · obtain ⟨c, hc1, hc2, hc3⟩ := k5 p hp2
            exact ⟨c, by rw [hpc] at hc1; omega, hc2, hc3⟩
        · intro r hr hrl q hq
          by_cases hrg : r ∈ [r1, r2, r3]
          · exact ⟨st.counter, le_refl _, by omega,
              List.mem_append_left _ (a6 r hrg hrl q hq)⟩
          · have hrr : r ∈ rest := by
              simp only [List.mem_cons, List.not_mem_nil, or_false]
                at hr hrg
              tauto
            obtain ⟨c, hc1, hc2, hc3⟩ :=
              k6 r (List.mem_append_left _ hrr) hrl q hq
            exact ⟨c, by rw [hpc] at hc1; omega, hc2,
              List.mem_append_right _ hc3⟩
        · intro k hk
          obtain ⟨p, hp, hpk⟩ := hk
          rcases List.mem_append.mp hp with hp1 | hp2
          · obtain ⟨r, hr, hl, hkm⟩ := a7 k ⟨p, hp1, hpk⟩
            refine ⟨r, ?_, hl, hkm⟩
            simp only [List.mem_cons, List.not_mem_nil, or_false] at hr ⊢
            tauto
          · obtain ⟨r, hr, hl, hkm⟩ := k7 k ⟨p, hp2, hpk⟩
            rcases List.mem_append.mp hr with hr1 | hr2
            · exact ⟨r, by simp [hr1], hl, hkm⟩
            · have hx : r = (NId.splitter st.counter, pg.2.2) := by
                simpa using hr2
              rw [hx] at hl
              simp [isLeaf] at hl
        · rw [List.map_append, List.nodup_append]
          refine ⟨a8, k8, ?_⟩
          intro a ha1 ha2
          obtain ⟨p, hp, hpa⟩ := List.mem_map.mp ha1
          obtain ⟨q, hq, hqa⟩ := List.mem_map.mp ha2
          obtain ⟨r, hrg, hl, hkm⟩ := a7 a ⟨p, hp, hpa⟩
          obtain ⟨r2x, hr2g, hl2, hkm2⟩ := k7 a ⟨q, hq, hqa⟩
          have hr2r : r2x ∈ rest := by
            rcases List.mem_append.mp hr2g with h | h
            · exact h
            · have hx : r2x = (NId.splitter st.counter, pg.2.2) := by
                simpa using h
              rw [hx] at hl2
              simp [isLeaf] at hl2
          have hpm : a ∈ ([r1, r2, r3].map
              (fun r => r.2.map (fun q => q.1))).flatten :=
            List.mem_flatten.mpr ⟨r.2.map (fun q => q.1),
              List.mem_map_of_mem _ hrg, hkm⟩
          have hqm : a ∈ (rest.map
              (fun r => r.2.map (fun q => q.1))).flatten :=
            List.mem_flatten.mpr ⟨r2x.2.map (fun q => q.1),
              List.mem_map_of_mem _ hr2r, hkm2⟩
          exact hdisjfl hpm hqm
        · intro e he
          rcases List.mem_append.mp he with he1 | he2
          · exact ⟨st.counter, a9 e he1, le_refl _, by omega⟩
          · obtain ⟨c, h1, h2, h3⟩ := k9 e he2
            exact ⟨c, h1, by rw [hpc] at h2; omega, h3⟩
        · intro e he
          rcases List.mem_append.mp he with he1 | he2
          · obtain ⟨hd1, hd2⟩ := a10 e he1
            refine Or.inl ⟨?_, hd2⟩
            simp only [List.map_cons, List.map_nil, List.mem_cons,
              List.not_mem_nil, or_false] at hd1 ⊢
            tauto
          · rcases k10 e he2 with ⟨hd1, hd2⟩ | ⟨c, h1, h2, h3⟩
            · rw [List.map_append] at hd1
              rcases List.mem_append.mp hd1 with hd1a | hd1b
              · refine Or.inl ⟨?_, hd2⟩
                simp only [List.map_cons, List.mem_cons]
                obtain ⟨r, hrr, hre⟩ := List.mem_map.mp hd1a
                exact Or.inr (Or.inr (Or.inr (by
                  rw [← hre]
                  exact List.mem_map_of_mem _ hrr)))
              · have hx : e.dst = NId.splitter st.counter := by
                  simpa using hd1b
                exact Or.inr ⟨st.counter, hx, le_refl _, hcr⟩
            · exact Or.inr ⟨c, h1, by rw [hpc] at h2; omega, h3⟩
        · intro r hr hrl
          rw [dstCount_append]
          by_cases hrg : r ∈ [r1, r2, r3]
          · have h1 : dstCount E r.1 = 1 := a11 r hrg hrl
            have h2 : dstCount es2 r.1 = 0 := by
              apply dstCount_eq_zero
              intro e he hedst
              rcases k10 e he with ⟨hd1, _⟩ | ⟨c, h1', h2', _⟩
              · rw [List.map_append, hedst] at hd1
                rcases List.mem_append.mp hd1 with hd1a | hd1b
                · have hrm : r.1 ∈ [r1, r2, r3].map (fun r => r.1) :=
                    List.mem_map_of_mem _ hrg
                  exact hdisjid hrm hd1a
                · have hx : r.1 = NId.splitter st.counter := by
                    simpa using hd1b
                  rcases hroots r (by simp only [List.mem_cons, List.not_mem_nil, or_false] at hrg ⊢; tauto) with ⟨d, f, hre⟩
                    | ⟨c0, ds2, hc0, hre⟩
                  · rw [hre] at hrl
                    simp [isLeaf] at hrl
                  · rw [hre] at hx
                    simp only at hx
                    have : c0 = st.counter := NId.splitter.inj hx
                    omega
              · rcases hroots r (by simp only [List.mem_cons, List.not_mem_nil, or_false] at hrg ⊢; tauto) with ⟨d, f, hre⟩
                  | ⟨c0, ds2, hc0, hre⟩
                · rw [hre] at hrl
                  simp [isLeaf] at hrl
                · rw [hre] at hedst
                  simp only at hedst
                  rw [h1'] at hedst
                  have : c = c0 := NId.splitter.inj hedst
                  rw [hpc] at h2'
                  omega
            omega
          · have hrr : r ∈ rest := by
              simp only [List.mem_cons, List.not_mem_nil, or_false]
                at hr hrg
              tauto
            have h1 : dstCount E r.1 = 0 := by
              apply dstCount_eq_zero
              intro e he hedst
              have hd1 := (a10 e he).1
              rw [hedst] at hd1
              have hrm : r.1 ∈ rest.map (fun r => r.1) :=
                List.mem_map_of_mem _ hrr
              exact hdisjid hd1 hrm
            have h2 : dstCount es2 r.1 = 1 :=
              k11 r (List.mem_append_left _ hrr) hrl
            omega
        · intro c h1 h2
          rw [dstCount_append]
          by_cases hc : c = st.counter
          · subst hc
            have h3 : dstCount E (NId.splitter st.counter) = 0 :=
              a12 st.counter (le_refl _)
            have h4 : dstCount es2 (NId.splitter st.counter) = 1 := by
              have := k11 (NId.splitter st.counter, pg.2.2)
                (List.mem_append_right _ (List.mem_singleton_self _))
                (by simp [isLeaf])
              simpa using this
            omega
          · have h3 : dstCount E (NId.splitter c) = 0 := a12 c (by omega)
            have h4 : dstCount es2 (NId.splitter c) = 1 :=
              k12 c (by rw [hpc]; omega) h2
            omega
        · rw [dstCount_append]
          have h3 : dstCount E (NId.splitter
              ((splitLoopF fuel pg.1 pg.2.1 (rest ++
                [(NId.splitter st.counter, pg.2.2)])).1.counter - 1)) = 0 :=
            a12 _ (by omega)
          have h4 := k13
          omega
        · intro c h1 h2
          rw [srcCount_append, dsValCount_append]
          by_cases hc : c = st.counter
          · subst hc
            have h3 := a13
            have h4 : srcCount es2 (NId.splitter st.counter) = 0 := by
              apply srcCount_eq_zero
              intro e he heq
              obtain ⟨c2, hc2a, hc2b, _⟩ := k9 e he
              rw [heq] at hc2a
              have : st.counter = c2 := NId.splitter.inj hc2a
              rw [hpc] at hc2b
              omega
            have h5 : dsValCount dall2 (NId.splitter st.counter) = 0 := by
              apply dsValCount_eq_zero
              intro p hp heq
              obtain ⟨c2, hc2a, _, hc2c⟩ := k5 p hp
              rw [heq] at hc2c
              have : c2 = st.counter := NId.splitter.inj hc2c.symm
              rw [hpc] at hc2a
              omega
            omega
          · have h3 : srcCount E (NId.splitter c) = 0 := (a14 c hc).1
            have h4 : dsValCount dnew (NId.splitter c) = 0 := (a14 c hc).2
            have h5 := k14 c (by rw [hpc]; omega) h2
            omega

end Balancer

namespace Balancer

/-- The input indices recorded by one output's loop are consecutive. -/
theorem processOutput_ids (j : Nat) :
    ∀ (flows : List Nat) (k r : Nat),
      ∃ c, (processOutput j (List.enumFrom k flows) r).1.map (fun e => e.1)
        = List.range' k c := by
  intro flows
  induction flows with
  | nil =>
    intro k r
    exact ⟨0, by simp [List.enumFrom, processOutput_nil]⟩
  | cons f ft ih =>
    intro k r
    by_cases hr : r = 0
    · subst hr
      exact ⟨0, by simp [processOutput_zero_r]⟩
    · simp only [List.enumFrom]
      rw [processOutput_cons j k f r (List.enumFrom (k + 1) ft) hr]
      by_cases hf : f ≤ r
      · obtain ⟨c, hc⟩ := ih (k + 1) (r - f)
        refine ⟨c + 1, ?_⟩
        simp only [hf, if_true, List.map_cons, hc, List.range'_succ]
      · refine ⟨1, ?_⟩
        simp [hf]

end Balancer

namespace Balancer

/-- A list with at most one element never repeats. -/
theorem nodup_of_length_le_one {A : Type} (l : List A) (h : l.length <= 1) :
    l.Nodup := by
  match l with
  | [] => simp
  | [a] => simp
  | a :: b :: tl => simp at h

/-- In a list of triples, the records naming input `i` are counted by the
occurrences of `i` among the first components. -/
theorem filter_fst_len (i : Nat) :
    ∀ l : List (Nat × Nat × Nat),
      (l.filter (fun e => e.1 = i)).length = (l.map (fun e => e.1)).count i := by
  intro l
  induction l with
  | nil => rfl
  | cons e t ih =>
    by_cases h : e.1 = i
    · simp [List.filter_cons, List.count_cons, h, ih]
    · simp [List.filter_cons, List.count_cons, h, ih]

/-- Membership in a matrix row is membership of the matrix. -/
theorem mem_matrixRow_iff (m : List (Nat × Nat × Nat)) (i j f : Nat) :
    (j, f) ∈ matrixRow m i ↔ (i, j, f) ∈ m := by
  simp only [matrixRow, List.mem_map, List.mem_filter,
    decide_eq_true_eq]
  constructor
  · rintro ⟨e, ⟨he, h1⟩, h2⟩
    obtain ⟨a, b, c⟩ := e
    simp only at h1 h2
    subst h1
    injection h2 with h3 h4
    subst h3
    subst h4
    exact he
  · intro h
    exact ⟨(i, j, f), ⟨h, rfl⟩, rfl⟩

/-- The flows of a matrix row sum to the row amount. -/
theorem matrixRow_flowSum (m : List (Nat × Nat × Nat)) (i : Nat) :
    ((matrixRow m i).map (fun q => q.2)).sum = rowAmt m i := by
  simp [matrixRow, rowAmt, List.map_map]
  rfl

/-- The output indices recorded for one input are pairwise distinct. -/
theorem af_row_keys_nodup :
    ∀ (outs flows : List Nat) (k j0 i : Nat),
      ((matrixRow (assignFlows outs (List.enumFrom k flows) j0) i).map
        (fun q => q.1)).Nodup := by
  intro outs
  induction outs with
  | nil =>
    intro flows k j0 i
    simp [assignFlows, matrixRow]
  | cons o outs ih =>
    intro flows k j0 i
    obtain ⟨c, k2, flows2, hseg, hfull, hq, hk1, hk2, hk3⟩ :=
      processOutput_shape j0 flows k o
    obtain ⟨c2, hids⟩ := processOutput_ids j0 flows k o
    have hsplit : (matrixRow (assignFlows (o :: outs)
          (List.enumFrom k flows) j0) i).map (fun q => q.1)
        = (matrixRow (processOutput j0 (List.enumFrom k flows) o).1 i).map
            (fun q => q.1)
          ++ (matrixRow (assignFlows outs
              (processOutput j0 (List.enumFrom k flows) o).2 (j0 + 1)) i).map
            (fun q => q.1) := by
      simp [assignFlows, matrixRow, List.filter_append]
    rw [hsplit, List.nodup_append]
    refine ⟨?_, ?_, ?_⟩
    · apply nodup_of_length_le_one
      have hlen : ((matrixRow (processOutput j0 (List.enumFrom k flows) o).1
          i).map (fun q => q.1)).length
          = ((processOutput j0 (List.enumFrom k flows) o).1.filter
            (fun e => e.1 = i)).length := by
        simp [matrixRow]
      rw [hlen, filter_fst_len i, hids]
      exact List.nodup_iff_count_le_one.mp (List.nodup_range' k c2) i
    · rw [hq]
      exact ih flows2 k2 (j0 + 1) i
    · intro a ha hb
      obtain ⟨q1, hq1, hqa⟩ := List.mem_map.mp ha
      obtain ⟨q2, hq2, hqb⟩ := List.mem_map.mp hb
      obtain ⟨a1, b1⟩ := q1
      obtain ⟨a2, b2⟩ := q2
      simp only at hqa hqb
      have hm1 := (mem_matrixRow_iff _ i a1 b1).mp hq1
      have hm2 := (mem_matrixRow_iff _ i a2 b2).mp hq2
      have h1 : a1 = j0 := processOutput_out_eq j0 _ o _ hm1
      have h2 : j0 + 1 ≤ a2 := by
        have := af_out_ge outs _ (j0 + 1) _ hm2
        simpa using this
      omega

/-- `dedupFirst` produces elements of the scanned list. -/
theorem dedupFirst_sub :
    ∀ (l seen : List Nat), ∀ x ∈ dedupFirst l seen, x ∈ l := by
  intro l
  induction l with
  | nil => intro seen x hx; simp [dedupFirst] at hx
  | cons y ys ih =>
    intro seen x hx
    simp only [dedupFirst] at hx
    by_cases hy : y ∈ seen
    · simp only [hy, if_true] at hx
      exact List.mem_cons_of_mem _ (ih seen x hx)
    · simp only [hy, if_false] at hx
      rcases List.mem_cons.mp hx with rfl | hx2
      · simp
      · exact List.mem_cons_of_mem _ (ih (y :: seen) x hx2)

/-- `dedupFirst` never repeats and never yields a seen element. -/
theorem dedupFirst_nodup :
    ∀ (l seen : List Nat), (dedupFirst l seen).Nodup ∧
      ∀ x ∈ dedupFirst l seen, x ∉ seen := by
  intro l
  induction l with
  | nil => intro seen; simp [dedupFirst]
  | cons y ys ih =>
    intro seen
    simp only [dedupFirst]
    by_cases hy : y ∈ seen
    · simp only [hy, if_true]
      exact ih seen
    · simp only [hy, if_false]
      obtain ⟨h1, h2⟩ := ih (y :: seen)
      refine ⟨List.nodup_cons.mpr ⟨?_, h1⟩, ?_⟩
      · intro hmem
        exact h2 y hmem (by simp)
      · intro x hx
        rcases List.mem_cons.mp hx with rfl | hx2
        · exact hy
        · intro hseen
          exact h2 x hx2 (List.mem_cons_of_mem _ hseen)

/-- Every unseen scanned element appears in `dedupFirst`. -/
theorem dedupFirst_complete :
    ∀ (l seen : List Nat), ∀ x ∈ l, x ∉ seen → x ∈ dedupFirst l seen := by
  intro l
  induction l with
  | nil => intro seen x hx; simp at hx
  | cons y ys ih =>
    intro seen x hx hseen
    simp only [dedupFirst]
    by_cases hy : y ∈ seen
    · rcases List.mem_cons.mp hx with rfl | hx2
      · exact absurd hy hseen
      · simp only [hy, if_true]
        exact ih seen x hx2 hseen
    · simp only [hy, if_false]
      by_cases hxy : x = y
      · subst hxy; simp
      · rcases List.mem_cons.mp hx with rfl | hx2
        · simp
        · refine List.mem_cons_of_mem _ (ih (y :: seen) x hx2 ?_)
          simp only [List.mem_cons, not_or]
          exact ⟨hxy, hseen⟩

end Balancer

namespace Balancer

/-- Sums distribute over pointwise addition. -/
theorem map_add_sum {A : Type} (f g : A → Nat) :
    ∀ l : List A, (l.map (fun x => f x + g x)).sum
      = (l.map f).sum + (l.map g).sum := by
  intro l
  induction l with
  | nil => simp
  | cons a t ih =>
    simp only [List.map_cons, List.sum_cons, ih]
    omega

/-- A length is a sum of ones. -/
theorem len_eq_sum_ones {A : Type} :
    ∀ l : List A, l.length = (l.map (fun _ => 1)).sum := by
  intro l
  induction l with
  | nil => rfl
  | cons a t ih =>
    simp only [List.length_cons, List.map_cons, List.sum_cons, ih]
    omega

/-- Summing an indicator over a duplicate-free list that contains the
marked element yields the marked value. -/
theorem sum_indicator_of_nodup (a x : Nat) :
    ∀ keys : List Nat, keys.Nodup → a ∈ keys →
      (keys.map (fun i => if i = a then x else 0)).sum = x := by
  intro keys
  induction keys with
  | nil => intro _ ha; simp at ha
  | cons b t ih =>
    intro hn ha
    rw [List.nodup_cons] at hn
    rcases List.mem_cons.mp ha with rfl | ha2
    · simp only [List.map_cons, List.sum_cons, if_pos rfl]
      have h0 : (t.map (fun i => if i = a then x else 0)).sum = 0 := by
        apply List.sum_eq_zero
        intro y hy
        obtain ⟨i, hi, hiy⟩ := List.mem_map.mp hy
        rw [if_neg (by rintro rfl; exact hn.1 hi)] at hiy
        exact hiy.symm
      rw [h0]
      simp
    · have hba : b ≠ a := by rintro rfl; exact hn.1 ha2
      simp only [List.map_cons, List.sum_cons, if_neg hba]
      rw [ih hn.2 ha2]
      omega

/-- Summing an indicator over a duplicate-free list that misses the marked
element yields zero. -/
theorem sum_indicator_of_not_mem (a x : Nat) (keys : List Nat)
    (ha : a ∉ keys) :
    (keys.map (fun i => if i = a then x else 0)).sum = 0 := by
  apply List.sum_eq_zero
  intro y hy
  obtain ⟨i, hi, hiy⟩ := List.mem_map.mp hy
  rw [if_neg (by rintro rfl; exact ha hi)] at hiy
  exact hiy.symm

/-- Splitting a weighted, filtered sum by the keys of the entries:
partitioning a triple list by its key and summing the per-key parts gives
the whole. -/
theorem sum_key_weight (w : Nat × NId × Nat → Nat)
    (P : Nat × NId × Nat → Bool) :
    ∀ (l : List (Nat × NId × Nat)) (js : List Nat), js.Nodup →
      (∀ p ∈ l, p.1 ∈ js) →
      (js.map (fun j =>
        (((l.filter (fun p => p.1 = j)).filter P).map w).sum)).sum
      = ((l.filter P).map w).sum := by
  intro l
  induction l with
  | nil =>
    intro js _ _
    simp
  | cons p l ih =>
    intro js hn hcov
    have hcov2 : ∀ q ∈ l, q.1 ∈ js :=
      fun q hq => hcov q (List.mem_cons_of_mem _ hq)
    have hstep : ∀ j, (((( p :: l).filter
          (fun q => q.1 = j)).filter P).map w).sum
        = (if j = p.1 then (if P p then w p else 0) else 0)
          + (((l.filter (fun q => q.1 = j)).filter P).map w).sum := by
      intro j
      by_cases hj : p.1 = j
      · rw [if_pos hj.symm]
        by_cases hP : P p
        · simp [List.filter_cons, hj, hP]
        · simp [List.filter_cons, hj, hP]
      · rw [if_neg (fun h => hj h.symm)]
        simp [List.filter_cons, hj]
    have hmap : js.map (fun j => ((((p :: l).filter
          (fun q => q.1 = j)).filter P).map w).sum)
        = js.map (fun j => (if j = p.1 then (if P p then w p else 0) else 0)
          + (((l.filter (fun q => q.1 = j)).filter P).map w).sum) := by
      apply List.map_congr_left
      intro j _
      exact hstep j
    rw [hmap, map_add_sum, ih js hn hcov2,
      sum_indicator_of_nodup p.1 _ js hn (hcov p (by simp))]
    by_cases hP : P p
    · simp [List.filter_cons, hP]
    · simp [List.filter_cons, hP]

/-- `dlookup` on distinct keys retrieves a member's value. -/
theorem dlookup_of_mem {α : Type} (d : List (Nat × α)) (dflt : α)
    (hn : (d.map (fun p => p.1)).Nodup) (k : Nat) (v : α)
    (hx : (k, v) ∈ d) : dlookup d k dflt = v := by
  have h := find_of_mem_nodupkeys d hn (k, v) hx
  simp only [dlookup, h]

/-- In a keyed list with distinct keys, filtering for a member's key
isolates exactly that member. -/
theorem filter_key_of_mem_nodup {α : Type} :
    ∀ (l : List (Nat × α)), (l.map (fun p => p.1)).Nodup →
      ∀ (j : Nat) (v : α), (j, v) ∈ l →
      l.filter (fun p => p.1 = j) = [(j, v)] := by
  intro l
  induction l with
  | nil => intro _ j v hx; simp at hx
  | cons q t ih =>
    intro hn j v hx
    rw [List.map_cons, List.nodup_cons] at hn
    rcases List.mem_cons.mp hx with rfl | hx2
    · rw [List.filter_cons_of_pos (by simp)]
      rw [List.filter_eq_nil_iff.mpr]
      · intro p hp
        simp only [decide_eq_true_eq]
        intro hpj
        exact hn.1 (hpj ▸ List.mem_map.mpr ⟨p, hp, rfl⟩)
    · have hq : q.1 ≠ j := by
        intro h
        exact hn.1 (h ▸ List.mem_map.mpr ⟨(j, v), hx2, rfl⟩)
      rw [List.filter_cons_of_neg (by simpa using hq)]
      exact ih hn.2 j v hx2

/-- Filtering a keyed list for an absent key yields nothing. -/
theorem filter_key_of_not_mem {α : Type} (l : List (Nat × α)) (j : Nat)
    (h : ∀ p ∈ l, p.1 ≠ j) : l.filter (fun p => p.1 = j) = [] := by
  rw [List.filter_eq_nil_iff]
  intro p hp
  simpa using h p hp

end Balancer

namespace Balancer

/-- `rowColAmt` read off the matrix row. -/
theorem rowColAmt_via_row (i j : Nat) :
    ∀ m : List (Nat × Nat × Nat),
      rowColAmt m i j
        = (((matrixRow m i).filter (fun q => q.1 = j)).map
            (fun q => q.2)).sum := by
  intro m
  induction m with
  | nil => rfl
  | cons e t ih =>
    have hrow : matrixRow (e :: t) i
        = if e.1 = i then e.2 :: matrixRow t i else matrixRow t i := by
      by_cases h : e.1 = i
      · simp [matrixRow, List.filter_cons, h]
      · simp [matrixRow, List.filter_cons, h]
    have hrc : rowColAmt (e :: t) i j
        = (if e.1 = i ∧ e.2.1 = j then e.2.2 else 0) + rowColAmt t i j := by
      by_cases h : e.1 = i ∧ e.2.1 = j
      · simp [rowColAmt, List.filter_cons, h]
      · simp [rowColAmt, List.filter_cons, h]
    rw [hrc, hrow, ih]
    by_cases h1 : e.1 = i
    · rw [if_pos h1]
      by_cases h2 : e.2.1 = j
      · rw [if_pos ⟨h1, h2⟩, List.filter_cons_of_pos (by simpa using h2)]
        simp
      · rw [if_neg (fun h => h2 h.2),
          List.filter_cons_of_neg (by simpa using h2)]
        omega
    · rw [if_neg h1, if_neg (fun h => h1 h.1)]
      omega

/-- An unassigned pair contributes nothing. -/
theorem rowColAmt_of_unassigned (m : List (Nat × Nat × Nat)) (i j : Nat)
    (h : assigned m i j = false) : rowColAmt m i j = 0 := by
  have hnone : ¬ ∃ a, (i, j, a) ∈ m := by
    intro hex
    rw [← assigned_iff m i j] at hex
    rw [h] at hex
    exact Bool.false_ne_true hex
  have hfil : m.filter (fun e => e.1 = i ∧ e.2.1 = j) = [] := by
    rw [List.filter_eq_nil_iff]
    intro e he
    simp only [decide_eq_true_eq, not_and]
    intro h1 h2
    apply hnone
    refine ⟨e.2.2, ?_⟩
    have : e = (i, j, e.2.2) := by
      obtain ⟨a, b, c⟩ := e
      simp only at h1 h2
      rw [h1, h2]
    rw [← this]
    exact he
  rw [rowColAmt, hfil]
  rfl

/-- An assigned pair contributes exactly its recorded amount, provided
the input's recorded output keys are duplicate-free. -/
theorem rowColAmt_of_mem (m : List (Nat × Nat × Nat)) (i j f : Nat)
    (hn : ((matrixRow m i).map (fun q => q.1)).Nodup)
    (hm : (i, j, f) ∈ m) : rowColAmt m i j = f := by
  rw [rowColAmt_via_row,
    filter_key_of_mem_nodup (matrixRow m i) hn j f
      ((mem_matrixRow_iff m i j f).mpr hm)]
  simp

/-- The column amount is the sum of the per-row contributions over any
duplicate-free key list covering all recorded inputs. -/
theorem colAmt_eq_keys_sum :
    ∀ (m : List (Nat × Nat × Nat)) (keys : List Nat) (j : Nat),
      keys.Nodup → (∀ e ∈ m, e.1 ∈ keys) →
      (keys.map (fun i => rowColAmt m i j)).sum = colAmt m j := by
  intro m
  induction m with
  | nil =>
    intro keys j _ _
    have h1 : keys.map (fun i => rowColAmt [] i j) = keys.map (fun _ => 0) :=
      by simp [rowColAmt]
    rw [h1]
    have h2 : colAmt ([] : List (Nat × Nat × Nat)) j = 0 := rfl
    rw [h2]
    exact List.sum_eq_zero (by simp)
  | cons e m ih =>
    intro keys j hn hcov
    have hcov2 : ∀ x ∈ m, x.1 ∈ keys :=
      fun x hx => hcov x (List.mem_cons_of_mem _ hx)
    have hrc : ∀ i, rowColAmt (e :: m) i j
        = (if i = e.1 ∧ e.2.1 = j then e.2.2 else 0) + rowColAmt m i j := by
      intro i
      by_cases h : e.1 = i ∧ e.2.1 = j
      · rw [if_pos ⟨h.1.symm, h.2⟩]
        simp [rowColAmt, List.filter_cons, h]
      · rw [if_neg (fun hh => h ⟨hh.1.symm, hh.2⟩)]
        simp [rowColAmt, List.filter_cons, h]
    have hca : colAmt (e :: m) j
        = (if e.2.1 = j then e.2.2 else 0) + colAmt m j := by
      by_cases h : e.2.1 = j
      · simp [colAmt, List.filter_cons, h]
      · simp [colAmt, List.filter_cons, h]
    have hmap : keys.map (fun i => rowColAmt (e :: m) i j)
        = keys.map (fun i => (if i = e.1 ∧ e.2.1 = j then e.2.2 else 0)
          + rowColAmt m i j) := by
      apply List.map_congr_left
      intro i _
      exact hrc i
    rw [hmap, map_add_sum, ih keys j hn hcov2, hca]
    by_cases h2 : e.2.1 = j
    · have hind : keys.map (fun i =>
          if i = e.1 ∧ e.2.1 = j then e.2.2 else 0)
          = keys.map (fun i => if i = e.1 then e.2.2 else 0) := by
        apply List.map_congr_left
        intro i _
        by_cases h : i = e.1
        · rw [if_pos ⟨h, h2⟩, if_pos h]
        · rw [if_neg (fun hh => h hh.1), if_neg h]
      rw [hind, sum_indicator_of_nodup e.1 _ keys hn (hcov e (by simp)),
        if_pos h2]
    · have hind : keys.map (fun i =>
          if i = e.1 ∧ e.2.1 = j then e.2.2 else 0)
          = keys.map (fun _ => 0) := by
        apply List.map_congr_left
        intro i _
        rw [if_neg (fun hh => h2 hh.2)]
      rw [hind, if_neg h2]
      have h3 : (keys.map (fun _ => (0 : Nat))).sum = 0 :=
        List.sum_eq_zero (by simp)
      rw [h3]

end Balancer

namespace Balancer

/-- Flattening singletons is mapping. -/
theorem flatten_singletons {A B : Type} (f : A → B) :
    ∀ l : List A, (l.map (fun x => [f x])).flatten = l.map f := by
  intro l
  induction l with
  | nil => rfl
  | cons a t ih => simp [ih]

/-- No `dest_sources` entry feeds from `v`, no flow from `v`. -/
theorem dsValFlow_eq_zero (ds : List (Nat × NId × Nat)) (v : NId)
    (h : ∀ p ∈ ds, p.2.1 ≠ v) : dsValFlow ds v = 0 := by
  have hfil : ds.filter (fun p => p.2.1 = v) = [] := by
    rw [List.filter_eq_nil_iff]
    intro p hp
    simpa using h p hp
  rw [dsValFlow, hfil]
  rfl

/-- Flow from `v` over concatenated `dest_sources` lists. -/
theorem dsValFlow_append (a b : List (Nat × NId × Nat)) (v : NId) :
    dsValFlow (a ++ b) v = dsValFlow a v + dsValFlow b v := by
  simp [dsValFlow, List.filter_append]

/-- The split loop only creates splitter nodes, with counters in range. -/
theorem splitLoopF_nodes :
    ∀ (fuel : Nat) (st : BState) (ds : List (Nat × NId × Nat))
      (roots : List (NId × List (Nat × Nat))),
      ∃ ns, (splitLoopF fuel st ds roots).1.nodes = st.nodes ++ ns ∧
        st.counter ≤ (splitLoopF fuel st ds roots).1.counter ∧
        ∀ n ∈ ns, ∃ c, st.counter ≤ c ∧
          c < (splitLoopF fuel st ds roots).1.counter ∧
          n.id = NId.splitter c := by
  intro fuel
  induction fuel with
  | zero =>
    intro st ds roots
    exact ⟨[], by simp [splitLoopF], le_refl _, by simp⟩
  | succ fuel ih =>
    intro st ds roots
    match roots with
    | [] => exact ⟨[], by simp [splitLoopF], le_refl _, by simp⟩
    | [r1] => exact ⟨[], by simp [splitLoopF], le_refl _, by simp⟩
    | [r1, r2] =>
      simp only [splitLoopF]
      obtain ⟨hc, hn, -⟩ := processGroup_state (NId.splitter st.counter)
        [r1, r2]
        (addNode { st with counter := st.counter + 1 }
          (NId.splitter st.counter) "" "diamond" "lightyellow") ds []
      obtain ⟨ns2, g1, g2, g3⟩ := ih
        (processGroup (NId.splitter st.counter)
          (addNode { st with counter := st.counter + 1 }
            (NId.splitter st.counter) "" "diamond" "lightyellow") ds
          [r1, r2] []).1
        (processGroup (NId.splitter st.counter)
          (addNode { st with counter := st.counter + 1 }
            (NId.splitter st.counter) "" "diamond" "lightyellow") ds
          [r1, r2] []).2.1
        [(NId.splitter st.counter,
          (processGroup (NId.splitter st.counter)
            (addNode { st with counter := st.counter + 1 }
              (NId.splitter st.counter) "" "diamond" "lightyellow") ds
            [r1, r2] []).2.2)]
      replace hc : (processGroup (NId.splitter st.counter)
          (addNode { st with counter := st.counter + 1 }
            (NId.splitter st.counter) "" "diamond" "lightyellow") ds
          [r1, r2] []).1.counter = st.counter + 1 := hc
      rw [hc] at g2
      refine ⟨⟨NId.splitter st.counter, "", "diamond", "lightyellow"⟩ :: ns2,
        ?_, by omega, ?_⟩
      · rw [g1, hn]
        simp [addNode]
      · intro n hn2
        rcases List.mem_cons.mp hn2 with rfl | hn3
        · exact ⟨st.counter, le_refl _, by omega, rfl⟩
        · obtain ⟨c, hc1, hc2, hc3⟩ := g3 n hn3
          rw [hc] at hc1
          exact ⟨c, by omega, hc2, hc3⟩
    | r1 :: r2 :: r3 :: rest =>
      simp only [splitLoopF]
      obtain ⟨hc, hn, -⟩ := processGroup_state (NId.splitter st.counter)
        [r1, r2, r3]
        (addNode { st with counter := st.counter + 1 }
          (NId.splitter st.counter) "" "diamond" "lightyellow") ds []
      obtain ⟨ns2, g1, g2, g3⟩ := ih
        (processGroup (NId.splitter st.counter)
          (addNode { st with counter := st.counter + 1 }
            (NId.splitter st.counter) "" "diamond" "lightyellow") ds
          [r1, r2, r3] []).1
        (processGroup (NId.splitter st.counter)
          (addNode { st with counter := st.counter + 1 }
            (NId.splitter st.counter) "" "diamond" "lightyellow") ds
          [r1, r2, r3] []).2.1
        (rest ++ [(NId.splitter st.counter,
          (processGroup (NId.splitter st.counter)
            (addNode { st with counter := st.counter + 1 }
              (NId.splitter st.counter) "" "diamond" "lightyellow") ds
            [r1, r2, r3] []).2.2)])
      replace hc : (processGroup (NId.splitter st.counter)
          (addNode { st with counter := st.counter + 1 }
            (NId.splitter st.counter) "" "diamond" "lightyellow") ds
          [r1, r2, r3] []).1.counter = st.counter + 1 := hc
      rw [hc] at g2
      refine ⟨⟨NId.splitter st.counter, "", "diamond", "lightyellow"⟩ :: ns2,
        ?_, by omega, ?_⟩
      · rw [g1, hn]
        simp [addNode]
      · intro n hn2
        rcases List.mem_cons.mp hn2 with rfl | hn3
        · exact ⟨st.counter, le_refl _, by omega, rfl⟩
        · obtain ⟨c, hc1, hc2, hc3⟩ := g3 n hn3
          rw [hc] at hc1
          exact ⟨c, by omega, hc2, hc3⟩

/-- The merge loop only creates merger nodes, with counters in range. -/
theorem mergeLoopF_nodes :
    ∀ (fuel : Nat) (st : BState) (streams : List (NId × Nat)),
      ∃ ns, (mergeLoopF fuel st streams).1.nodes = st.nodes ++ ns ∧
        st.counter ≤ (mergeLoopF fuel st streams).1.counter ∧
        ∀ n ∈ ns, ∃ c, st.counter ≤ c ∧
          c < (mergeLoopF fuel st streams).1.counter ∧
          n.id = NId.merger c := by
  intro fuel
  induction fuel with
  | zero =>
    intro st streams
    exact ⟨[], by simp [mergeLoopF], le_refl _, by simp⟩
  | succ fuel ih =>
    intro st streams
    match streams with
    | [] => exact ⟨[], by simp [mergeLoopF], le_refl _, by simp⟩
    | [s1] => exact ⟨[], by simp [mergeLoopF], le_refl _, by simp⟩
    | [s1, s2] =>
      simp only [mergeLoopF]
      obtain ⟨ns2, g1, g2, g3⟩ := ih
        (addEdge (addEdge (addNode { st with counter := st.counter + 1 }
          (NId.merger st.counter) "" "diamond" "lightcoral") s1.1
          (NId.merger st.counter) s1.2) s2.1 (NId.merger st.counter) s2.2)
        [(NId.merger st.counter, s1.2 + s2.2)]
      refine ⟨⟨NId.merger st.counter, "", "diamond", "lightcoral"⟩ :: ns2,
        ?_, le_trans (Nat.le_succ st.counter) g2, ?_⟩
      · rw [g1]
        simp [addEdge, addNode]
      · intro n hn2
        rcases List.mem_cons.mp hn2 with rfl | hn3
        · exact ⟨st.counter, le_refl _,
            Nat.lt_of_lt_of_le (Nat.lt_succ_self _) g2, rfl⟩
        · obtain ⟨c, hc1, hc2, hc3⟩ := g3 n hn3
          have hc1b : st.counter + 1 ≤ c := hc1
          exact ⟨c, by omega, hc2, hc3⟩
    | s1 :: s2 :: s3 :: rest =>
      simp only [mergeLoopF]
      obtain ⟨ns2, g1, g2, g3⟩ := ih
        (addEdge (addEdge (addEdge (addNode
          { st with counter := st.counter + 1 }
          (NId.merger st.counter) "" "diamond" "lightcoral") s1.1
          (NId.merger st.counter) s1.2) s2.1 (NId.merger st.counter) s2.2)
          s3.1 (NId.merger st.counter) s3.2)
        (rest ++ [(NId.merger st.counter, s1.2 + s2.2 + s3.2)])
      refine ⟨⟨NId.merger st.counter, "", "diamond", "lightcoral"⟩ :: ns2,
        ?_, le_trans (Nat.le_succ st.counter) g2, ?_⟩
      · rw [g1]
        simp [addEdge, addNode]
      · intro n hn2
        rcases List.mem_cons.mp hn2 with rfl | hn3
        · exact ⟨st.counter, le_refl _,
            Nat.lt_of_lt_of_le (Nat.lt_succ_self _) g2, rfl⟩
        · obtain ⟨c, hc1, hc2, hc3⟩ := g3 n hn3
          have hc1b : st.counter + 1 ≤ c := hc1
          exact ⟨c, by omega, hc2, hc3⟩

end Balancer

namespace Balancer

/-- Full behaviour of `build_split_tree` on a nonempty row with distinct
destination keys: the returned mapping keeps the row's keys and flows and
feeds every destination from the source itself (single destination) or
from a fresh splitter; the new edges run from the source or a fresh
splitter into a fresh splitter; the source feeds exactly one thing (its
root edge or its lone destination) with the row's total flow; every fresh
splitter receives exactly one edge and feeds at most three things. -/
theorem buildSplitTree_spec (st : BState) (sourceId : NId)
    (row : List (Nat × Nat))
    (hne : row ≠ [])
    (hkeys : (row.map (fun q => q.1)).Nodup)
    (hsrc : ∀ c, sourceId ≠ NId.splitter c) :
    ∃ es ns,
      (buildSplitTree st sourceId row).1.edges = st.edges ++ es ∧
      st.counter ≤ (buildSplitTree st sourceId row).1.counter ∧
      (buildSplitTree st sourceId row).1.nodes = st.nodes ++ ns ∧
      (∀ n ∈ ns, ∃ c, st.counter ≤ c ∧
        c < (buildSplitTree st sourceId row).1.counter ∧
        n.id = NId.splitter c) ∧
      (buildSplitTree st sourceId row).2.map (fun q => q.1)
        = row.map (fun q => q.1) ∧
      (∀ q ∈ (buildSplitTree st sourceId row).2,
        (∃ c, st.counter ≤ c ∧
          c < (buildSplitTree st sourceId row).1.counter ∧
          q.2.1 = NId.splitter c) ∨ q.2.1 = sourceId) ∧
      (∀ jf ∈ row, ∃ v, (jf.1, (v, jf.2))
        ∈ (buildSplitTree st sourceId row).2) ∧
      (∀ e ∈ es, e.src = sourceId ∨ ∃ c, st.counter ≤ c ∧
        c < (buildSplitTree st sourceId row).1.counter ∧
        e.src = NId.splitter c) ∧
      (∀ e ∈ es, ∃ c, st.counter ≤ c ∧
        c < (buildSplitTree st sourceId row).1.counter ∧
        e.dst = NId.splitter c) ∧
      srcCount es sourceId
        + dsValCount (buildSplitTree st sourceId row).2 sourceId = 1 ∧
      srcFlowSum es sourceId
        + dsValFlow (buildSplitTree st sourceId row).2 sourceId
        = (row.map (fun q => q.2)).sum ∧
      (∀ c, st.counter ≤ c →
        c < (buildSplitTree st sourceId row).1.counter →
        dstCount es (NId.splitter c) = 1) ∧
      (∀ c, st.counter ≤ c →
        c < (buildSplitTree st sourceId row).1.counter →
        srcCount es (NId.splitter c)
          + dsValCount (buildSplitTree st sourceId row).2
            (NId.splitter c) ≤ 3) := by
  match row with
  | [] => exact absurd rfl hne
  | [(d, f)] =>
    refine ⟨[], [], by simp [buildSplitTree], le_refl _,
      by simp [buildSplitTree], by simp, by simp [buildSplitTree],
      ?_, ?_, by simp, by simp, ?_, ?_, ?_, ?_⟩
    · intro q hq
      simp only [buildSplitTree, List.mem_singleton] at hq
      subst hq
      exact Or.inr rfl
    · intro jf hjf
      simp only [List.mem_singleton] at hjf
      subst hjf
      exact ⟨sourceId, by simp [buildSplitTree]⟩
    · simp [buildSplitTree, srcCount, dsValCount]
    · simp [buildSplitTree, srcFlowSum, dsValFlow]
    · intro c h1 h2
      simp only [buildSplitTree] at h2
      omega
    · intro c h1 h2
      simp only [buildSplitTree] at h2
      omega
  | p1 :: p2 :: tl =>
    have hrowlen : 2 ≤ (p1 :: p2 :: tl).length := by simp
    simp only [buildSplitTree, splitLoop]
    have hperm : List.Perm (sortDesc destKeyGE (p1 :: p2 :: tl))
        (p1 :: p2 :: tl) := sortDesc_perm destKeyGE (p1 :: p2 :: tl)
    have hdkeys : ((sortDesc destKeyGE (p1 :: p2 :: tl)).map
        (fun q => q.1)).Nodup :=
      ((hperm.map (fun q => q.1)).nodup_iff).mpr hkeys
    have hrlen : ((sortDesc destKeyGE (p1 :: p2 :: tl)).map
        (fun p => (NId.leaf p.1, [p]))).length = (p1 :: p2 :: tl).length := by
      rw [List.length_map, hperm.length_eq]
    obtain ⟨es1, dall, k1, k2, k3, k4, k5, k6, k7, k8, k9, k10, k11, k12,
      k13, k14⟩ :=
      splitLoopF_spec (((sortDesc destKeyGE (p1 :: p2 :: tl)).map
          (fun p => (NId.leaf p.1, [p]))).length) st []
        ((sortDesc destKeyGE (p1 :: p2 :: tl)).map
          (fun p => (NId.leaf p.1, [p])))
        (le_refl _) (by rw [hrlen]; exact hrowlen)
        (by
          intro r hr
          obtain ⟨p, hp, hpr⟩ := List.mem_map.mp hr
          exact Or.inl ⟨p.1, p.2, hpr.symm⟩)
        (by
          rw [List.map_map]
          have hmm : ((fun r : NId × List (Nat × Nat) => r.1) ∘
              (fun p : Nat × Nat => (NId.leaf p.1, [p])))
              = (fun p : Nat × Nat => NId.leaf p.1) := rfl
          rw [hmm]
          have hmm2 : (fun p : Nat × Nat => NId.leaf p.1)
              = (NId.leaf ∘ (fun p : Nat × Nat => p.1)) := rfl
          rw [hmm2, ← List.map_map]
          exact hdkeys.map (fun a b h => by injection h))
        (by intro p hp; simp at hp)
        (by intro r _ _ q _ p hp; simp at hp)
        (by
          rw [List.map_map]
          have hmm : ((fun r : NId × List (Nat × Nat) =>
              r.2.map (fun q => q.1)) ∘
              (fun p : Nat × Nat => (NId.leaf p.1, [p])))
              = (fun p : Nat × Nat => [p.1]) := rfl
          rw [hmm, flatten_singletons (fun p : Nat × Nat => p.1)]
          exact hdkeys)
    obtain ⟨ns1, n1, n2, n3⟩ :=
      splitLoopF_nodes (((sortDesc destKeyGE (p1 :: p2 :: tl)).map
          (fun p => (NId.leaf p.1, [p]))).length) st []
        ((sortDesc destKeyGE (p1 :: p2 :: tl)).map
          (fun p => (NId.leaf p.1, [p])))
    set L := splitLoopF (((sortDesc destKeyGE (p1 :: p2 :: tl)).map
        (fun p => (NId.leaf p.1, [p]))).length) st []
      ((sortDesc destKeyGE (p1 :: p2 :: tl)).map
        (fun p => (NId.leaf p.1, [p]))) with hLdef
    obtain ⟨md, hmd, hmdf⟩ := k4
    simp only [hmd, List.headD_cons]
    have hdall : L.2.1 = dall := by
      rw [k3]
      simp
    have hflw : childFlow md = ((p1 :: p2 :: tl).map (fun q => q.2)).sum := by
      rw [hmdf, List.map_map]
      have hmm : ((fun r : NId × List (Nat × Nat) => childFlow r.2) ∘
          (fun p : Nat × Nat => (NId.leaf p.1, [p])))
          = (fun p : Nat × Nat => p.2) := rfl
      rw [hmm]
      exact (hperm.map (fun q => q.2)).sum_eq
    have hdesc : ∀ p ∈ (p1 :: p2 :: tl), ∃ c, st.counter ≤ c ∧
        c < L.1.counter ∧
        L.2.1.find? (fun q => q.1 = p.1)
          = some (p.1, (NId.splitter c, p.2)) := by
      intro p hp
      have hpd : p ∈ sortDesc destKeyGE (p1 :: p2 :: tl) :=
        hperm.mem_iff.mpr hp
      have hroot : (NId.leaf p.1, [p]) ∈ (sortDesc destKeyGE
          (p1 :: p2 :: tl)).map (fun p => (NId.leaf p.1, [p])) :=
        List.mem_map_of_mem _ hpd
      obtain ⟨c, hc1, hc2, hc3⟩ := k6 (NId.leaf p.1, [p]) hroot rfl p
        (by simp)
      refine ⟨c, hc1, hc2, ?_⟩
      rw [hdall]
      exact find_of_mem_nodupkeys dall k8 (p.1, (NId.splitter c, p.2)) hc3
    have hmap_mem : ∀ x ∈ (p1 :: p2 :: tl).map (fun p =>
        match L.2.1.find? (fun q => q.1 = p.1) with
        | some q => (p.1, q.2)
        | none => (p.1, ((NId.splitter (L.1.counter - 1), md).1, p.2))),
        ∃ p ∈ (p1 :: p2 :: tl), ∃ c, st.counter ≤ c ∧ c < L.1.counter ∧
          x = (p.1, (NId.splitter c, p.2)) ∧ x ∈ dall := by
      intro x hx
      obtain ⟨p, hp, hpx⟩ := List.mem_map.mp hx
      obtain ⟨c, hc1, hc2, hfind⟩ := hdesc p hp
      refine ⟨p, hp, c, hc1, hc2, ?_, ?_⟩
      · rw [← hpx]
        simp only [hfind]
      · rw [← hpx]
        simp only [hfind]
        rw [← hdall]
        exact List.mem_of_find?_eq_some hfind
    have hmap_fst : ((p1 :: p2 :: tl).map (fun p =>
        match L.2.1.find? (fun q => q.1 = p.1) with
        | some q => (p.1, q.2)
        | none => (p.1, ((NId.splitter (L.1.counter - 1), md).1, p.2)))).map
          (fun q => q.1) = (p1 :: p2 :: tl).map (fun q => q.1) := by
      rw [List.map_map]
      apply List.map_congr_left
      intro p hp
      obtain ⟨c, hc1, hc2, hfind⟩ := hdesc p hp
      simp only [Function.comp, hfind]
    refine ⟨es1 ++ [⟨sourceId, NId.splitter (L.1.counter - 1),
      childFlow md⟩], ns1, ?_, ?_, ?_, ?_, hmap_fst, ?_, ?_, ?_, ?_, ?_, ?_,
      ?_, ?_⟩
    · simp only [addEdge]
      rw [k1]
      simp
    · simp only [addEdge]
      omega
    · simp only [addEdge]
      exact n1
    · simp only [addEdge]
      exact n3
    · intro q hq
      obtain ⟨p, hp, c, hc1, hc2, hqe, hqd⟩ := hmap_mem q hq
      refine Or.inl ⟨c, hc1, by simpa [addEdge] using hc2, ?_⟩
      rw [hqe]
    · intro jf hjf
      obtain ⟨c, hc1, hc2, hfind⟩ := hdesc jf hjf
      refine ⟨NId.splitter c, ?_⟩
      have hin := List.mem_map_of_mem (fun p =>
        match L.2.1.find? (fun q => q.1 = p.1) with
        | some q => (p.1, q.2)
        | none => (p.1, ((NId.splitter (L.1.counter - 1), md).1, p.2))) hjf
      simp only [hfind] at hin
      exact hin
    · intro e he
      rcases List.mem_append.mp he with he1 | he2
      · obtain ⟨c, hc1, hc2, hc3⟩ := k9 e he1
        exact Or.inr ⟨c, hc2, by simpa [addEdge] using hc3, hc1⟩
      · simp only [List.mem_singleton] at he2
        subst he2
        exact Or.inl rfl
    · intro e he
      rcases List.mem_append.mp he with he1 | he2
      · rcases k10 e he1 with ⟨hd1, hd2⟩ | ⟨c, hc1, hc2, hc3⟩
        · exfalso
          rw [List.map_map] at hd1
          obtain ⟨p, hp, hpe⟩ := List.mem_map.mp hd1
          have : isLeaf e.dst = true := by
            rw [← hpe]
            rfl
          rw [hd2] at this
          exact Bool.false_ne_true this
        · exact ⟨c, hc2, by simp only [addEdge]; omega, hc1⟩
      · simp only [List.mem_singleton] at he2
        subst he2
        exact ⟨L.1.counter - 1, by omega, by simp only [addEdge]; omega, rfl⟩
    · rw [srcCount_append]
      have h1 : srcCount es1 sourceId = 0 := by
        apply srcCount_eq_zero
        intro e he heq
        obtain ⟨c, hc1, _, _⟩ := k9 e he
        rw [heq] at hc1
        exact hsrc c hc1
      have h2 : srcCount [(⟨sourceId, NId.splitter (L.1.counter - 1),
          childFlow md⟩ : GEdge)] sourceId = 1 := by
        simp [srcCount]
      have h3 : dsValCount ((p1 :: p2 :: tl).map (fun p =>
          match L.2.1.find? (fun q => q.1 = p.1) with
          | some q => (p.1, q.2)
          | none => (p.1, ((NId.splitter (L.1.counter - 1), md).1, p.2))))
          sourceId = 0 := by
        apply dsValCount_eq_zero
        intro p hp
        obtain ⟨p2x, hp2, c, hc1, hc2, hqe, hqd⟩ := hmap_mem p hp
        rw [hqe]
        simp only
        exact fun h => hsrc c h.symm
      rw [h1, h2, h3]
    · rw [srcFlowSum_append]
      have h1 : srcFlowSum es1 sourceId = 0 := by
        apply srcFlowSum_eq_zero
        intro e he heq
        obtain ⟨c, hc1, _, _⟩ := k9 e he
        rw [heq] at hc1
        exact hsrc c hc1
      have h2 : srcFlowSum [(⟨sourceId, NId.splitter (L.1.counter - 1),
          childFlow md⟩ : GEdge)] sourceId = childFlow md := by
        simp [srcFlowSum]
      have h3 : dsValFlow ((p1 :: p2 :: tl).map (fun p =>
          match L.2.1.find? (fun q => q.1 = p.1) with
          | some q => (p.1, q.2)
          | none => (p.1, ((NId.splitter (L.1.counter - 1), md).1, p.2))))
          sourceId = 0 := by
        apply dsValFlow_eq_zero
        intro p hp
        obtain ⟨p2x, hp2, c, hc1, hc2, hqe, hqd⟩ := hmap_mem p hp
        rw [hqe]
        simp only
        exact fun h => hsrc c h.symm
      rw [h1, h2, h3, hflw]
      omega
    · intro c h1 h2
      simp only [addEdge] at h2
      rw [dstCount_append]
      by_cases hc : c = L.1.counter - 1
      · subst hc
        rw [k13]
        have h3 : dstCount [(⟨sourceId, NId.splitter (L.1.counter - 1),
            childFlow md⟩ : GEdge)] (NId.splitter (L.1.counter - 1)) = 1 :=
          by simp [dstCount]
        rw [h3]
      · have h3 : dstCount es1 (NId.splitter c) = 1 :=
          k12 c h1 (by omega)
        have h4 : dstCount [(⟨sourceId, NId.splitter (L.1.counter - 1),
            childFlow md⟩ : GEdge)] (NId.splitter c) = 0 := by
          apply dstCount_eq_zero
          intro e he
          simp only [List.mem_singleton] at he
          subst he
          simp only
          intro heq
          have := NId.splitter.inj heq
          omega
        rw [h3, h4]
    · intro c h1 h2
      simp only [addEdge] at h2
      rw [srcCount_append]
      have h3 : srcCount [(⟨sourceId, NId.splitter (L.1.counter - 1),
          childFlow md⟩ : GEdge)] (NId.splitter c) = 0 := by
        apply srcCount_eq_zero
        intro e he
        simp only [List.mem_singleton] at he
        subst he
        simp only
        exact fun h => hsrc c h
      rw [h3]
      have h4 := k14 c h1 h2
      have h5 : dsValCount ((p1 :: p2 :: tl).map (fun p =>
          match L.2.1.find? (fun q => q.1 = p.1) with
          | some q => (p.1, q.2)
          | none => (p.1, ((NId.splitter (L.1.counter - 1), md).1, p.2))))
          (NId.splitter c) ≤ dsValCount dall (NId.splitter c) := by
        have hnd : ((p1 :: p2 :: tl).map (fun p =>
            match L.2.1.find? (fun q => q.1 = p.1) with
            | some q => (p.1, q.2)
            | none => (p.1, ((NId.splitter (L.1.counter - 1), md).1,
                p.2)))).Nodup :=
          List.Nodup.of_map (fun q => q.1) (by rw [hmap_fst]; exact hkeys)
        have hsub : ((p1 :: p2 :: tl).map (fun p =>
            match L.2.1.find? (fun q => q.1 = p.1) with
            | some q => (p.1, q.2)
            | none => (p.1, ((NId.splitter (L.1.counter - 1), md).1,
                p.2)))).filter (fun p => p.2.1 = NId.splitter c)
            ⊆ dall.filter (fun p => p.2.1 = NId.splitter c) := by
          intro x hx
          rw [List.mem_filter] at hx ⊢
          obtain ⟨p2x, hp2, c2, hc1, hc2, hqe, hqd⟩ := hmap_mem x hx.1
          exact ⟨hqd, hx.2⟩
        exact (List.subperm_of_subset (hnd.filter _) hsub).length_le
      have h5b : dsValCount ((p1 :: p2 :: tl).map (fun p =>
          match L.2.1.find? (fun q => q.1 = p.1) with
          | some q => (p.1, q.2)
          | none => (p.1, NId.splitter (L.1.counter - 1), p.2)))
          (NId.splitter c) ≤ dsValCount dall (NId.splitter c) := h5
      omega

end Balancer

namespace Balancer

/-- Full behaviour of the split-tree phase over the recorded input keys:
`input_outputs` keeps the keys; each entry keeps its row's keys and flows
and feeds every destination from its own input node or one of its own
fresh splitters (so distinct entries never share a feeding node); every
edge runs from an input node or a fresh splitter into a fresh splitter;
each listed input feeds exactly one thing with its row's total flow; each
fresh splitter receives exactly one edge and feeds at most three things. -/
theorem splitPhase_spec (m : List (Nat × Nat × Nat)) :
    ∀ (keys : List Nat) (st : BState),
      keys.Nodup →
      (∀ i ∈ keys, matrixRow m i ≠ []) →
      (∀ i ∈ keys, ((matrixRow m i).map (fun q => q.1)).Nodup) →
      ∃ es ns,
        (splitPhase m keys st).1.edges = st.edges ++ es ∧
        st.counter ≤ (splitPhase m keys st).1.counter ∧
        (splitPhase m keys st).1.nodes = st.nodes ++ ns ∧
        (∀ n ∈ ns, ∃ c, st.counter ≤ c ∧
          c < (splitPhase m keys st).1.counter ∧
          n.id = NId.splitter c) ∧
        (splitPhase m keys st).2.map (fun p => p.1) = keys ∧
        (∀ p ∈ (splitPhase m keys st).2,
          p.2.map (fun q => q.1) = (matrixRow m p.1).map (fun q => q.1)) ∧
        (∀ p ∈ (splitPhase m keys st).2, ∀ q ∈ p.2,
          (∃ c, st.counter ≤ c ∧ c < (splitPhase m keys st).1.counter ∧
            q.2.1 = NId.splitter c) ∨ q.2.1 = NId.input p.1) ∧
        (∀ p1 ∈ (splitPhase m keys st).2, ∀ p2 ∈ (splitPhase m keys st).2,
          ∀ q1 ∈ p1.2, ∀ q2 ∈ p2.2, q1.2.1 = q2.2.1 → p1.1 = p2.1) ∧
        (∀ p ∈ (splitPhase m keys st).2, ∀ jf ∈ matrixRow m p.1,
          ∃ v, (jf.1, (v, jf.2)) ∈ p.2) ∧
        (∀ e ∈ es, (∃ i ∈ keys, e.src = NId.input i) ∨
          ∃ c, st.counter ≤ c ∧ c < (splitPhase m keys st).1.counter ∧
            e.src = NId.splitter c) ∧
        (∀ e ∈ es, ∃ c, st.counter ≤ c ∧
          c < (splitPhase m keys st).1.counter ∧
          e.dst = NId.splitter c) ∧
        (∀ p ∈ (splitPhase m keys st).2,
          srcCount es (NId.input p.1) + dsValCount p.2 (NId.input p.1) = 1 ∧
          srcFlowSum es (NId.input p.1) + dsValFlow p.2 (NId.input p.1)
            = ((matrixRow m p.1).map (fun q => q.2)).sum) ∧
        (∀ c, st.counter ≤ c → c < (splitPhase m keys st).1.counter →
          dstCount es (NId.splitter c) = 1 ∧
          srcCount es (NId.splitter c)
            + ((splitPhase m keys st).2.map
              (fun p => dsValCount p.2 (NId.splitter c))).sum ≤ 3) := by
  intro keys
  induction keys with
  | nil =>
    intro st _ _ _
    refine ⟨[], [], by simp [splitPhase], le_refl _, by simp [splitPhase],
      by simp, by simp [splitPhase], ?_, ?_, ?_, ?_, by simp, by simp, ?_,
      ?_⟩
    · intro p hp; simp [splitPhase] at hp
    · intro p hp; simp [splitPhase] at hp
    · intro p1 hp1; simp [splitPhase] at hp1
    · intro p hp; simp [splitPhase] at hp
    · intro p hp; simp [splitPhase] at hp
    · intro c h1 h2
      simp only [splitPhase] at h2
      omega
  | cons i keys ih =>
    intro st hnodup hrne hrkeys
    rw [List.nodup_cons] at hnodup
    obtain ⟨hik, hnodup⟩ := hnodup
    obtain ⟨es1, ns1, b1, b2, b3, b4, b5, b6, b7, b8, b9, b10, b11, b12,
      b13⟩ :=
      buildSplitTree_spec st (NId.input i) (matrixRow m i)
        (hrne i (by simp)) (hrkeys i (by simp))
        (fun c h => by simp at h)
    obtain ⟨es2, ns2, g1, g2, g3, g4, g5, g6, g7, g8, g9, g10, g11, g12,
      g13⟩ :=
      ih (buildSplitTree st (NId.input i) (matrixRow m i)).1 hnodup
        (fun i2 h => hrne i2 (List.mem_cons_of_mem _ h))
        (fun i2 h => hrkeys i2 (List.mem_cons_of_mem _ h))
    simp only [splitPhase]
    refine ⟨es1 ++ es2, ns1 ++ ns2, ?_, ?_, ?_, ?_, ?_, ?_, ?_, ?_, ?_, ?_,
      ?_, ?_, ?_⟩
    · rw [g1, b1, List.append_assoc]
    · omega
    · rw [g3, b3, List.append_assoc]
    · intro n hn
      rcases List.mem_append.mp hn with hn1 | hn2
      · obtain ⟨c, h1, h2, h3⟩ := b4 n hn1
        exact ⟨c, h1, by omega, h3⟩
      · obtain ⟨c, h1, h2, h3⟩ := g4 n hn2
        exact ⟨c, by omega, h2, h3⟩
    · simp [g5]
    · intro p hp
      rcases List.mem_cons.mp hp with rfl | hp2
      · exact b5
      · exact g6 p hp2
    · intro p hp q hq
      rcases List.mem_cons.mp hp with rfl | hp2
      · rcases b6 q hq with ⟨c, h1, h2, h3⟩ | h3
        · exact Or.inl ⟨c, h1, by omega, h3⟩
        · exact Or.inr h3
      · rcases g7 p hp2 q hq with ⟨c, h1, h2, h3⟩ | h3
        · exact Or.inl ⟨c, by omega, h2, h3⟩
        · exact Or.inr h3
    · -- ownership: the feeding node determines the row
      intro p1 hp1 p2 hp2 q1 hq1 q2 hq2 hv
      have hmem_keys : ∀ p ∈ (splitPhase m keys
          (buildSplitTree st (NId.input i) (matrixRow m i)).1).2,
          p.1 ∈ keys := by
        intro p hp
        rw [← g5]
        exact List.mem_map_of_mem _ hp
      rcases List.mem_cons.mp hp1 with rfl | hp1b <;>
        rcases List.mem_cons.mp hp2 with rfl | hp2b
      · rfl
      · exfalso
        rcases b6 q1 hq1 with ⟨c1, h11, h12, h13⟩ | h13 <;>
          rcases g7 p2 hp2b q2 hq2 with ⟨c2, h21, h22, h23⟩ | h23
        · rw [h13, h23] at hv
          have := NId.splitter.inj hv
          omega
        · rw [h13, h23] at hv
          cases hv
        · rw [h13, h23] at hv
          cases hv
        · rw [h13, h23] at hv
          have := NId.input.inj hv
          subst this
          exact hik (hmem_keys p2 hp2b)
      · exfalso
        rcases g7 p1 hp1b q1 hq1 with ⟨c1, h11, h12, h13⟩ | h13 <;>
          rcases b6 q2 hq2 with ⟨c2, h21, h22, h23⟩ | h23
        · rw [h13, h23] at hv
          have := NId.splitter.inj hv
          omega
        · rw [h13, h23] at hv
          cases hv
        · rw [h13, h23] at hv
          cases hv
        · rw [h13, h23] at hv
          have := NId.input.inj hv
          subst this
          exact hik (hmem_keys p1 hp1b)
      · exact g8 p1 hp1b p2 hp2b q1 hq1 q2 hq2 hv
    · intro p hp jf hjf
      rcases List.mem_cons.mp hp with rfl | hp2
      · exact b7 jf hjf
      · exact g9 p hp2 jf hjf
    · intro e he
      rcases List.mem_append.mp he with he1 | he2
      · rcases b8 e he1 with h | ⟨c, h1, h2, h3⟩
        · exact Or.inl ⟨i, by simp, h⟩
        · exact Or.inr ⟨c, h1, by omega, h3⟩
      · rcases g10 e he2 with ⟨i2, hi2, h⟩ | ⟨c, h1, h2, h3⟩
        · exact Or.inl ⟨i2, List.mem_cons_of_mem _ hi2, h⟩
        · exact Or.inr ⟨c, by omega, h2, h3⟩
    · intro e he
      rcases List.mem_append.mp he with he1 | he2
      · obtain ⟨c, h1, h2, h3⟩ := b9 e he1
        exact ⟨c, h1, by omega, h3⟩
      · obtain ⟨c, h1, h2, h3⟩ := g11 e he2
        exact ⟨c, by omega, h2, h3⟩
    · intro p hp
      rcases List.mem_cons.mp hp with rfl | hp2
      · have h2 : srcCount es2 (NId.input i) = 0 := by
          apply srcCount_eq_zero
          intro e he heq
          rcases g10 e he with ⟨i2, hi2, h⟩ | ⟨c, h1x, h2x, h3x⟩
          · rw [heq] at h
            have := NId.input.inj h
            subst this
            exact hik hi2
          · rw [heq] at h3x
            cases h3x
        have h3 : srcFlowSum es2 (NId.input i) = 0 := by
          apply srcFlowSum_eq_zero
          intro e he heq
          rcases g10 e he with ⟨i2, hi2, h⟩ | ⟨c, h1x, h2x, h3x⟩
          · rw [heq] at h
            have := NId.input.inj h
            subst this
            exact hik hi2
          · rw [heq] at h3x
            cases h3x
        have hmain : srcCount (es1 ++ es2) (NId.input i)
            + dsValCount (buildSplitTree st (NId.input i)
              (matrixRow m i)).2 (NId.input i) = 1 ∧
            srcFlowSum (es1 ++ es2) (NId.input i)
            + dsValFlow (buildSplitTree st (NId.input i)
              (matrixRow m i)).2 (NId.input i)
            = ((matrixRow m i).map (fun q => q.2)).sum := by
          rw [srcCount_append, srcFlowSum_append, h2, h3]
          constructor
          · have := b10
            omega
          · have := b11
            omega
        exact hmain
      · have h2 : srcCount es1 (NId.input p.1) = 0 := by
          apply srcCount_eq_zero
          intro e he heq
          rcases b8 e he with h | ⟨c, h1x, h2x, h3x⟩
          · rw [heq] at h
            have := NId.input.inj h
            subst this
            exact hik (by
              rw [← g5]
              exact List.mem_map_of_mem _ hp2)
          · rw [heq] at h3x
            cases h3x
        have h3 : srcFlowSum es1 (NId.input p.1) = 0 := by
          apply srcFlowSum_eq_zero
          intro e he heq
          rcases b8 e he with h | ⟨c, h1x, h2x, h3x⟩
          · rw [heq] at h
            have := NId.input.inj h
            subst this
            exact hik (by
              rw [← g5]
              exact List.mem_map_of_mem _ hp2)
          · rw [heq] at h3x
            cases h3x
        rw [srcCount_append, srcFlowSum_append, h2, h3]
        have := g12 p hp2
        constructor
        · omega
        · omega
    · intro c h1 h2
      rw [dstCount_append, srcCount_append, List.map_cons, List.sum_cons]
      by_cases hc : c < (buildSplitTree st (NId.input i)
          (matrixRow m i)).1.counter
      · have hd1 : dstCount es1 (NId.splitter c) = 1 := b12 c h1 hc
        have hd2 : dstCount es2 (NId.splitter c) = 0 := by
          apply dstCount_eq_zero
          intro e he heq
          obtain ⟨c2, h1x, h2x, h3x⟩ := g11 e he
          rw [heq] at h3x
          have := NId.splitter.inj h3x
          omega
        have hs2 : srcCount es2 (NId.splitter c) = 0 := by
          apply srcCount_eq_zero
          intro e he heq
          rcases g10 e he with ⟨i2, hi2, h⟩ | ⟨c2, h1x, h2x, h3x⟩
          · rw [heq] at h
            cases h
          · rw [heq] at h3x
            have := NId.splitter.inj h3x
            omega
        have hds2 : (((splitPhase m keys (buildSplitTree st (NId.input i)
            (matrixRow m i)).1).2).map
            (fun p => dsValCount p.2 (NId.splitter c))).sum = 0 := by
          apply List.sum_eq_zero
          intro x hx
          obtain ⟨p, hp, hpx⟩ := List.mem_map.mp hx
          rw [← hpx]
          apply dsValCount_eq_zero
          intro q hq heq
          rcases g7 p hp q hq with ⟨c2, h1x, h2x, h3x⟩ | h3x
          · rw [heq] at h3x
            have := NId.splitter.inj h3x
            omega
          · rw [heq] at h3x
            cases h3x
        have hb13 : srcCount es1 (NId.splitter c)
            + dsValCount ((i, (buildSplitTree st (NId.input i)
              (matrixRow m i)).2) : Nat × List (Nat × NId × Nat)).2
              (NId.splitter c) ≤ 3 := b13 c h1 hc
        rw [hd1, hd2, hs2, hds2]
        omega
      · have hge : (buildSplitTree st (NId.input i)
            (matrixRow m i)).1.counter ≤ c := by omega
        have hd1 : dstCount es1 (NId.splitter c) = 0 := by
          apply dstCount_eq_zero
          intro e he heq
          obtain ⟨c2, h1x, h2x, h3x⟩ := b9 e he
          rw [heq] at h3x
          have := NId.splitter.inj h3x
          omega
        have hs1 : srcCount es1 (NId.splitter c) = 0 := by
          apply srcCount_eq_zero
          intro e he heq
          rcases b8 e he with h | ⟨c2, h1x, h2x, h3x⟩
          · rw [heq] at h
            cases h
          · rw [heq] at h3x
            have := NId.splitter.inj h3x
            omega
        have hds1 : dsValCount ((i, (buildSplitTree st (NId.input i)
            (matrixRow m i)).2) : Nat × List (Nat × NId × Nat)).2
            (NId.splitter c) = 0 := by
          apply dsValCount_eq_zero
          intro q hq heq
          rcases b6 q hq with ⟨c2, h1x, h2x, h3x⟩ | h3x
          · rw [heq] at h3x
            have := NId.splitter.inj h3x
            omega
          · rw [heq] at h3x
            cases h3x
        have hg13 := g13 c hge h2
        rw [hd1, hs1, hds1]
        omega

end Balancer

namespace Balancer

/-- In a `sources` dict with distinct node keys, filtering for a member's
node isolates exactly that member. -/
theorem filter_nid_of_mem_nodup :
    ∀ (l : List (NId × Nat)), (l.map (fun p => p.1)).Nodup →
      ∀ (v : NId) (f : Nat), (v, f) ∈ l →
      l.filter (fun p => p.1 = v) = [(v, f)] := by
  intro l
  induction l with
  | nil => intro _ v f hx; simp at hx
  | cons q t ih =>
    intro hn v f hx
    rw [List.map_cons, List.nodup_cons] at hn
    rcases List.mem_cons.mp hx with rfl | hx2
    · rw [List.filter_cons_of_pos (by simp)]
      rw [List.filter_eq_nil_iff.mpr]
      intro p hp
      simp only [decide_eq_true_eq]
      intro hpj
      exact hn.1 (hpj ▸ List.mem_map.mpr ⟨p, hp, rfl⟩)
    · have hq : q.1 ≠ v := by
        intro h
        exact hn.1 (h ▸ List.mem_map.mpr ⟨(v, f), hx2, rfl⟩)
      rw [List.filter_cons_of_neg (by simpa using hq)]
      exact ih hn.2 v f hx2

/-- `idCount` and `idFlow` of a present node in a duplicate-free dict. -/
theorem idCount_idFlow_of_mem (l : List (NId × Nat))
    (hn : (l.map (fun p => p.1)).Nodup) (v : NId) (f : Nat)
    (hx : (v, f) ∈ l) : idCount l v = 1 ∧ idFlow l v = f := by
  rw [idCount, idFlow, filter_nid_of_mem_nodup l hn v f hx]
  simp

/-- `idCount` and `idFlow` of an absent node. -/
theorem idCount_idFlow_of_not_mem (l : List (NId × Nat)) (v : NId)
    (hv : ∀ p ∈ l, p.1 ≠ v) : idCount l v = 0 ∧ idFlow l v = 0 := by
  have hfil : l.filter (fun p => p.1 = v) = [] := by
    rw [List.filter_eq_nil_iff]
    intro p hp
    simpa using hv p hp
  rw [idCount, idFlow, hfil]
  simp

end Balancer

namespace Balancer

/-- Full behaviour of the per-output wiring: every listed source feeds
exactly one new edge carrying its listed flow; the flow arriving at the
output node is the sum of the listed flows; every new edge runs from a
listed source or a fresh merger into the output node or a fresh merger;
every fresh merger receives at most three edges and feeds exactly one. -/
theorem wireOutput_spec (st : BState) (sources : List (NId × Nat)) (j : Nat)
    (hnm : ∀ p ∈ sources, ∀ c, p.1 ≠ NId.merger c)
    (hnodup : (sources.map (fun p => p.1)).Nodup) :
    ∃ es ns,
      (wireOutput st sources j).edges = st.edges ++ es ∧
      st.counter ≤ (wireOutput st sources j).counter ∧
      (wireOutput st sources j).nodes = st.nodes ++ ns ∧
      (∀ n ∈ ns, ∃ c, st.counter ≤ c ∧
        c < (wireOutput st sources j).counter ∧ n.id = NId.merger c) ∧
      (∀ v, (∀ c, v ≠ NId.merger c) →
        srcCount es v = idCount sources v ∧
        srcFlowSum es v = idFlow sources v) ∧
      (∀ e ∈ es, (∃ p ∈ sources, e.src = p.1) ∨
        ∃ c, st.counter ≤ c ∧ c < (wireOutput st sources j).counter ∧
          e.src = NId.merger c) ∧
      (∀ e ∈ es, e.dst = NId.output j ∨
        ∃ c, st.counter ≤ c ∧ c < (wireOutput st sources j).counter ∧
          e.dst = NId.merger c) ∧
      dstFlowSum es (NId.output j) = (sources.map (fun p => p.2)).sum ∧
      (∀ c, st.counter ≤ c → c < (wireOutput st sources j).counter →
        dstCount es (NId.merger c) ≤ 3 ∧
        srcCount es (NId.merger c) = 1) := by
  match sources with
  | [] =>
    refine ⟨[], [], by simp [wireOutput], le_refl _, by simp [wireOutput],
      by simp, ?_, by simp, by simp, by simp [dstFlowSum], ?_⟩
    · intro v _
      exact ⟨rfl, rfl⟩
    · intro c h1 h2
      simp only [wireOutput] at h2
      omega
  | [(s, f)] =>
    refine ⟨[⟨s, NId.output j, f⟩], [], by simp [wireOutput, addEdge],
      le_refl _, by simp [wireOutput, addEdge], by simp, ?_, ?_, ?_, ?_, ?_⟩
    · intro v hv
      by_cases hvs : v = s
      · subst hvs
        constructor
        · simp [srcCount, idCount]
        · simp [srcFlowSum, idFlow]
      · constructor
        · rw [srcCount_eq_zero _ _ (by
            intro e he
            simp only [List.mem_singleton] at he
            subst he
            simpa using fun h => hvs h.symm)]
          rw [(idCount_idFlow_of_not_mem _ v (by
            intro p hp
            simp only [List.mem_singleton] at hp
            subst hp
            simpa using fun h => hvs h.symm)).1]
        · rw [srcFlowSum_eq_zero _ _ (by
            intro e he
            simp only [List.mem_singleton] at he
            subst he
            simpa using fun h => hvs h.symm)]
          rw [(idCount_idFlow_of_not_mem _ v (by
            intro p hp
            simp only [List.mem_singleton] at hp
            subst hp
            simpa using fun h => hvs h.symm)).2]
    · intro e he
      simp only [List.mem_singleton] at he
      subst he
      exact Or.inl ⟨(s, f), by simp, rfl⟩
    · intro e he
      simp only [List.mem_singleton] at he
      subst he
      exact Or.inl rfl
    · simp [dstFlowSum]
    · intro c h1 h2
      simp only [wireOutput, addEdge] at h2
      omega
  | p1 :: p2 :: tl =>
    have hlen2 : 2 ≤ (sortDesc srcKeyGE (p1 :: p2 :: tl)).length := by
      rw [(sortDesc_perm srcKeyGE (p1 :: p2 :: tl)).length_eq]
      simp
    have hperm : List.Perm (sortDesc srcKeyGE (p1 :: p2 :: tl))
        (p1 :: p2 :: tl) := sortDesc_perm srcKeyGE (p1 :: p2 :: tl)
    obtain ⟨esm, m1, m2, m3, m4, m5, m6, m7, m8, m9⟩ :=
      mergeLoopF_spec (sortDesc srcKeyGE (p1 :: p2 :: tl)).length st
        (sortDesc srcKeyGE (p1 :: p2 :: tl)) (le_refl _) hlen2
        (fun p hp c hc =>
          absurd hc (hnm p (hperm.mem_iff.mp hp) c))
        (((hperm.map (fun p => p.1)).nodup_iff).mpr hnodup)
    obtain ⟨nsm, n1, n2, n3⟩ :=
      mergeLoopF_nodes (sortDesc srcKeyGE (p1 :: p2 :: tl)).length st
        (sortDesc srcKeyGE (p1 :: p2 :: tl))
    simp only [wireOutput, buildMergeTree, mergeLoop]
    obtain ⟨ff, hff⟩ := m3
    simp only [hff, List.headD_cons]
    set M := mergeLoopF (sortDesc srcKeyGE (p1 :: p2 :: tl)).length st
      (sortDesc srcKeyGE (p1 :: p2 :: tl)) with hMdef
    refine ⟨esm ++ [⟨NId.merger (M.1.counter - 1), NId.output j,
      ((p1 :: p2 :: tl).map (fun p => p.2)).sum⟩], nsm, ?_, ?_, ?_, ?_, ?_,
      ?_, ?_, ?_, ?_⟩
    · simp only [addEdge]
      rw [m1]
      simp
    · simp only [addEdge]
      omega
    · simp only [addEdge]
      exact n1
    · simp only [addEdge]
      exact n3
    · intro v hv
      rw [srcCount_append, srcFlowSum_append]
      have hsingle : srcCount [(⟨NId.merger (M.1.counter - 1), NId.output j,
          ((p1 :: p2 :: tl).map (fun p => p.2)).sum⟩ : GEdge)] v = 0 := by
        apply srcCount_eq_zero
        intro e he
        simp only [List.mem_singleton] at he
        subst he
        simp only
        exact fun h => hv _ h.symm
      have hsingle2 : srcFlowSum [(⟨NId.merger (M.1.counter - 1),
          NId.output j, ((p1 :: p2 :: tl).map (fun p => p.2)).sum⟩ :
          GEdge)] v = 0 := by
        apply srcFlowSum_eq_zero
        intro e he
        simp only [List.mem_singleton] at he
        subst he
        simp only
        exact fun h => hv _ h.symm
      by_cases hvm : ∃ f, (v, f) ∈ (p1 :: p2 :: tl)
      · obtain ⟨f, hvf⟩ := hvm
        have hm := m6 (v, f) (hperm.mem_iff.mpr hvf)
        obtain ⟨hic, hif⟩ :=
          idCount_idFlow_of_mem (p1 :: p2 :: tl) hnodup v f hvf
        rw [hic, hif, hsingle, hsingle2, hm.1, hm.2]
        exact ⟨rfl, rfl⟩
      · have hvno : ∀ p ∈ (p1 :: p2 :: tl), p.1 ≠ v := by
          intro p hp h
          exact hvm ⟨p.2, by rw [← h]; exact hp⟩
        obtain ⟨hic, hif⟩ :=
          idCount_idFlow_of_not_mem (p1 :: p2 :: tl) v hvno
        have hz1 : srcCount esm v = 0 := by
          apply srcCount_eq_zero
          intro e he heq
          rcases m7 e he with ⟨p, hp, hsrc⟩ | ⟨c, h1, h2, h3⟩
          · rw [heq] at hsrc
            exact hvno p (hperm.mem_iff.mp hp) hsrc.symm
          · rw [heq] at h1
            exact hv c h1
        have hz2 : srcFlowSum esm v = 0 := by
          apply srcFlowSum_eq_zero
          intro e he heq
          rcases m7 e he with ⟨p, hp, hsrc⟩ | ⟨c, h1, h2, h3⟩
          · rw [heq] at hsrc
            exact hvno p (hperm.mem_iff.mp hp) hsrc.symm
          · rw [heq] at h1
            exact hv c h1
        rw [hic, hif, hsingle, hsingle2, hz1, hz2]
        exact ⟨rfl, rfl⟩
    · intro e he
      rcases List.mem_append.mp he with he1 | he2
      · rcases m7 e he1 with ⟨p, hp, hsrc⟩ | ⟨c, h1, h2, h3⟩
        · exact Or.inl ⟨p, hperm.mem_iff.mp hp, hsrc⟩
        · exact Or.inr ⟨c, h2, by simp only [addEdge]; omega, h1⟩
      · simp only [List.mem_singleton] at he2
        subst he2
        exact Or.inr ⟨M.1.counter - 1, by omega,
          by simp only [addEdge]; omega, rfl⟩
    · intro e he
      rcases List.mem_append.mp he with he1 | he2
      · obtain ⟨c, h1, h2, h3⟩ := m4 e he1
        exact Or.inr ⟨c, h2, by simp only [addEdge]; omega, h1⟩
      · simp only [List.mem_singleton] at he2
        subst he2
        exact Or.inl rfl
    · rw [dstFlowSum_append]
      have h1 : dstFlowSum esm (NId.output j) = 0 := by
        apply dstFlowSum_eq_zero
        intro e he heq
        obtain ⟨c, h1x, _, _⟩ := m4 e he
        rw [heq] at h1x
        cases h1x
      have h2 : dstFlowSum [(⟨NId.merger (M.1.counter - 1), NId.output j,
          ((p1 :: p2 :: tl).map (fun p => p.2)).sum⟩ : GEdge)]
          (NId.output j) = ((p1 :: p2 :: tl).map (fun p => p.2)).sum := by
        simp [dstFlowSum]
      rw [h1, h2]
      omega
    · intro c h1 h2
      simp only [addEdge] at h2
      rw [dstCount_append, srcCount_append]
      have hd2 : dstCount [(⟨NId.merger (M.1.counter - 1), NId.output j,
          ((p1 :: p2 :: tl).map (fun p => p.2)).sum⟩ : GEdge)]
          (NId.merger c) = 0 := by
        apply dstCount_eq_zero
        intro e he
        simp only [List.mem_singleton] at he
        subst he
        simp only
        intro heq
        cases heq
      constructor
      · have := m5 c
        rw [hd2]
        omega
      · by_cases hc : c = M.1.counter - 1
        · subst hc
          rw [m9]
          have hs2 : srcCount [(⟨NId.merger (M.1.counter - 1), NId.output j,
              ((p1 :: p2 :: tl).map (fun p => p.2)).sum⟩ : GEdge)]
              (NId.merger (M.1.counter - 1)) = 1 := by
            simp [srcCount]
          rw [hs2]
        · have hs1 : srcCount esm (NId.merger c) = 1 := m8 c h1 (by omega)
          have hs2 : srcCount [(⟨NId.merger (M.1.counter - 1), NId.output j,
              ((p1 :: p2 :: tl).map (fun p => p.2)).sum⟩ : GEdge)]
              (NId.merger c) = 0 := by
            apply srcCount_eq_zero
            intro e he
            simp only [List.mem_singleton] at he
            subst he
            simp only
            intro heq
            have := NId.merger.inj heq
            omega
          rw [hs1, hs2]

end Balancer

namespace Balancer

/-- Counting version of `sum_key_weight`. -/
theorem sum_key_count (P : Nat × NId × Nat → Bool) :
    ∀ (l : List (Nat × NId × Nat)) (js : List Nat), js.Nodup →
      (∀ p ∈ l, p.1 ∈ js) →
      (js.map (fun j =>
        ((l.filter (fun p => p.1 = j)).filter P).length)).sum
      = (l.filter P).length := by
  intro l js hn hcov
  have h := sum_key_weight (fun _ => 1) P l js hn hcov
  calc (js.map (fun j =>
        ((l.filter (fun p => p.1 = j)).filter P).length)).sum
      = (js.map (fun j => (((l.filter (fun p => p.1 = j)).filter P).map
          (fun _ => 1)).sum)).sum := by
        congr 1
        apply List.map_congr_left
        intro j _
        exact len_eq_sum_ones _
    _ = ((l.filter P).map (fun _ => 1)).sum := h
    _ = (l.filter P).length := (len_eq_sum_ones _).symm

/-- A guarded `dictSet` fold over fresh, pairwise distinct keys is a
filtered map. -/
theorem foldl_dictSet_filter_map (P : Nat → Bool) (F : Nat → NId × Nat) :
    ∀ (keys : List Nat) (acc : List (NId × Nat)),
      (∀ i ∈ keys, P i = true → ∀ p ∈ acc, p.1 ≠ (F i).1) →
      (∀ i1 ∈ keys, P i1 = true → ∀ i2 ∈ keys, P i2 = true →
        (F i1).1 = (F i2).1 → i1 = i2) →
      keys.Nodup →
      keys.foldl (fun acc i => if P i then dictSet acc (F i).1 (F i).2
        else acc) acc = acc ++ (keys.filter P).map F := by
  intro keys
  induction keys with
  | nil => intro acc _ _ _; simp
  | cons i keys ih =>
    intro acc hfresh hinj hnodup
    rw [List.nodup_cons] at hnodup
    rw [List.foldl_cons]
    by_cases hP : P i = true
    · have hset : (if P i then dictSet acc (F i).1 (F i).2 else acc)
          = acc ++ [F i] := by
        rw [if_pos hP]
        exact dictSet_fresh acc (F i).1 (F i).2
          (fun p hp => hfresh i (by simp) hP p hp)
      rw [hset, ih (acc ++ [F i]) ?_ ?_ hnodup.2,
        List.filter_cons_of_pos hP]
      · simp
      · intro i2 hi2 hP2 p hp
        rcases List.mem_append.mp hp with hp1 | hp2
        · exact hfresh i2 (List.mem_cons_of_mem _ hi2) hP2 p hp1
        · simp only [List.mem_singleton] at hp2
          subst hp2
          intro heq
          have := hinj i (by simp) hP i2 (List.mem_cons_of_mem _ hi2) hP2
            heq
          exact hnodup.1 (this ▸ hi2)
      · intro i1 hi1 hP1 i2 hi2 hP2 heq
        exact hinj i1 (List.mem_cons_of_mem _ hi1) hP1 i2
          (List.mem_cons_of_mem _ hi2) hP2 heq
    · have hset : (if P i then dictSet acc (F i).1 (F i).2 else acc)
          = acc := by
        rw [if_neg hP]
      rw [hset, ih acc ?_ ?_ hnodup.2, List.filter_cons_of_neg hP]
      · intro i2 hi2 hP2 p hp
        exact hfresh i2 (List.mem_cons_of_mem _ hi2) hP2 p hp
      · intro i1 hi1 hP1 i2 hi2 hP2 heq
        exact hinj i1 (List.mem_cons_of_mem _ hi1) hP1 i2
          (List.mem_cons_of_mem _ hi2) hP2 heq

end Balancer

namespace Balancer

/-- Row membership for the `any` guard of `collectSources`. -/
theorem any_row_iff (m : List (Nat × Nat × Nat)) (i j : Nat) :
    (matrixRow m i).any (fun p => p.1 = j) = true ↔
      ∃ a, (i, j, a) ∈ m := by
  rw [List.any_eq_true]
  constructor
  · rintro ⟨q, hq, hqj⟩
    simp only [decide_eq_true_eq] at hqj
    refine ⟨q.2, (mem_matrixRow_iff m i j q.2).mp ?_⟩
    rw [← hqj]
    exact hq
  · rintro ⟨a, ha⟩
    exact ⟨(j, a), (mem_matrixRow_iff m i j a).mpr ha, by simp⟩

/-- Summing a mapped filter is summing a guarded map. -/
theorem sum_filter_map {A : Type} (P : A → Bool) (f : A → Nat) :
    ∀ l : List A, ((l.filter P).map f).sum
      = (l.map (fun x => if P x then f x else 0)).sum := by
  intro l
  induction l with
  | nil => rfl
  | cons a t ih =>
    by_cases h : P a
    · rw [List.filter_cons_of_pos h]
      simp only [List.map_cons, List.sum_cons, if_pos h, ih]
    · rw [List.filter_cons_of_neg h]
      simp only [List.map_cons, List.sum_cons, if_neg h, ih]
      omega

/-- The guarded lookup of `collectSources`, described: for a listed input
whose row mentions the output, the lookup returns the recorded feeding
node and the row's flow at that output. -/
theorem collectSources_F (m : List (Nat × Nat × Nat))
    (io : List (Nat × List (Nat × NId × Nat))) (keys : List Nat) (j : Nat)
    (hio_keys : io.map (fun p => p.1) = keys)
    (hkeys_nodup : keys.Nodup)
    (hrow_nodup : ∀ i ∈ keys, ((matrixRow m i).map (fun q => q.1)).Nodup)
    (hres_keys : ∀ p ∈ io, p.2.map (fun q => q.1)
      = (matrixRow m p.1).map (fun q => q.1))
    (hcover : ∀ p ∈ io, ∀ jf ∈ matrixRow m p.1,
      ∃ w, (jf.1, (w, jf.2)) ∈ p.2) :
    ∀ i ∈ keys, (matrixRow m i).any (fun p => p.1 = j) = true →
      ∃ res, (i, res) ∈ io ∧ ∃ w f, (j, (w, f)) ∈ res ∧
        dlookup (dlookup io i []) j (NId.input 0, 0) = (w, f) ∧
        (j, f) ∈ matrixRow m i := by
  intro i hi hP
  have hio_nodup : (io.map (fun p => p.1)).Nodup := by
    rw [hio_keys]
    exact hkeys_nodup
  have hex : ∃ p ∈ io, p.1 = i := by
    rw [← hio_keys] at hi
    obtain ⟨p, hp, hpi⟩ := List.mem_map.mp hi
    exact ⟨p, hp, hpi⟩
  obtain ⟨p, hp, hpi⟩ := hex
  have hlk1 : dlookup io i [] = p.2 := by
    apply dlookup_of_mem io [] hio_nodup i p.2
    rw [← hpi]
    exact hp
  obtain ⟨q, hq, hqj⟩ := by
    rw [List.any_eq_true] at hP
    exact hP
  simp only [decide_eq_true_eq] at hqj
  have hrow_i : matrixRow m p.1 = matrixRow m i := by rw [hpi]
  obtain ⟨w, hw⟩ := hcover p hp q (by rw [hrow_i]; exact hq)
  have hres_nodup : (p.2.map (fun q => q.1)).Nodup := by
    rw [hres_keys p hp, hpi]
    exact hrow_nodup i hi
  have hlk2 : dlookup p.2 q.1 (NId.input 0, 0) = (w, q.2) :=
    dlookup_of_mem p.2 _ hres_nodup q.1 (w, q.2) hw
  refine ⟨p.2, ?_, w, q.2, ?_, ?_, ?_⟩
  · rw [← hpi]
    exact hp
  · rw [← hqj]
    exact hw
  · rw [hlk1, ← hqj]
    exact hlk2
  · rw [← hqj]
    exact hq

/-- `collectSources` is the filtered, looked-up map over the keys,
provided distinct rows never share a feeding node. -/
theorem collectSources_eq (m : List (Nat × Nat × Nat))
    (io : List (Nat × List (Nat × NId × Nat))) (keys : List Nat) (j : Nat)
    (hio_keys : io.map (fun p => p.1) = keys)
    (hkeys_nodup : keys.Nodup)
    (hrow_nodup : ∀ i ∈ keys, ((matrixRow m i).map (fun q => q.1)).Nodup)
    (hres_keys : ∀ p ∈ io, p.2.map (fun q => q.1)
      = (matrixRow m p.1).map (fun q => q.1))
    (hcover : ∀ p ∈ io, ∀ jf ∈ matrixRow m p.1,
      ∃ w, (jf.1, (w, jf.2)) ∈ p.2)
    (hown : ∀ p1 ∈ io, ∀ p2 ∈ io, ∀ q1 ∈ p1.2, ∀ q2 ∈ p2.2,
      q1.2.1 = q2.2.1 → p1.1 = p2.1) :
    collectSources m io keys j
      = (keys.filter (fun i => (matrixRow m i).any (fun p => p.1 = j))).map
          (fun i => dlookup (dlookup io i []) j (NId.input 0, 0)) := by
  have hinj : ∀ i1 ∈ keys,
      (matrixRow m i1).any (fun p => p.1 = j) = true → ∀ i2 ∈ keys,
      (matrixRow m i2).any (fun p => p.1 = j) = true →
      (dlookup (dlookup io i1 []) j (NId.input 0, 0)).1
        = (dlookup (dlookup io i2 []) j (NId.input 0, 0)).1 → i1 = i2 := by
    intro i1 hi1 hP1 i2 hi2 hP2 heq
    obtain ⟨res1, hm1, w1, f1, hq1, hd1, _⟩ :=
      collectSources_F m io keys j hio_keys hkeys_nodup hrow_nodup
        hres_keys hcover i1 hi1 hP1
    obtain ⟨res2, hm2, w2, f2, hq2, hd2, _⟩ :=
      collectSources_F m io keys j hio_keys hkeys_nodup hrow_nodup
        hres_keys hcover i2 hi2 hP2
    rw [hd1, hd2] at heq
    simp only at heq
    have := hown (i1, res1) hm1 (i2, res2) hm2 (j, (w1, f1)) hq1
      (j, (w2, f2)) hq2 (by simp only; rw [heq])
    simpa using this
  have h := foldl_dictSet_filter_map
    (fun i => (matrixRow m i).any (fun p => p.1 = j))
    (fun i => dlookup (dlookup io i []) j (NId.input 0, 0)) keys []
    (by intro i _ _ p hp; simp at hp) hinj hkeys_nodup
  simpa [collectSources] using h

end Balancer

namespace Balancer

/-- In a keyed list with distinct keys, values of equal keys agree. -/
theorem mem_keyed_unique {α : Type} (l : List (Nat × α))
    (hn : (l.map (fun p => p.1)).Nodup) (k : Nat) (a b : α)
    (ha : (k, a) ∈ l) (hb : (k, b) ∈ l) : a = b := by
  have h1 := find_of_mem_nodupkeys l hn (k, a) ha
  have h2 := find_of_mem_nodupkeys l hn (k, b) hb
  rw [h1] at h2
  injection h2 with h3
  exact congrArg Prod.snd h3

/-- The `sources` dict never repeats a feeding node. -/
theorem collectSources_ids_nodup (m : List (Nat × Nat × Nat))
    (io : List (Nat × List (Nat × NId × Nat))) (keys : List Nat) (j : Nat)
    (hio_keys : io.map (fun p => p.1) = keys)
    (hkeys_nodup : keys.Nodup)
    (hrow_nodup : ∀ i ∈ keys, ((matrixRow m i).map (fun q => q.1)).Nodup)
    (hres_keys : ∀ p ∈ io, p.2.map (fun q => q.1)
      = (matrixRow m p.1).map (fun q => q.1))
    (hcover : ∀ p ∈ io, ∀ jf ∈ matrixRow m p.1,
      ∃ w, (jf.1, (w, jf.2)) ∈ p.2)
    (hown : ∀ p1 ∈ io, ∀ p2 ∈ io, ∀ q1 ∈ p1.2, ∀ q2 ∈ p2.2,
      q1.2.1 = q2.2.1 → p1.1 = p2.1) :
    ((collectSources m io keys j).map (fun p => p.1)).Nodup := by
  rw [collectSources_eq m io keys j hio_keys hkeys_nodup hrow_nodup
    hres_keys hcover hown, List.map_map]
  refine List.Nodup.map_on ?_ (hkeys_nodup.filter _)
  · intro i1 hi1 i2 hi2 heq
    rw [List.mem_filter] at hi1 hi2
    obtain ⟨res1, hm1, w1, f1, hq1, hd1, _⟩ :=
      collectSources_F m io keys j hio_keys hkeys_nodup hrow_nodup
        hres_keys hcover i1 hi1.1 hi1.2
    obtain ⟨res2, hm2, w2, f2, hq2, hd2, _⟩ :=
      collectSources_F m io keys j hio_keys hkeys_nodup hrow_nodup
        hres_keys hcover i2 hi2.1 hi2.2
    simp only [Function.comp, hd1, hd2] at heq
    have := hown (i1, res1) hm1 (i2, res2) hm2 (j, (w1, f1)) hq1
      (j, (w2, f2)) hq2 (by simp only; rw [heq])
    simpa using this

/-- Every feeding node of the `sources` dict is a recorded feeding node of
one listed row, with that row's flow. -/
theorem collectSources_vals (m : List (Nat × Nat × Nat))
    (io : List (Nat × List (Nat × NId × Nat))) (keys : List Nat) (j : Nat)
    (hio_keys : io.map (fun p => p.1) = keys)
    (hkeys_nodup : keys.Nodup)
    (hrow_nodup : ∀ i ∈ keys, ((matrixRow m i).map (fun q => q.1)).Nodup)
    (hres_keys : ∀ p ∈ io, p.2.map (fun q => q.1)
      = (matrixRow m p.1).map (fun q => q.1))
    (hcover : ∀ p ∈ io, ∀ jf ∈ matrixRow m p.1,
      ∃ w, (jf.1, (w, jf.2)) ∈ p.2)
    (hown : ∀ p1 ∈ io, ∀ p2 ∈ io, ∀ q1 ∈ p1.2, ∀ q2 ∈ p2.2,
      q1.2.1 = q2.2.1 → p1.1 = p2.1) :
    ∀ p ∈ collectSources m io keys j, ∃ i ∈ keys,
      ∃ res, (i, res) ∈ io ∧ (j, (p.1, p.2)) ∈ res := by
  intro p hp
  rw [collectSources_eq m io keys j hio_keys hkeys_nodup hrow_nodup
    hres_keys hcover hown] at hp
  obtain ⟨i, hi, hip⟩ := List.mem_map.mp hp
  rw [List.mem_filter] at hi
  obtain ⟨res, hm, w, f, hq, hd, _⟩ :=
    collectSources_F m io keys j hio_keys hkeys_nodup hrow_nodup
      hres_keys hcover i hi.1 hi.2
  refine ⟨i, hi.1, res, hm, ?_⟩
  rw [← hip, hd]
  exact hq

end Balancer

namespace Balancer

/-- How often (and with how much flow) a node owned by row `i0` appears in
one output's `sources` dict: exactly as often as row `i0`'s `dest_sources`
names it for that output. -/
theorem collectSources_count (m : List (Nat × Nat × Nat))
    (io : List (Nat × List (Nat × NId × Nat))) (keys : List Nat) (j : Nat)
    (hio_keys : io.map (fun p => p.1) = keys)
    (hkeys_nodup : keys.Nodup)
    (hrow_nodup : ∀ i ∈ keys, ((matrixRow m i).map (fun q => q.1)).Nodup)
    (hres_keys : ∀ p ∈ io, p.2.map (fun q => q.1)
      = (matrixRow m p.1).map (fun q => q.1))
    (hcover : ∀ p ∈ io, ∀ jf ∈ matrixRow m p.1,
      ∃ w, (jf.1, (w, jf.2)) ∈ p.2)
    (hown : ∀ p1 ∈ io, ∀ p2 ∈ io, ∀ q1 ∈ p1.2, ∀ q2 ∈ p2.2,
      q1.2.1 = q2.2.1 → p1.1 = p2.1)
    (v : NId) (i0 : Nat) (res0 : List (Nat × NId × Nat))
    (hp0 : (i0, res0) ∈ io)
    (hownv : ∀ p ∈ io, ∀ q ∈ p.2, q.2.1 = v → p.1 = i0) :
    idCount (collectSources m io keys j) v
      = dsValCount (res0.filter (fun q => q.1 = j)) v ∧
    idFlow (collectSources m io keys j) v
      = dsValFlow (res0.filter (fun q => q.1 = j)) v := by
  have hio_nodup : (io.map (fun p => p.1)).Nodup := by
    rw [hio_keys]
    exact hkeys_nodup
  have hi0k : i0 ∈ keys := by
    rw [← hio_keys]
    exact List.mem_map.mpr ⟨(i0, res0), hp0, rfl⟩
  have hres0_nodup : (res0.map (fun q => q.1)).Nodup := by
    have h := hres_keys (i0, res0) hp0
    simp only at h
    rw [h]
    exact hrow_nodup i0 hi0k
  have hids := collectSources_ids_nodup m io keys j hio_keys hkeys_nodup
    hrow_nodup hres_keys hcover hown
  by_cases hex : ∃ f, (j, (v, f)) ∈ res0
  · obtain ⟨f, hf⟩ := hex
    have hfil : res0.filter (fun q => q.1 = j) = [(j, (v, f))] :=
      filter_key_of_mem_nodup res0 hres0_nodup j (v, f) hf
    have hjrow : j ∈ (matrixRow m i0).map (fun q => q.1) := by
      have h := hres_keys (i0, res0) hp0
      simp only at h
      rw [← h]
      exact List.mem_map.mpr ⟨(j, (v, f)), hf, rfl⟩
    have hP : (matrixRow m i0).any (fun p => p.1 = j) = true := by
      rw [List.any_eq_true]
      obtain ⟨q, hq, hqj⟩ := List.mem_map.mp hjrow
      exact ⟨q, hq, by simpa using hqj⟩
    obtain ⟨res1, hm1, w1, f1, hq1, hd1, _⟩ :=
      collectSources_F m io keys j hio_keys hkeys_nodup hrow_nodup
        hres_keys hcover i0 hi0k hP
    have hres1 : res1 = res0 := mem_keyed_unique io hio_nodup i0 res1 res0
      hm1 hp0
    subst hres1
    have hwf : ((w1, f1) : NId × Nat) = (v, f) :=
      mem_keyed_unique res1 hres0_nodup j (w1, f1) (v, f) hq1 hf
    have hmem : (v, f) ∈ collectSources m io keys j := by
      rw [collectSources_eq m io keys j hio_keys hkeys_nodup hrow_nodup
        hres_keys hcover hown]
      refine List.mem_map.mpr ⟨i0, List.mem_filter.mpr ⟨hi0k, hP⟩, ?_⟩
      rw [hd1, hwf]
    obtain ⟨h1, h2⟩ := idCount_idFlow_of_mem _ hids v f hmem
    rw [h1, h2, hfil]
    constructor
    · simp [dsValCount]
    · simp [dsValFlow]
  · have hz1 : ∀ q ∈ res0.filter (fun q => q.1 = j), q.2.1 ≠ v := by
      intro q hq heq
      rw [List.mem_filter] at hq
      apply hex
      refine ⟨q.2.2, ?_⟩
      have hq1j : q.1 = j := by simpa using hq.2
      have : q = (j, (v, q.2.2)) := by
        obtain ⟨qa, qb, qc⟩ := q
        simp only at hq1j heq
        rw [hq1j, heq]
      rw [← this]
      exact hq.1
    have hz2 : ∀ p ∈ collectSources m io keys j, p.1 ≠ v := by
      intro p hp heq
      obtain ⟨i, hi, res, hm, hq⟩ := collectSources_vals m io keys j
        hio_keys hkeys_nodup hrow_nodup hres_keys hcover hown p hp
      have hi0 : i = i0 := hownv (i, res) hm (j, (p.1, p.2)) hq
        (by simpa using heq)
      subst hi0
      have hres : res = res0 := mem_keyed_unique io hio_nodup i res res0
        hm hp0
      subst hres
      apply hex
      refine ⟨p.2, ?_⟩
      rw [← heq]
      exact hq
    obtain ⟨h1, h2⟩ := idCount_idFlow_of_not_mem _ v hz2
    rw [h1, h2]
    constructor
    · rw [dsValCount_eq_zero _ _ hz1]
    · rw [dsValFlow_eq_zero _ _ hz1]

/-- A node no row names never appears in a `sources` dict. -/
theorem collectSources_none (m : List (Nat × Nat × Nat))
    (io : List (Nat × List (Nat × NId × Nat))) (keys : List Nat) (j : Nat)
    (hio_keys : io.map (fun p => p.1) = keys)
    (hkeys_nodup : keys.Nodup)
    (hrow_nodup : ∀ i ∈ keys, ((matrixRow m i).map (fun q => q.1)).Nodup)
    (hres_keys : ∀ p ∈ io, p.2.map (fun q => q.1)
      = (matrixRow m p.1).map (fun q => q.1))
    (hcover : ∀ p ∈ io, ∀ jf ∈ matrixRow m p.1,
      ∃ w, (jf.1, (w, jf.2)) ∈ p.2)
    (hown : ∀ p1 ∈ io, ∀ p2 ∈ io, ∀ q1 ∈ p1.2, ∀ q2 ∈ p2.2,
      q1.2.1 = q2.2.1 → p1.1 = p2.1)
    (v : NId)
    (hnone : ∀ p ∈ io, ∀ q ∈ p.2, q.2.1 ≠ v) :
    idCount (collectSources m io keys j) v = 0 ∧
    idFlow (collectSources m io keys j) v = 0 := by
  apply idCount_idFlow_of_not_mem
  intro p hp heq
  obtain ⟨i, hi, res, hm, hq⟩ := collectSources_vals m io keys j
    hio_keys hkeys_nodup hrow_nodup hres_keys hcover hown p hp
  exact hnone (i, res) hm (j, (p.1, p.2)) hq (by simpa using heq)

/-- The flows of one output's `sources` dict sum to its column amount. -/
theorem collectSources_flowSum (m : List (Nat × Nat × Nat))
    (io : List (Nat × List (Nat × NId × Nat))) (keys : List Nat) (j : Nat)
    (hio_keys : io.map (fun p => p.1) = keys)
    (hkeys_nodup : keys.Nodup)
    (hrow_nodup : ∀ i ∈ keys, ((matrixRow m i).map (fun q => q.1)).Nodup)
    (hres_keys : ∀ p ∈ io, p.2.map (fun q => q.1)
      = (matrixRow m p.1).map (fun q => q.1))
    (hcover : ∀ p ∈ io, ∀ jf ∈ matrixRow m p.1,
      ∃ w, (jf.1, (w, jf.2)) ∈ p.2)
    (hown : ∀ p1 ∈ io, ∀ p2 ∈ io, ∀ q1 ∈ p1.2, ∀ q2 ∈ p2.2,
      q1.2.1 = q2.2.1 → p1.1 = p2.1)
    (hcovm : ∀ e ∈ m, e.1 ∈ keys) :
    ((collectSources m io keys j).map (fun p => p.2)).sum = colAmt m j := by
  rw [collectSources_eq m io keys j hio_keys hkeys_nodup hrow_nodup
    hres_keys hcover hown, List.map_map]
  have hstep : ∀ i ∈ keys.filter
      (fun i => (matrixRow m i).any (fun p => p.1 = j)),
      ((fun p : NId × Nat => p.2) ∘
        (fun i => dlookup (dlookup io i []) j (NId.input 0, 0))) i
        = rowColAmt m i j := by
    intro i hi
    rw [List.mem_filter] at hi
    obtain ⟨res, hm, w, f, hq, hd, hrow⟩ :=
      collectSources_F m io keys j hio_keys hkeys_nodup hrow_nodup
        hres_keys hcover i hi.1 hi.2
    simp only [Function.comp, hd]
    rw [rowColAmt_of_mem m i j f (hrow_nodup i hi.1)
      ((mem_matrixRow_iff m i j f).mp hrow)]
  rw [List.map_congr_left hstep, sum_filter_map]
  have hstep2 : ∀ i ∈ keys,
      (if (matrixRow m i).any (fun p => p.1 = j) then rowColAmt m i j
        else 0) = rowColAmt m i j := by
    intro i hi
    by_cases hP : (matrixRow m i).any (fun p => p.1 = j) = true
    · rw [if_pos hP]
    · rw [if_neg hP]
      have hasg : assigned m i j = false := by
        rcases Bool.eq_false_or_eq_true (assigned m i j) with h | h
        · exfalso
          apply hP
          rw [any_row_iff]
          exact (assigned_iff m i j).mp h
        · exact h
      rw [rowColAmt_of_unassigned m i j hasg]
  rw [List.map_congr_left hstep2]
  exact colAmt_eq_keys_sum m keys j hkeys_nodup hcovm

end Balancer

namespace Balancer

/-- Full behaviour of the output-wiring phase: per output, the flow
arriving at its node is the sum of its `sources` flows; per non-merger
node, its new out-edges and out-flow are counted by its appearances in the
`sources` dicts; every fresh merger receives at most three edges and feeds
exactly one; every new edge points at an output node or a fresh merger. -/
theorem outputPhase_spec (m : List (Nat × Nat × Nat))
    (io : List (Nat × List (Nat × NId × Nat))) (keys : List Nat) :
    ∀ (js : List Nat) (st : BState),
      js.Nodup →
      (∀ j ∈ js, ((collectSources m io keys j).map
        (fun p => p.1)).Nodup) →
      (∀ j ∈ js, ∀ p ∈ collectSources m io keys j, ∀ c,
        p.1 ≠ NId.merger c) →
      ∃ es ns,
        (outputPhase m io keys js st).edges = st.edges ++ es ∧
        st.counter ≤ (outputPhase m io keys js st).counter ∧
        (outputPhase m io keys js st).nodes = st.nodes ++ ns ∧
        (∀ n ∈ ns, ∃ c, st.counter ≤ c ∧
          c < (outputPhase m io keys js st).counter ∧
          n.id = NId.merger c) ∧
        (∀ j ∈ js, dstFlowSum es (NId.output j)
          = ((collectSources m io keys j).map (fun p => p.2)).sum) ∧
        (∀ v, (∀ c, v ≠ NId.merger c) →
          srcCount es v = (js.map (fun j =>
            idCount (collectSources m io keys j) v)).sum ∧
          srcFlowSum es v = (js.map (fun j =>
            idFlow (collectSources m io keys j) v)).sum) ∧
        (∀ c, st.counter ≤ c → c < (outputPhase m io keys js st).counter →
          dstCount es (NId.merger c) ≤ 3 ∧
          srcCount es (NId.merger c) = 1) ∧
        (∀ e ∈ es, (∃ j ∈ js, e.dst = NId.output j) ∨
          ∃ c, st.counter ≤ c ∧
            c < (outputPhase m io keys js st).counter ∧
            e.dst = NId.merger c) ∧
        (∀ e ∈ es, (∃ j ∈ js, ∃ p ∈ collectSources m io keys j,
            e.src = p.1) ∨
          ∃ c, st.counter ≤ c ∧
            c < (outputPhase m io keys js st).counter ∧
            e.src = NId.merger c) := by
  intro js
  induction js with
  | nil =>
    intro st _ _ _
    refine ⟨[], [], by simp [outputPhase], le_refl _,
      by simp [outputPhase], by simp, by simp, ?_, ?_, by simp, by simp⟩
    · intro v _
      exact ⟨rfl, rfl⟩
    · intro c h1 h2
      simp only [outputPhase] at h2
      omega
  | cons j js ih =>
    intro st hnodup hsrcn hsrcm
    rw [List.nodup_cons] at hnodup
    obtain ⟨hjs, hnodup⟩ := hnodup
    obtain ⟨es1, ns1, w1, w2, w3, w4, w5, w6, w7, w8, w9⟩ :=
      wireOutput_spec st (collectSources m io keys j) j
        (hsrcm j (by simp)) (hsrcn j (by simp))
    obtain ⟨es2, ns2, g1, g2, g3, g4, g5, g6, g7, g8, g9⟩ :=
      ih (wireOutput st (collectSources m io keys j) j) hnodup
        (fun j2 h => hsrcn j2 (List.mem_cons_of_mem _ h))
        (fun j2 h => hsrcm j2 (List.mem_cons_of_mem _ h))
    simp only [outputPhase]
    refine ⟨es1 ++ es2, ns1 ++ ns2, ?_, ?_, ?_, ?_, ?_, ?_, ?_, ?_, ?_⟩
    · rw [g1, w1, List.append_assoc]
    · omega
    · rw [g3, w3, List.append_assoc]
    · intro n hn
      rcases List.mem_append.mp hn with hn1 | hn2
      · obtain ⟨c, h1, h2, h3⟩ := w4 n hn1
        exact ⟨c, h1, by omega, h3⟩
      · obtain ⟨c, h1, h2, h3⟩ := g4 n hn2
        exact ⟨c, by omega, h2, h3⟩
    · intro j2 hj2
      rw [dstFlowSum_append]
      rcases List.mem_cons.mp hj2 with rfl | hj2b
      · have h2 : dstFlowSum es2 (NId.output j2) = 0 := by
          apply dstFlowSum_eq_zero
          intro e he heq
          rcases g8 e he with ⟨j3, hj3, h⟩ | ⟨c, h1x, h2x, h3x⟩
          · rw [heq] at h
            have := NId.output.inj h
            subst this
            exact hjs hj3
          · rw [heq] at h3x
            cases h3x
        rw [h2, w8]
        omega
      · have h1 : dstFlowSum es1 (NId.output j2) = 0 := by
          apply dstFlowSum_eq_zero
          intro e he heq
          rcases w7 e he with h | ⟨c, h1x, h2x, h3x⟩
          · rw [heq] at h
            have := NId.output.inj h
            subst this
            exact hjs hj2b
          · rw [heq] at h3x
            cases h3x
        rw [h1, g5 j2 hj2b]
        omega
    · intro v hv
      rw [srcCount_append, srcFlowSum_append, List.map_cons,
        List.sum_cons, List.map_cons, List.sum_cons]
      obtain ⟨hw1, hw2⟩ := w5 v hv
      obtain ⟨hg1, hg2⟩ := g6 v hv
      rw [hw1, hw2, hg1, hg2]
      exact ⟨rfl, rfl⟩
    · intro c h1 h2
      rw [dstCount_append, srcCount_append]
      by_cases hc : c < (wireOutput st (collectSources m io keys j)
          j).counter
      · obtain ⟨hd1, hs1⟩ := w9 c h1 hc
        have hd2 : dstCount es2 (NId.merger c) = 0 := by
          apply dstCount_eq_zero
          intro e he heq
          rcases g8 e he with ⟨j3, _, h⟩ | ⟨c2, h1x, h2x, h3x⟩
          · rw [heq] at h
            cases h
          · rw [heq] at h3x
            have := NId.merger.inj h3x
            omega
        have hs2 : srcCount es2 (NId.merger c) = 0 := by
          apply srcCount_eq_zero
          intro e he heq
          rcases g9 e he with ⟨j3, hj3, p, hp, h⟩ | ⟨c2, h1x, h2x, h3x⟩
          · rw [heq] at h
            exact hsrcm j3 (List.mem_cons_of_mem _ hj3) p hp c h.symm
          · rw [heq] at h3x
            have := NId.merger.inj h3x
            omega
        rw [hd2, hs2, hs1]
        exact ⟨by omega, rfl⟩
      · have hge : (wireOutput st (collectSources m io keys j)
            j).counter ≤ c := by omega
        obtain ⟨hd2, hs2⟩ := g7 c hge h2
        have hd1 : dstCount es1 (NId.merger c) = 0 := by
          apply dstCount_eq_zero
          intro e he heq
          rcases w7 e he with h | ⟨c2, h1x, h2x, h3x⟩
          · rw [heq] at h
            cases h
          · rw [heq] at h3x
            have := NId.merger.inj h3x
            omega
        have hs1 : srcCount es1 (NId.merger c) = 0 := by
          apply srcCount_eq_zero
          intro e he heq
          rcases w6 e he with ⟨p, hp, h⟩ | ⟨c2, h1x, h2x, h3x⟩
          · rw [heq] at h
            exact hsrcm j (by simp) p hp c h.symm
          · rw [heq] at h3x
            have := NId.merger.inj h3x
            omega
        rw [hd1, hs1, hs2]
        exact ⟨by omega, by omega⟩
    · intro e he
      rcases List.mem_append.mp he with he1 | he2
      · rcases w7 e he1 with h | ⟨c, h1, h2, h3⟩
        · exact Or.inl ⟨j, by simp, h⟩
        · exact Or.inr ⟨c, h1, by omega, h3⟩
      · rcases g8 e he2 with ⟨j2, hj2, h⟩ | ⟨c, h1, h2, h3⟩
        · exact Or.inl ⟨j2, List.mem_cons_of_mem _ hj2, h⟩
        · exact Or.inr ⟨c, by omega, h2, h3⟩
    · intro e he
      rcases List.mem_append.mp he with he1 | he2
      · rcases w6 e he1 with ⟨p, hp, h⟩ | ⟨c, h1, h2, h3⟩
        · exact Or.inl ⟨j, by simp, p, hp, h⟩
        · exact Or.inr ⟨c, h1, by omega, h3⟩
      · rcases g9 e he2 with ⟨j2, hj2, p, hp, h⟩ | ⟨c, h1, h2, h3⟩
        · exact Or.inl ⟨j2, List.mem_cons_of_mem _ hj2, p, hp, h⟩
        · exact Or.inr ⟨c, by omega, h2, h3⟩

end Balancer

namespace Balancer

/-- Every value of a natural list bounds into its sum. -/
theorem mem_le_sum (l : List Nat) (x : Nat) (h : x ∈ l) : x ≤ l.sum :=
  List.single_le_sum (fun y _ => Nat.zero_le y) x h

/-- Master description of the graph of a feasible call: flow conservation
at the input and output nodes, and the degree discipline of the splitter
and merger devices. -/
theorem designBalancer_master (inputs outputs : List Nat)
    (hsum : inputs.sum = outputs.sum) :
    (∀ i, i < inputs.length →
      outFlowSum (graphOf (designBalancer inputs outputs)) (NId.input i)
        = inputs.getD i 0) ∧
    (∀ j, j < outputs.length →
      inFlowSum (graphOf (designBalancer inputs outputs)) (NId.output j)
        = outputs.getD j 0) ∧
    (∀ n ∈ (graphOf (designBalancer inputs outputs)).nodes,
      (∀ c, n.id = NId.splitter c →
        inDeg (graphOf (designBalancer inputs outputs)) n.id = 1 ∧
        outDeg (graphOf (designBalancer inputs outputs)) n.id ≤ 3) ∧
      (∀ c, n.id = NId.merger c →
        inDeg (graphOf (designBalancer inputs outputs)) n.id ≤ 3 ∧
        outDeg (graphOf (designBalancer inputs outputs)) n.id = 1)) := by
  have henum : inputs.enum = List.enumFrom 0 inputs := rfl
  simp only [designBalancer, hsum, ne_eq, not_true_eq_false, if_false,
    graphOf]
  set m := flowMatrix inputs outputs with hm
  set keys := dedupFirst (m.map (fun e => e.1)) [] with hkeysdef
  set ST2 := addOutputNodes (List.range outputs.length)
    (addInputNodes (List.range inputs.length) ⟨0, [], []⟩) with hST2
  set SP := splitPhase m keys ST2 with hSP
  set ST4 := outputPhase m SP.2 keys (List.range outputs.length) SP.1
    with hST4
  obtain ⟨nsI, a1, a2, a3, a4⟩ :=
    addInputNodes_state (List.range inputs.length) ⟨0, [], []⟩
  obtain ⟨nsO, b1, b2, b3, b4⟩ :=
    addOutputNodes_state (List.range outputs.length)
      (addInputNodes (List.range inputs.length) ⟨0, [], []⟩)
  rw [← hST2] at b1 b2 b3
  have hc2 : ST2.counter = 0 := by
    rw [b1]
    exact a1
  have he2 : ST2.edges = [] := by
    rw [b3]
    exact a3
  have hn2 : ST2.nodes = nsI ++ nsO := by
    rw [b2]
    have ha2 : (addInputNodes (List.range inputs.length)
        (⟨0, [], []⟩ : BState)).nodes = [] ++ nsI := a2
    rw [ha2]
    simp
  have hkeys_nodup : keys.Nodup := (dedupFirst_nodup _ []).1
  have hcovkeys : ∀ e ∈ m, e.1 ∈ keys := fun e he =>
    dedupFirst_complete _ [] e.1 (List.mem_map.mpr ⟨e, he, rfl⟩) (by simp)
  have hrowkeys : ∀ i, ((matrixRow m i).map (fun q => q.1)).Nodup :=
    fun i => af_row_keys_nodup outputs inputs 0 0 i
  have hrowlt : ∀ i, ∀ q ∈ matrixRow m i, q.1 < outputs.length := by
    intro i q hq
    have hmem : (i, q.1, q.2) ∈ m := (mem_matrixRow_iff m i q.1 q.2).mp
      (by simpa using hq)
    rw [hm] at hmem
    have := af_out_lt outputs inputs.enum 0 (i, q.1, q.2) hmem
    simpa using this
  have hrne : ∀ i ∈ keys, matrixRow m i ≠ [] := by
    intro i hi
    have h1 : i ∈ m.map (fun e => e.1) := dedupFirst_sub _ [] i hi
    obtain ⟨e, he, hei⟩ := List.mem_map.mp h1
    have hmem : (e.2.1, e.2.2) ∈ matrixRow m i := by
      apply (mem_matrixRow_iff m i e.2.1 e.2.2).mpr
      rw [← hei]
      exact he
    exact List.ne_nil_of_mem hmem
  obtain ⟨esS, nsS, s1, s2, s3, s4, s5, s6, s7, s8, s9, s10, s11, s12,
    s13⟩ := splitPhase_spec m keys ST2 hkeys_nodup hrne
      (fun i _ => hrowkeys i)
  rw [← hSP] at s1 s2 s3 s4 s5 s6 s7 s8 s9 s10 s11 s12 s13
  have hsrcn : ∀ j ∈ List.range outputs.length,
      ((collectSources m SP.2 keys j).map (fun p => p.1)).Nodup :=
    fun j _ => collectSources_ids_nodup m SP.2 keys j s5 hkeys_nodup
      (fun i _ => hrowkeys i) s6 s9 s8
  have hsrcm : ∀ j ∈ List.range outputs.length,
      ∀ p ∈ collectSources m SP.2 keys j, ∀ c, p.1 ≠ NId.merger c := by
    intro j _ p hp c heq
    obtain ⟨i, hi, res, hmio, hq⟩ := collectSources_vals m SP.2 keys j s5
      hkeys_nodup (fun i _ => hrowkeys i) s6 s9 s8 p hp
    rcases s7 (i, res) hmio (j, (p.1, p.2)) hq with ⟨c2, _, _, h⟩ | h
    · simp only at h
      rw [heq] at h
      cases h
    · simp only at h
      rw [heq] at h
      cases h
  obtain ⟨esO, nsM, p1, p2, p3, p4, p5, p6, p7, p8, p9⟩ :=
    outputPhase_spec m SP.2 keys (List.range outputs.length) SP.1
      (List.nodup_range _) hsrcn hsrcm
  have hedges : ST4.edges = esS ++ esO := by
    rw [p1, s1, he2]
    simp
  have hnodes : ST4.nodes = ((nsI ++ nsO) ++ nsS) ++ nsM := by
    rw [p3, s3, hn2]
  have hcol : ∀ j, colAmt m j = outputs.getD j 0 := by
    intro j
    have hle : outputs.sum ≤ queueTotal inputs.enum := by
      rw [henum, queueTotal_enumFrom, hsum]
    have h1 := af_colAmt outputs inputs.enum 0 j hle
    rw [Nat.zero_add] at h1
    rw [hm]
    exact h1
  have hrow : ∀ i, rowAmt m i = inputs.getD i 0 := by
    intro i
    have h1 := af_rowAmt i outputs inputs.enum 0
    have h2 := af_queueTotal outputs inputs.enum 0
    rw [henum, queueTotal_enumFrom, hsum, Nat.sub_self] at h2
    have h3 : queueFlowAt (assignQueue outputs inputs.enum 0) i = 0 := by
      have h4 := queueFlowAt_le_total (assignQueue outputs inputs.enum 0) i
      rw [henum] at h4 ⊢
      omega
    rw [h3, Nat.add_zero, henum, queueFlowAt_enumFrom] at h1
    simp only [Nat.zero_le, if_true, Nat.sub_zero] at h1
    rw [hm]
    exact h1
  have hresklt : ∀ p ∈ SP.2, ∀ q ∈ p.2, q.1 ∈ List.range outputs.length
      := by
    intro p hp q hq
    have h1 : q.1 ∈ p.2.map (fun q => q.1) := List.mem_map_of_mem _ hq
    rw [s6 p hp] at h1
    obtain ⟨qf, hqf, hqe⟩ := List.mem_map.mp h1
    rw [List.mem_range, ← hqe]
    exact hrowlt p.1 qf hqf
  refine ⟨?_, ?_, ?_⟩
  · -- flow conservation at the inputs
    intro i hi
    have hout : outFlowSum ⟨ST4.nodes, ST4.edges⟩ (NId.input i)
        = srcFlowSum ST4.edges (NId.input i) := rfl
    rw [hout, hedges, srcFlowSum_append]
    by_cases hik : i ∈ keys
    · have hex : ∃ p ∈ SP.2, p.1 = i := by
        rw [← s5] at hik
        obtain ⟨p, hp, hpi⟩ := List.mem_map.mp hik
        exact ⟨p, hp, hpi⟩
      obtain ⟨p, hp, hpi⟩ := hex
      obtain ⟨pi, pres⟩ := p
      simp only at hpi
      subst hpi
      have hflw : srcFlowSum esS (NId.input pi) + dsValFlow pres
          (NId.input pi) = ((matrixRow m pi).map (fun q => q.2)).sum :=
        (s12 (pi, pres) hp).2
      have hownv : ∀ p2 ∈ SP.2, ∀ q ∈ p2.2, q.2.1 = NId.input pi →
          p2.1 = pi := by
        intro p2 hp2 q hq heq
        rcases s7 p2 hp2 q hq with ⟨c2, _, _, h⟩ | h
        · rw [heq] at h
          cases h
        · rw [heq] at h
          exact (NId.input.inj h).symm
      have hper : ∀ j, idFlow (collectSources m SP.2 keys j)
          (NId.input pi)
          = dsValFlow (pres.filter (fun q => q.1 = j)) (NId.input pi) :=
        fun j => (collectSources_count m SP.2 keys j s5 hkeys_nodup
          (fun i2 _ => hrowkeys i2) s6 s9 s8 (NId.input pi) pi pres hp
          hownv).2
      have hesO : srcFlowSum esO (NId.input pi) = dsValFlow pres
          (NId.input pi) := by
        rw [(p6 (NId.input pi) (fun c h => by cases h)).2]
        have hcongr : (List.range outputs.length).map (fun j =>
            idFlow (collectSources m SP.2 keys j) (NId.input pi))
            = (List.range outputs.length).map (fun j =>
              (((pres.filter (fun q => q.1 = j)).filter
                (fun q => q.2.1 = NId.input pi)).map
                (fun q => q.2.2)).sum) := by
          apply List.map_congr_left
          intro j _
          rw [hper j]
          rfl
        rw [hcongr, sum_key_weight (fun q => q.2.2)
          (fun q => q.2.1 = NId.input pi) pres (List.range outputs.length)
          (List.nodup_range _) (fun q hq => hresklt (pi, pres) hp q hq)]
        rfl
      rw [hesO]
      have hrowsum : ((matrixRow m pi).map (fun q => q.2)).sum
          = rowAmt m pi := matrixRow_flowSum m pi
      rw [← hrow pi, ← hrowsum]
      omega
    · have hz1 : srcFlowSum esS (NId.input i) = 0 := by
        apply srcFlowSum_eq_zero
        intro e he heq
        rcases s10 e he with ⟨i2, hi2, h⟩ | ⟨c2, _, _, h⟩
        · rw [heq] at h
          have := NId.input.inj h
          subst this
          exact hik hi2
        · rw [heq] at h
          cases h
      have hz2 : srcFlowSum esO (NId.input i) = 0 := by
        rw [(p6 (NId.input i) (fun c h => by cases h)).2]
        apply List.sum_eq_zero
        intro x hx
        obtain ⟨j, hj, hjx⟩ := List.mem_map.mp hx
        rw [← hjx]
        exact (collectSources_none m SP.2 keys j s5 hkeys_nodup
          (fun i2 _ => hrowkeys i2) s6 s9 s8 (NId.input i) (by
            intro p2 hp2 q hq heq
            rcases s7 p2 hp2 q hq with ⟨c2, _, _, h⟩ | h
            · rw [heq] at h
              cases h
            · rw [heq] at h
              have := NId.input.inj h
              apply hik
              rw [this, ← s5]
              exact List.mem_map_of_mem _ hp2)).2
      have hrow0 : rowAmt m i = 0 := by
        have hfil : m.filter (fun e => e.1 = i) = [] := by
          rw [List.filter_eq_nil_iff]
          intro e he
          simp only [decide_eq_true_eq]
          intro h
          exact hik (h ▸ hcovkeys e he)
        rw [rowAmt, hfil]
        rfl
      rw [hz1, hz2, ← hrow i, hrow0]
  · -- flow conservation at the outputs
    intro j hj
    have hin : inFlowSum ⟨ST4.nodes, ST4.edges⟩ (NId.output j)
        = dstFlowSum ST4.edges (NId.output j) := rfl
    rw [hin, hedges, dstFlowSum_append]
    have hz1 : dstFlowSum esS (NId.output j) = 0 := by
      apply dstFlowSum_eq_zero
      intro e he heq
      obtain ⟨c2, _, _, h⟩ := s11 e he
      rw [heq] at h
      cases h
    rw [hz1, p5 j (List.mem_range.mpr hj),
      collectSources_flowSum m SP.2 keys j s5 hkeys_nodup
        (fun i2 _ => hrowkeys i2) s6 s9 s8 hcovkeys, hcol j]
    omega
  · -- device degrees
    intro n hn
    rw [hnodes] at hn
    have hinDeg : ∀ v, inDeg ⟨ST4.nodes, ST4.edges⟩ v
        = dstCount ST4.edges v := fun v => rfl
    have houtDeg : ∀ v, outDeg ⟨ST4.nodes, ST4.edges⟩ v
        = srcCount ST4.edges v := fun v => rfl
    constructor
    · intro c hc
      -- n is one of the split-phase splitter nodes
      have hcS : ST2.counter ≤ c ∧ c < SP.1.counter := by
        rcases List.mem_append.mp hn with hn1 | hn2
        · rcases List.mem_append.mp hn1 with hn3 | hn4
          · exfalso
            rcases List.mem_append.mp hn3 with hn5 | hn6
            · have h := (List.filterMap_eq_nil_iff.mp a4) n hn5
              rw [nodeDevId, hc] at h
              cases h
            · have h := (List.filterMap_eq_nil_iff.mp b4) n hn6
              rw [nodeDevId, hc] at h
              cases h
          · obtain ⟨c2, h1, h2, h3⟩ := s4 n hn4
            rw [hc] at h3
            have := NId.splitter.inj h3
            subst this
            exact ⟨h1, h2⟩
        · exfalso
          obtain ⟨c2, _, _, h3⟩ := p4 n hn2
          rw [hc] at h3
          cases h3
      obtain ⟨hcl, hcu⟩ := hcS
      obtain ⟨hdst1, hsrc3⟩ := s13 c hcl hcu
      have hdst2 : dstCount esO (NId.splitter c) = 0 := by
        apply dstCount_eq_zero
        intro e he heq
        rcases p8 e he with ⟨j2, _, h⟩ | ⟨c2, _, _, h⟩
        · rw [heq] at h
          cases h
        · rw [heq] at h
          cases h
      constructor
      · rw [hinDeg, hc, hedges, dstCount_append, hdst1, hdst2]
      · rw [houtDeg, hc, hedges, srcCount_append]
        have hsrcO : srcCount esO (NId.splitter c)
            = ((List.range outputs.length).map (fun j =>
              idCount (collectSources m SP.2 keys j)
                (NId.splitter c))).sum :=
          (p6 (NId.splitter c) (fun c2 h => by cases h)).1
        by_cases hex : ∃ p0 ∈ SP.2, ∃ q0 ∈ p0.2,
            q0.2.1 = NId.splitter c
        · obtain ⟨p0, hp0, q0, hq0, hv0⟩ := hex
          obtain ⟨i0, res0⟩ := p0
          have hownv : ∀ p2 ∈ SP.2, ∀ q ∈ p2.2,
              q.2.1 = NId.splitter c → p2.1 = i0 := by
            intro p2 hp2 q hq heq
            exact s8 p2 hp2 (i0, res0) hp0 q hq q0 hq0
              (heq.trans hv0.symm)
          have hper : ∀ j, idCount (collectSources m SP.2 keys j)
              (NId.splitter c) = dsValCount (res0.filter
                (fun q => q.1 = j)) (NId.splitter c) :=
            fun j => (collectSources_count m SP.2 keys j s5 hkeys_nodup
              (fun i2 _ => hrowkeys i2) s6 s9 s8 (NId.splitter c) i0 res0
              hp0 hownv).1
          have hsum2 : ((List.range outputs.length).map (fun j =>
              idCount (collectSources m SP.2 keys j)
                (NId.splitter c))).sum
              = dsValCount res0 (NId.splitter c) := by
            have hcongr : (List.range outputs.length).map (fun j =>
                idCount (collectSources m SP.2 keys j) (NId.splitter c))
                = (List.range outputs.length).map (fun j =>
                  ((res0.filter (fun q => q.1 = j)).filter
                    (fun q => q.2.1 = NId.splitter c)).length) := by
              apply List.map_congr_left
              intro j _
              rw [hper j]
              rfl
            rw [hcongr, sum_key_count (fun q => q.2.1 = NId.splitter c)
              res0 (List.range outputs.length) (List.nodup_range _)
              (fun q hq => hresklt (i0, res0) hp0 q hq)]
            rfl
          have hle2 : dsValCount res0 (NId.splitter c)
              ≤ (SP.2.map (fun p => dsValCount p.2 (NId.splitter c))).sum
              := by
            apply mem_le_sum
            exact List.mem_map.mpr ⟨(i0, res0), hp0, rfl⟩
          rw [hsrcO, hsum2]
          omega
        · have hnone : ∀ p2 ∈ SP.2, ∀ q ∈ p2.2,
              q.2.1 ≠ NId.splitter c :=
            fun p2 hp2 q hq h => hex ⟨p2, hp2, q, hq, h⟩
          have hz : ((List.range outputs.length).map (fun j =>
              idCount (collectSources m SP.2 keys j)
                (NId.splitter c))).sum = 0 := by
            apply List.sum_eq_zero
            intro x hx
            obtain ⟨j, hj, hjx⟩ := List.mem_map.mp hx
            rw [← hjx]
            exact (collectSources_none m SP.2 keys j s5 hkeys_nodup
              (fun i2 _ => hrowkeys i2) s6 s9 s8 (NId.splitter c)
              hnone).1
          rw [hsrcO, hz]
          omega
    · intro c hc
      have hcM : SP.1.counter ≤ c ∧ c < ST4.counter := by
        rcases List.mem_append.mp hn with hn1 | hn2
        · exfalso
          rcases List.mem_append.mp hn1 with hn3 | hn4
          · rcases List.mem_append.mp hn3 with hn5 | hn6
            · have h := (List.filterMap_eq_nil_iff.mp a4) n hn5
              rw [nodeDevId, hc] at h
              cases h
            · have h := (List.filterMap_eq_nil_iff.mp b4) n hn6
              rw [nodeDevId, hc] at h
              cases h
          · obtain ⟨c2, _, _, h3⟩ := s4 n hn4
            rw [hc] at h3
            cases h3
        · obtain ⟨c2, h1, h2, h3⟩ := p4 n hn2
          rw [hc] at h3
          have := NId.merger.inj h3
          subst this
          exact ⟨h1, h2⟩
      obtain ⟨hcl, hcu⟩ := hcM
      obtain ⟨hdstO, hsrcO⟩ := p7 c hcl hcu
      have hdstS : dstCount esS (NId.merger c) = 0 := by
        apply dstCount_eq_zero
        intro e he heq
        obtain ⟨c2, _, _, h⟩ := s11 e he
        rw [heq] at h
        cases h
      have hsrcS : srcCount esS (NId.merger c) = 0 := by
        apply srcCount_eq_zero
        intro e he heq
        rcases s10 e he with ⟨i2, _, h⟩ | ⟨c2, _, _, h⟩
        · rw [heq] at h
          cases h
        · rw [heq] at h
          cases h
      constructor
      · rw [hinDeg, hc, hedges, dstCount_append, hdstS]
        omega
      · rw [houtDeg, hc, hedges, srcCount_append, hsrcS, hsrcO]

end Balancer

namespace Balancer

/-- C4: for every valid call (equal input and output totals), in the graph
`design_balancer` returns the labels of the edges leaving each input node
`I<i>` sum to `inputs[i]`, and the labels of the edges entering each
output node `O<j>` sum to `outputs[j]`. -/
theorem c4_flow_conservation (inputs outputs : List Nat)
    (hsum : inputs.sum = outputs.sum) :
    (∀ i, i < inputs.length →
      outFlowSum (graphOf (designBalancer inputs outputs)) (NId.input i)
        = inputs.getD i 0) ∧
    (∀ j, j < outputs.length →
      inFlowSum (graphOf (designBalancer inputs outputs)) (NId.output j)
        = outputs.getD j 0) :=
  ⟨(designBalancer_master inputs outputs hsum).1,
   (designBalancer_master inputs outputs hsum).2.1⟩

/-- Witness for C4 on `inputs = [2, 3]`, `outputs = [4, 1]`. -/
theorem c4_flow_conservation_witness :
    outFlowSum (graphOf (designBalancer [2, 3] [4, 1])) (NId.input 1)
      = 3 ∧
    inFlowSum (graphOf (designBalancer [2, 3] [4, 1])) (NId.output 0)
      = 4 :=
  ⟨(c4_flow_conservation [2, 3] [4, 1] rfl).1 1 (by decide),
   (c4_flow_conservation [2, 3] [4, 1] rfl).2 0 (by decide)⟩

/-- C7: in every graph a valid `design_balancer` call returns, each
splitter node has exactly one incoming edge and at most three outgoing
edges, and each merger node has at most three incoming edges and exactly
one outgoing edge. -/
theorem c7_device_degrees (inputs outputs : List Nat)
    (hsum : inputs.sum = outputs.sum) :
    ∀ n ∈ (graphOf (designBalancer inputs outputs)).nodes,
      (isSplitterNode n = true →
        inDeg (graphOf (designBalancer inputs outputs)) n.id = 1 ∧
        outDeg (graphOf (designBalancer inputs outputs)) n.id ≤ 3) ∧
      (isMergerNode n = true →
        inDeg (graphOf (designBalancer inputs outputs)) n.id ≤ 3 ∧
        outDeg (graphOf (designBalancer inputs outputs)) n.id = 1) := by
  intro n hn
  have h := (designBalancer_master inputs outputs hsum).2.2 n hn
  constructor
  · intro hs
    rcases hnid : n.id with i | j | c | c | d
    · rw [isSplitterNode, hnid] at hs
      cases hs
    · rw [isSplitterNode, hnid] at hs
      cases hs
    · rw [← hnid]
      exact h.1 c hnid
    · rw [isSplitterNode, hnid] at hs
      cases hs
    · rw [isSplitterNode, hnid] at hs
      cases hs
  · intro hs
    rcases hnid : n.id with i | j | c | c | d
    · rw [isMergerNode, hnid] at hs
      cases hs
    · rw [isMergerNode, hnid] at hs
      cases hs
    · rw [isMergerNode, hnid] at hs
      cases hs
    · rw [← hnid]
      exact h.2 c hnid
    · rw [isMergerNode, hnid] at hs
      cases hs

/-- Witness for C7 on `inputs = [3, 1]`, `outputs = [2, 2]`, whose graph
has the splitter `S0` and the merger `M1`. -/
theorem c7_device_degrees_witness :
    inDeg (graphOf (designBalancer [3, 1] [2, 2])) (NId.splitter 0) = 1 ∧
    outDeg (graphOf (designBalancer [3, 1] [2, 2])) (NId.splitter 0)
      ≤ 3 ∧
    outDeg (graphOf (designBalancer [3, 1] [2, 2])) (NId.merger 1) = 1 :=
  ⟨((c7_device_degrees [3, 1] [2, 2] rfl
      ⟨NId.splitter 0, "", "diamond", "lightyellow"⟩ (by decide)).1
      (by decide)).1,
   ((c7_device_degrees [3, 1] [2, 2] rfl
      ⟨NId.splitter 0, "", "diamond", "lightyellow"⟩ (by decide)).1
      (by decide)).2,
   ((c7_device_degrees [3, 1] [2, 2] rfl
      ⟨NId.merger 1, "", "diamond", "lightcoral"⟩ (by decide)).2
      (by decide)).2⟩

end Balancer
